import Mathlib

/-! # rejection_sampling.cpp: the histogram printer

Two shallow embeddings of `rejection_sampling.cpp`.

* Namespace `RejectionSampling.Binary64` is `min`, `max`, `printHist` and `runif` in the
  arithmetic of the program: a `double` is an IEEE 754 binary64 value (finite, infinite or
  NaN), every operation is rounded on its own to nearest, ties to even (no fused
  multiply-add, no wider intermediate format), and the comparisons are those of IEEE 754.
  The claims about what the program computes are settled there.
* Namespace `RejectionSampling` is `min`, `max` and `printHist` in exact arithmetic: a
  `double` is a rational and no operation rounds. It serves the claim that is stated in exact
  arithmetic, and the two paths of the program on which no rounding takes part: equal
  samples, where `binSize` is `0`, and a negative `nBins`, where the declaration of `counts`
  throws.

Conventions of both embeddings.

* A division whose divisor is zero is undefined behaviour in C++ and is a fault of the run.
  On an IEEE implementation it yields NaN or an infinity and the run of `printHist` goes on,
  each time to the conversion `(int)` of such a value, which is undefined.
* A fault that is undefined behaviour ends the model of the run. The model makes no statement
  on what an implementation does after it.
* An `int` is an `Int`. For arguments in the range of `int` no intermediate `int` of the code
  leaves that range, so no wrap-around appears. `(int) d` truncates toward zero.
* A `vector<T>` is a `List T` with fewer than `2 ^ 31` elements, so that the `int` loop counters
  reach its size; `x[i]` outside the vector is a fault of the run.
* `vector<double> counts(n)` succeeds for every `n ≥ 0` and throws for `n < 0`.
* The counts are `double`s, as in the source: `counts[binIdx]++` is exact while the count is
  below `2 ^ 53`, and the theorems on the counts take fewer than `2 ^ 53` samples.
* `rand()` and `RAND_MAX` belong to `<cstdlib>`: the value returned by `rand()` and the
  constant `RAND_MAX` are arguments of the model of `runif`.
* `printHist` writes to standard output only. Its model returns the lines it writes, one per
  bucket: the value handed to `printf("%5.2f ")` and the number of `*` that follow it.
-/

namespace RejectionSampling

deriving instance DecidableEq for Except

/-- The ways a run of the code can end other than by returning. -/
inductive Fault
  /-- Undefined behaviour: `v[i]` with `i` outside the vector. -/
  | outOfBounds
  /-- Undefined behaviour: the second operand of `/` is zero. -/
  | divisionByZero
  /-- The exception thrown by `vector<double> counts(n)` when `n` is negative
  (`n` converts to a size above `max_size()`). -/
  | lengthError
  /-- Undefined behaviour: `(int) d` where `d` is NaN, infinite or, once truncated, outside
  the range of `int`. -/
  | undefinedConversion
  deriving DecidableEq, Repr

/-- The fault is a C++ exception, which reaches the caller, rather than undefined behaviour. -/
def Fault.isException : Fault → Bool
  | .lengthError => true
  | .outOfBounds => false
  | .divisionByZero => false
  | .undefinedConversion => false

/-! ## The program in exact arithmetic -/

/-- Template `min` of the source: `m = x[0]`, then `m = x[i] < m ? x[i] : m` for `i = 1 ..`. -/
def min {T : Type} [LinearOrder T] (x : List T) : Except Fault T :=
  match x with
  | [] => .error .outOfBounds
  | x0 :: rest => .ok (rest.foldl (fun m xi => if xi < m then xi else m) x0)

/-- Template `max` of the source: `m = x[0]`, then `m = x[i] > m ? x[i] : m` for `i = 1 ..`. -/
def max {T : Type} [LinearOrder T] (x : List T) : Except Fault T :=
  match x with
  | [] => .error .outOfBounds
  | x0 :: rest => .ok (rest.foldl (fun m xi => if xi > m then xi else m) x0)

/-- The conversion `(int) d`: truncation toward zero. -/
def castInt (d : ℚ) : Int := Int.tdiv d.num d.den

/-- The `double` division `a / b`. -/
def fdiv (a b : ℚ) : Except Fault ℚ :=
  if b = 0 then .error .divisionByZero else .ok (a / b)

/-- The declaration `vector<double> counts(nBins)`: `nBins` zeros. -/
def newCounts (nBins : Int) : Except Fault (List ℚ) :=
  if nBins < 0 then .error .lengthError else .ok (List.replicate nBins.toNat 0)

/-- The expression `(int)((v - minVal) / binSize)` of the binning loop. -/
def rawIdx (minVal binSize v : ℚ) : Except Fault Int := do
  let q ← fdiv (v - minVal) binSize
  pure (castInt q)

/-- The statement `if (binIdx >= nBins) binIdx = nBins - 1;`. -/
def clamp (nBins binIdx : Int) : Int :=
  if binIdx ≥ nBins then nBins - 1 else binIdx

/-- The value of `binIdx` at `counts[binIdx]++` for the sample `v`. -/
def binIdx (minVal binSize : ℚ) (nBins : Int) (v : ℚ) : Except Fault Int := do
  let raw ← rawIdx minVal binSize v
  pure (clamp nBins raw)

/-- The statement `counts[binIdx]++`. -/
def increment (counts : List ℚ) (binIdx : Int) : Except Fault (List ℚ) :=
  if 0 ≤ binIdx ∧ binIdx < counts.length then
    .ok (counts.set binIdx.toNat (counts.getD binIdx.toNat 0 + 1))
  else .error .outOfBounds

/-- The loop under `// count bins`, over the samples still to be read. -/
def countBins (minVal binSize : ℚ) (nBins : Int) : List ℚ → List ℚ → Except Fault (List ℚ)
  | [], counts => .ok counts
  | v :: rest, counts => do
    let i ← binIdx minVal binSize nBins v
    let counts1 ← increment counts i
    countBins minVal binSize nBins rest counts1

/-- The locals of `printHist` when the loop under `// count bins` has ended. -/
structure Histogram where
  minVal : ℚ
  maxVal : ℚ
  binSize : ℚ
  counts : List ℚ
  deriving DecidableEq, Repr

/-- Lines 30 to 40 of `printHist`: the extrema, the bin size and the bucket counts. -/
def binning (x : List ℚ) (nBins : Int) : Except Fault Histogram := do
  let minVal ← min x
  let maxVal ← max x
  let binSize ← fdiv (maxVal - minVal) nBins
  let counts0 ← newCounts nBins
  let counts ← countBins minVal binSize nBins x counts0
  pure ⟨minVal, maxVal, binSize, counts⟩

/-- One line of output: the value printed by `printf("%5.2f ")` and the number of `*`. -/
structure Line where
  label : ℚ
  stars : Nat
  deriving DecidableEq, Repr

/-- The bound `(int)((counts[i] / maxCount) * plotWidth)` of the loop that prints `*`. -/
def barLength (count maxCount : ℚ) (plotWidth : Int) : Except Fault Int := do
  let r ← fdiv count maxCount
  pure (castInt (r * plotWidth))

/-- The argument `minVal + i * binSize` of `printf("%5.2f ")` for bucket `i`. -/
def label (minVal binSize : ℚ) (i : Nat) : ℚ := minVal + i * binSize

/-- The body of the loop under `// draw bins` for bucket `i`. -/
def drawBin (h : Histogram) (maxCount : ℚ) (plotWidth : Int) (i : Nat) : Except Fault Line := do
  let c ← match h.counts[i]? with
    | some c => pure c
    | none => throw Fault.outOfBounds
  let b ← barLength c maxCount plotWidth
  pure ⟨label h.minVal h.binSize i, b.toNat⟩

/-- The loop under `// draw bins` from bucket `i` on, with `todo` buckets left. -/
def drawBins (h : Histogram) (maxCount : ℚ) (plotWidth : Int) (i : Nat) :
    Nat → Except Fault (List Line)
  | 0 => .ok []
  | todo + 1 => do
    let line ← drawBin h maxCount plotWidth i
    let rest ← drawBins h maxCount plotWidth (i + 1) todo
    pure (line :: rest)

/-- The function `printHist` of the source: the lines it writes, or the fault it ends in. -/
def printHist (x : List ℚ) (nBins plotWidth : Int) : Except Fault (List Line) := do
  let h ← binning x nBins
  let maxCount ← max h.counts
  drawBins h maxCount plotWidth 0 nBins.toNat

/-! ## The program in binary64 arithmetic -/

namespace Binary64

/-- A value of type `double`: NaN, an infinity with its sign, or a finite value given by the
rational it denotes. The sign of a zero is not kept: no operation of the program tells `-0.0`
from `+0.0` (they compare equal, a division by either is a fault, and no label is `-0.0`).
The values a `double` can hold are those fixed by `round`, see `isDouble`. -/
inductive Double
  | nan
  | inf (neg : Bool)
  | fin (q : ℚ)
  deriving DecidableEq, Repr

/-- The power `2 ^ k` for an integer `k`. -/
def pow2 (k : Int) : ℚ :=
  if 0 ≤ k then ((2 ^ k.toNat : Nat) : ℚ) else mkRat 1 (2 ^ (-k).toNat)

/-- Binary search, over `b` bits above `lo`, for the largest `e` with `2 ^ e ≤ q`. -/
def expoSearch (q : ℚ) : Nat → Int → Int
  | 0, lo => lo
  | b + 1, lo =>
    if pow2 (lo + ((2 ^ b : Nat) : Int)) ≤ q then expoSearch q b (lo + ((2 ^ b : Nat) : Int))
    else expoSearch q b lo

/-- The binary64 exponent of `q`: the largest `e ≥ -1022` with `2 ^ e ≤ |q|`, and `-1022`
for the subnormal range. -/
def expo (q : ℚ) : Int := expoSearch |q| 11 (-1022)

/-- Rounding of a rational to the nearest integer, ties to the even one. -/
def roundEven (r : ℚ) : Int :=
  if r - ⌊r⌋ < 1 / 2 then ⌊r⌋
  else if 1 / 2 < r - ⌊r⌋ then ⌊r⌋ + 1
  else if ⌊r⌋ % 2 = 0 then ⌊r⌋ else ⌊r⌋ + 1

/-- The spacing of the binary64 values around `q`: 53 significant bits. -/
def ulp (q : ℚ) : ℚ := pow2 (expo q - 52)

/-- The multiple of `ulp q` nearest to `q`, ties to the even multiple. -/
def roundFinite (q : ℚ) : ℚ := roundEven (q / ulp q) * ulp q

/-- Rounding to nearest, ties to even, of the exact result `q` of an operation: an infinity
when the rounded magnitude reaches `2 ^ 1024`. -/
def round (q : ℚ) : Double :=
  if pow2 1024 ≤ |q| then .inf (decide (q < 0))
  else if pow2 1024 ≤ |roundFinite q| then .inf (decide (q < 0))
  else .fin (roundFinite q)

/-- The value is one a `double` can hold. -/
def isDouble : Double → Bool
  | .fin q => decide (round q = .fin q)
  | _ => true

/-- The comparison `a < b` of two `double`s. -/
def lt : Double → Double → Bool
  | .nan, _ => false
  | _, .nan => false
  | .inf n, .inf m => n && !m
  | .inf n, .fin _ => n
  | .fin _, .inf m => !m
  | .fin p, .fin q => decide (p < q)

/-- The comparison `a <= b` of two `double`s. -/
def le : Double → Double → Bool
  | .nan, _ => false
  | _, .nan => false
  | .inf n, .inf m => n || !m
  | .inf n, .fin _ => n
  | .fin _, .inf m => !m
  | .fin p, .fin q => decide (p ≤ q)

/-- The sum `a + b` of two `double`s. -/
def fadd : Double → Double → Double
  | .nan, _ => .nan
  | _, .nan => .nan
  | .inf n, .inf m => if n = m then .inf n else .nan
  | .inf n, .fin _ => .inf n
  | .fin _, .inf m => .inf m
  | .fin p, .fin q => round (p + q)

/-- The difference `a - b` of two `double`s. -/
def fsub : Double → Double → Double
  | .nan, _ => .nan
  | _, .nan => .nan
  | .inf n, .inf m => if n = m then .nan else .inf n
  | .inf n, .fin _ => .inf n
  | .fin _, .inf m => .inf (!m)
  | .fin p, .fin q => round (p - q)

/-- The product `a * b` of two `double`s. -/
def fmul : Double → Double → Double
  | .nan, _ => .nan
  | _, .nan => .nan
  | .inf n, .inf m => .inf (xor n m)
  | .inf n, .fin q => if q = 0 then .nan else .inf (xor n (decide (q < 0)))
  | .fin p, .inf m => if p = 0 then .nan else .inf (xor (decide (p < 0)) m)
  | .fin p, .fin q => round (p * q)

/-- The quotient `a / b` of two `double`s whose divisor is not zero. -/
def quotient : Double → Double → Double
  | .nan, _ => .nan
  | _, .nan => .nan
  | .inf _, .inf _ => .nan
  | .inf n, .fin q => .inf (xor n (decide (q < 0)))
  | .fin _, .inf _ => .fin 0
  | .fin p, .fin q => round (p / q)

/-- The division `a / b` of two `double`s. -/
def fdiv (a b : Double) : Except Fault Double :=
  if b = .fin 0 then .error .divisionByZero else .ok (quotient a b)

/-- The conversion of an `int` to `double`. -/
def ofInt (n : Int) : Double := round n

/-- The conversion `(int) d`: truncation toward zero, undefined for NaN, for an infinity and
for a truncated value outside the range of `int`. -/
def castInt : Double → Except Fault Int
  | .fin q =>
    if -2147483648 ≤ RejectionSampling.castInt q ∧ RejectionSampling.castInt q ≤ 2147483647 then
      .ok (RejectionSampling.castInt q)
    else .error .undefinedConversion
  | _ => .error .undefinedConversion

/-- The read `x[i]` of a vector. -/
def readAt {T : Type} (x : List T) (i : Nat) : Except Fault T :=
  match x[i]? with
  | some v => .ok v
  | none => .error .outOfBounds

/-- Template `min` of the source at `double`: `m = x[0]`, then `m = x[i] < m ? x[i] : m` for
`i = 1 ..`. -/
def min (x : List Double) : Except Fault Double := do
  let m ← readAt x 0
  pure ((x.drop 1).foldl (fun m xi => if lt xi m then xi else m) m)

/-- Template `max` of the source at `double`: `m = x[0]`, then `m = x[i] > m ? x[i] : m` for
`i = 1 ..`. -/
def max (x : List Double) : Except Fault Double := do
  let m ← readAt x 0
  pure ((x.drop 1).foldl (fun m xi => if lt m xi then xi else m) m)

/-- The declaration `vector<double> counts(nBins)`: `nBins` zeros. -/
def newCounts (nBins : Int) : Except Fault (List Double) :=
  if nBins < 0 then .error .lengthError else .ok (List.replicate nBins.toNat (.fin 0))

/-- The expression `(int)((v - minVal) / binSize)` of the binning loop. -/
def rawIdx (minVal binSize v : Double) : Except Fault Int := do
  let q ← fdiv (fsub v minVal) binSize
  castInt q

/-- The value of `binIdx` at `counts[binIdx]++` for the sample `v`: the raw index after
`if (binIdx >= nBins) binIdx = nBins - 1;`. -/
def binIdx (minVal binSize : Double) (nBins : Int) (v : Double) : Except Fault Int := do
  let raw ← rawIdx minVal binSize v
  pure (clamp nBins raw)

/-- The statement `counts[binIdx]++`. -/
def increment (counts : List Double) (binIdx : Int) : Except Fault (List Double) :=
  if 0 ≤ binIdx ∧ binIdx < counts.length then
    .ok (counts.set binIdx.toNat (fadd (counts.getD binIdx.toNat (.fin 0)) (.fin 1)))
  else .error .outOfBounds

/-- The loop under `// count bins`, over the samples still to be read. -/
def countBins (minVal binSize : Double) (nBins : Int) :
    List Double → List Double → Except Fault (List Double)
  | [], counts => .ok counts
  | v :: rest, counts => do
    let i ← binIdx minVal binSize nBins v
    let counts1 ← increment counts i
    countBins minVal binSize nBins rest counts1

/-- The locals of `printHist` when the loop under `// count bins` has ended. -/
structure Histogram where
  minVal : Double
  maxVal : Double
  binSize : Double
  counts : List Double
  deriving DecidableEq, Repr

/-- Lines 30 to 40 of `printHist`: the extrema, the bin size and the bucket counts. -/
def binning (x : List Double) (nBins : Int) : Except Fault Histogram := do
  let minVal ← min x
  let maxVal ← max x
  let binSize ← fdiv (fsub maxVal minVal) (ofInt nBins)
  let counts0 ← newCounts nBins
  let counts ← countBins minVal binSize nBins x counts0
  pure ⟨minVal, maxVal, binSize, counts⟩

/-- One line of output: the value printed by `printf("%5.2f ")` and the number of `*`. -/
structure Line where
  label : Double
  stars : Nat
  deriving DecidableEq, Repr

/-- The bound `(int)((counts[i] / maxCount) * plotWidth)` of the loop that prints `*`. -/
def barLength (count maxCount : Double) (plotWidth : Int) : Except Fault Int := do
  let r ← fdiv count maxCount
  castInt (fmul r (ofInt plotWidth))

/-- The argument `minVal + i * binSize` of `printf("%5.2f ")` for bucket `i`. -/
def label (minVal binSize : Double) (i : Nat) : Double :=
  fadd minVal (fmul (ofInt i) binSize)

/-- The body of the loop under `// draw bins` for bucket `i`. -/
def drawBin (h : Histogram) (maxCount : Double) (plotWidth : Int) (i : Nat) :
    Except Fault Line := do
  let cnt ← readAt h.counts i
  let b ← barLength cnt maxCount plotWidth
  pure ⟨label h.minVal h.binSize i, b.toNat⟩

/-- The loop under `// draw bins` from bucket `i` on, with `todo` buckets left. -/
def drawBins (h : Histogram) (maxCount : Double) (plotWidth : Int) (i : Nat) :
    Nat → Except Fault (List Line)
  | 0 => .ok []
  | todo + 1 => do
    let line ← drawBin h maxCount plotWidth i
    let rest ← drawBins h maxCount plotWidth (i + 1) todo
    pure (line :: rest)

/-- The function `printHist` of the source: the lines it writes, or the fault it ends in. -/
def printHist (x : List Double) (nBins plotWidth : Int) : Except Fault (List Line) := do
  let h ← binning x nBins
  let maxCount ← max h.counts
  drawBins h maxCount plotWidth 0 nBins.toNat

/-- The function `runif` of the source, `(rand() / (double)RAND_MAX) * (b - a) + a`, with the
value `r` returned by `rand()` and the constant `RAND_MAX` of `<cstdlib>` as arguments. -/
def runif (RAND_MAX r : Nat) (a b : Double) : Except Fault Double := do
  let u ← fdiv (ofInt r) (ofInt RAND_MAX)
  pure (fadd (fmul u (fsub b a)) a)

end Binary64

/-! # The program in exact arithmetic: lemmas -/

/-! ## The extrema -/

theorem foldl_min_spec {T : Type} [LinearOrder T] (rest : List T) (m0 : T) :
    (rest.foldl (fun m xi => if xi < m then xi else m) m0 = m0 ∨
      rest.foldl (fun m xi => if xi < m then xi else m) m0 ∈ rest) ∧
    rest.foldl (fun m xi => if xi < m then xi else m) m0 ≤ m0 ∧
    ∀ v ∈ rest, rest.foldl (fun m xi => if xi < m then xi else m) m0 ≤ v := by
  induction rest generalizing m0 with
  | nil => simp
  | cons y ys ih =>
    simp only [List.foldl_cons, List.mem_cons]
    obtain ⟨h1, h2, h3⟩ := ih (if y < m0 then y else m0)
    by_cases hy : y < m0
    · simp only [hy, if_true] at h1 h2 h3 ⊢
      refine ⟨?_, le_trans h2 hy.le, ?_⟩
      · rcases h1 with h | h
        · exact Or.inr (Or.inl h)
        · exact Or.inr (Or.inr h)
      · rintro v (rfl | hv)
        · exact h2
        · exact h3 v hv
    · simp only [hy, if_false] at h1 h2 h3 ⊢
      refine ⟨?_, h2, ?_⟩
      · rcases h1 with h | h
        · exact Or.inl h
        · exact Or.inr (Or.inr h)
      · rintro v (rfl | hv)
        · exact le_trans h2 (not_lt.mp hy)
        · exact h3 v hv

theorem foldl_max_spec {T : Type} [LinearOrder T] (rest : List T) (m0 : T) :
    (rest.foldl (fun m xi => if xi > m then xi else m) m0 = m0 ∨
      rest.foldl (fun m xi => if xi > m then xi else m) m0 ∈ rest) ∧
    m0 ≤ rest.foldl (fun m xi => if xi > m then xi else m) m0 ∧
    ∀ v ∈ rest, v ≤ rest.foldl (fun m xi => if xi > m then xi else m) m0 := by
  induction rest generalizing m0 with
  | nil => simp
  | cons y ys ih =>
    simp only [List.foldl_cons, List.mem_cons]
    obtain ⟨h1, h2, h3⟩ := ih (if y > m0 then y else m0)
    by_cases hy : y > m0
    · simp only [hy, if_true] at h1 h2 h3 ⊢
      refine ⟨?_, le_trans hy.le h2, ?_⟩
      · rcases h1 with h | h
        · exact Or.inr (Or.inl h)
        · exact Or.inr (Or.inr h)
      · rintro v (rfl | hv)
        · exact h2
        · exact h3 v hv
    · simp only [hy, if_false] at h1 h2 h3 ⊢
      refine ⟨?_, h2, ?_⟩
      · rcases h1 with h | h
        · exact Or.inl h
        · exact Or.inr (Or.inr h)
      · rintro v (rfl | hv)
        · exact le_trans (not_lt.mp hy) h2
        · exact h3 v hv

theorem min_ok_of_ne_nil {T : Type} [LinearOrder T] (x : List T) (hx : x ≠ []) :
    ∃ m, min x = .ok m := by
  cases x with
  | nil => exact absurd rfl hx
  | cons a l => exact ⟨_, rfl⟩

theorem max_ok_of_ne_nil {T : Type} [LinearOrder T] (x : List T) (hx : x ≠ []) :
    ∃ m, max x = .ok m := by
  cases x with
  | nil => exact absurd rfl hx
  | cons a l => exact ⟨_, rfl⟩

theorem min_spec {T : Type} [LinearOrder T] (x : List T) (m : T) (h : min x = .ok m) :
    m ∈ x ∧ ∀ v ∈ x, m ≤ v := by
  cases x with
  | nil => simp [min] at h
  | cons a l =>
    simp only [min, Except.ok.injEq] at h
    obtain ⟨h1, h2, h3⟩ := foldl_min_spec l a
    rw [h] at h1 h2 h3
    refine ⟨?_, ?_⟩
    · rcases h1 with h | h
      · simp [h]
      · exact List.mem_cons_of_mem _ h
    · intro v hv
      rcases List.mem_cons.mp hv with rfl | hv
      · exact h2
      · exact h3 v hv

theorem max_spec {T : Type} [LinearOrder T] (x : List T) (m : T) (h : max x = .ok m) :
    m ∈ x ∧ ∀ v ∈ x, v ≤ m := by
  cases x with
  | nil => simp [max] at h
  | cons a l =>
    simp only [max, Except.ok.injEq] at h
    obtain ⟨h1, h2, h3⟩ := foldl_max_spec l a
    rw [h] at h1 h2 h3
    refine ⟨?_, ?_⟩
    · rcases h1 with h | h
      · simp [h]
      · exact List.mem_cons_of_mem _ h
    · intro v hv
      rcases List.mem_cons.mp hv with rfl | hv
      · exact h2
      · exact h3 v hv

/-! ## Truncation -/

theorem castInt_of_nonneg (d : ℚ) (hd : 0 ≤ d) : castInt d = ⌊d⌋ := by
  unfold castInt
  rw [Rat.floor_def, Int.tdiv_eq_ediv (Rat.num_nonneg.mpr hd) (Int.ofNat_nonneg _)]

theorem castInt_intCast (n : Int) : castInt (n : ℚ) = n := by
  simp [castInt]

theorem castInt_bounds (d : ℚ) (n : Int) (h0 : 0 ≤ d) (hn : d ≤ n) :
    0 ≤ castInt d ∧ castInt d ≤ n := by
  rw [castInt_of_nonneg d h0]
  refine ⟨Int.floor_nonneg.mpr h0, ?_⟩
  have h : ((⌊d⌋ : Int) : ℚ) ≤ (n : ℚ) := (Int.floor_le d).trans hn
  exact_mod_cast h

/-! ## The bucket index -/

theorem binSize_pos (lo hi : ℚ) (nBins : Int) (hlt : lo < hi) (hn : 0 < nBins) :
    0 < (hi - lo) / nBins := by
  have h1 : (0 : ℚ) < nBins := by exact_mod_cast hn
  exact div_pos (sub_pos.mpr hlt) h1

theorem rawIdx_ok (lo bs v : ℚ) (hbs : bs ≠ 0) :
    rawIdx lo bs v = .ok (castInt ((v - lo) / bs)) := by
  simp [rawIdx, fdiv, hbs, bind, Except.bind, pure, Except.pure]

theorem binIdx_ok (lo bs : ℚ) (nBins : Int) (v : ℚ) (hbs : bs ≠ 0) :
    binIdx lo bs nBins v = .ok (clamp nBins (castInt ((v - lo) / bs))) := by
  simp [binIdx, rawIdx_ok lo bs v hbs, bind, Except.bind, pure, Except.pure]

theorem quotient_bounds (lo hi v : ℚ) (nBins : Int) (hlt : lo < hi) (hn : 0 < nBins)
    (h1 : lo ≤ v) (h2 : v ≤ hi) :
    0 ≤ (v - lo) / ((hi - lo) / nBins) ∧ (v - lo) / ((hi - lo) / nBins) ≤ nBins := by
  have hbs := binSize_pos lo hi nBins hlt hn
  have hn1 : (0 : ℚ) < nBins := by exact_mod_cast hn
  refine ⟨div_nonneg (sub_nonneg.mpr h1) hbs.le, ?_⟩
  rw [div_le_iff₀ hbs]
  have h3 : (nBins : ℚ) * ((hi - lo) / nBins) = hi - lo := by field_simp
  rw [h3]
  linarith

theorem clamp_bounds (nBins raw : Int) (h0 : 0 ≤ raw) (hn : 0 < nBins) :
    0 ≤ clamp nBins raw ∧ clamp nBins raw ≤ nBins - 1 := by
  unfold clamp
  split <;> omega

theorem clamp_castInt_bounds (lo hi v : ℚ) (nBins : Int) (hlt : lo < hi) (hn : 0 < nBins)
    (h1 : lo ≤ v) (h2 : v ≤ hi) :
    0 ≤ clamp nBins (castInt ((v - lo) / ((hi - lo) / nBins))) ∧
      clamp nBins (castInt ((v - lo) / ((hi - lo) / nBins))) ≤ nBins - 1 := by
  obtain ⟨hq0, hq1⟩ := quotient_bounds lo hi v nBins hlt hn h1 h2
  exact clamp_bounds nBins _ (castInt_bounds _ nBins hq0 hq1).1 hn

/-! ## The counting loop -/

theorem increment_ok (counts : List ℚ) (k : Int) (h0 : 0 ≤ k) (h1 : k < counts.length) :
    increment counts k = .ok (counts.set k.toNat (counts.getD k.toNat 0 + 1)) := by
  simp [increment, h0, h1]

theorem sum_set_succ (counts : List ℚ) (i : Nat) (hi : i < counts.length) :
    (counts.set i (counts.getD i 0 + 1)).sum = counts.sum + 1 := by
  induction counts generalizing i with
  | nil => simp at hi
  | cons a l ih =>
    cases i with
    | zero => simp; ring
    | succ j =>
      have hj : j < l.length := by simpa using hi
      have := ih j hj
      simp only [List.getD_eq_getElem?_getD] at this
      simp [this]; ring

theorem getElem?_set_succ (counts : List ℚ) (i j : Nat) (hi : i < counts.length)
    (hj : j < counts.length) :
    (counts.set i (counts.getD i 0 + 1))[j]? =
      some (counts.getD j 0 + if i = j then 1 else 0) := by
  rw [List.getElem?_set]
  by_cases hij : i = j
  · subst hij
    simp [hi]
  · simp [hij, List.getElem?_eq_getElem hj]

theorem countBins_spec (lo bs : ℚ) (nBins : Int) (hbs : bs ≠ 0) (xs counts : List ℚ)
    (hidx : ∀ v ∈ xs, 0 ≤ clamp nBins (castInt ((v - lo) / bs)) ∧
      clamp nBins (castInt ((v - lo) / bs)) < counts.length) :
    ∃ cs, countBins lo bs nBins xs counts = .ok cs ∧ cs.length = counts.length ∧
      cs.sum = counts.sum + xs.length ∧
      ∀ j : Nat, j < counts.length → cs[j]? = some (counts.getD j 0 +
        (xs.countP (fun v => decide (clamp nBins (castInt ((v - lo) / bs)) = (j : Int))) : Nat)) := by
  induction xs generalizing counts with
  | nil =>
    refine ⟨counts, rfl, rfl, by simp, ?_⟩
    intro j hj
    simp [List.getElem?_eq_getElem hj]
  | cons v rest ih =>
    obtain ⟨hv0, hv1⟩ := hidx v (List.mem_cons_self _ _)
    have hk : (clamp nBins (castInt ((v - lo) / bs))).toNat < counts.length := by omega
    have hlen : (counts.set (clamp nBins (castInt ((v - lo) / bs))).toNat
        (counts.getD (clamp nBins (castInt ((v - lo) / bs))).toNat 0 + 1)).length
        = counts.length := List.length_set _ _ _
    obtain ⟨cs, hc, hcl, hcs, hcj⟩ := ih
      (counts.set (clamp nBins (castInt ((v - lo) / bs))).toNat
        (counts.getD (clamp nBins (castInt ((v - lo) / bs))).toNat 0 + 1))
      (fun w hw => by rw [hlen]; exact hidx w (List.mem_cons_of_mem _ hw))
    refine ⟨cs, ?_, hcl.trans hlen, ?_, ?_⟩
    · simp only [countBins, binIdx_ok lo bs nBins v hbs, increment_ok counts _ hv0 hv1, bind,
        Except.bind]
      exact hc
    · rw [hcs, sum_set_succ counts _ hk]
      push_cast [List.length_cons]
      ring
    · intro j hj
      rw [hcj j (by rw [hlen]; exact hj)]
      have h1 := getElem?_set_succ counts _ j hk hj
      have h2 : (counts.set (clamp nBins (castInt ((v - lo) / bs))).toNat
          (counts.getD (clamp nBins (castInt ((v - lo) / bs))).toNat 0 + 1)).getD j 0
          = counts.getD j 0 +
            if (clamp nBins (castInt ((v - lo) / bs))).toNat = j then 1 else 0 := by
        rw [List.getD_eq_getElem?_getD, h1]
        rfl
      rw [h2, List.countP_cons]
      have h3 : ((clamp nBins (castInt ((v - lo) / bs))).toNat = j) ↔
          (clamp nBins (castInt ((v - lo) / bs)) = (j : Int)) := by omega
      by_cases hjj : clamp nBins (castInt ((v - lo) / bs)) = (j : Int)
      · rw [if_pos (h3.mpr hjj)]
        simp only [hjj, decide_True, if_true]
        push_cast
        congr 1
        ring
      · rw [if_neg (fun h => hjj (h3.mp h))]
        simp [hjj]

/-! ## The histogram of a valid input -/

theorem newCounts_ok (nBins : Int) (hn : 0 ≤ nBins) :
    newCounts nBins = .ok (List.replicate nBins.toNat 0) := by
  simp [newCounts, not_lt.mpr hn]

theorem fdiv_ok (a b : ℚ) (hb : b ≠ 0) : fdiv a b = .ok (a / b) := by
  simp [fdiv, hb]

theorem binning_spec (x : List ℚ) (nBins : Int) (lo hi : ℚ) (hmin : min x = .ok lo)
    (hmax : max x = .ok hi) (hlt : lo < hi) (hn : 0 < nBins) :
    ∃ cs, binning x nBins = .ok ⟨lo, hi, (hi - lo) / nBins, cs⟩ ∧ cs.length = nBins.toNat ∧
      cs.sum = x.length ∧
      ∀ j : Nat, j < nBins.toNat → cs[j]? = some (((x.countP (fun v =>
        decide (clamp nBins (castInt ((v - lo) / ((hi - lo) / nBins))) = (j : Int))) : Nat) : ℚ)) := by
  have hbs := binSize_pos lo hi nBins hlt hn
  have hn1 : (nBins : ℚ) ≠ 0 := by exact_mod_cast hn.ne.symm
  have hidx : ∀ v ∈ x, 0 ≤ clamp nBins (castInt ((v - lo) / ((hi - lo) / nBins))) ∧
      clamp nBins (castInt ((v - lo) / ((hi - lo) / nBins))) <
        ((List.replicate nBins.toNat (0 : ℚ)).length : Int) := by
    intro v hv
    obtain ⟨h0, h1⟩ := clamp_castInt_bounds lo hi v nBins hlt hn
      ((min_spec x lo hmin).2 v hv) ((max_spec x hi hmax).2 v hv)
    refine ⟨h0, ?_⟩
    rw [List.length_replicate]
    omega
  obtain ⟨cs, hc, hcl, hcs, hcj⟩ :=
    countBins_spec lo ((hi - lo) / nBins) nBins hbs.ne.symm x _ hidx
  refine ⟨cs, ?_, ?_, ?_, ?_⟩
  · simp only [binning, hmin, hmax, fdiv_ok _ _ hn1, newCounts_ok nBins hn.le, hc, bind,
      Except.bind, pure, Except.pure]
  · simpa using hcl
  · simpa using hcs
  · intro j hj
    have := hcj j (by simpa using hj)
    rw [this]
    simp [hj]

/-! ## The drawing loop -/

theorem barLength_ok (c mc : ℚ) (w : Int) (hmc : mc ≠ 0) :
    barLength c mc w = .ok (castInt (c / mc * w)) := by
  simp [barLength, fdiv, hmc, bind, Except.bind, pure, Except.pure]

theorem drawBin_ok (h : Histogram) (mc : ℚ) (w : Int) (i : Nat) (hmc : mc ≠ 0)
    (hi : i < h.counts.length) :
    drawBin h mc w i =
      .ok ⟨label h.minVal h.binSize i, (castInt (h.counts.getD i 0 / mc * w)).toNat⟩ := by
  simp [drawBin, List.getElem?_eq_getElem hi, barLength_ok _ mc w hmc, bind, Except.bind, pure,
    Except.pure]

theorem drawBins_ok (h : Histogram) (mc : ℚ) (w : Int) (hmc : mc ≠ 0) (todo i : Nat)
    (hi : i + todo ≤ h.counts.length) :
    drawBins h mc w i todo = .ok ((List.range' i todo).map (fun j =>
      (⟨label h.minVal h.binSize j, (castInt (h.counts.getD j 0 / mc * w)).toNat⟩ : Line))) := by
  induction todo generalizing i with
  | zero => rfl
  | succ n ih =>
    have h1 := drawBin_ok h mc w i hmc (by omega)
    have h2 := ih (i + 1) (by omega)
    simp only [drawBins, h1, h2, bind, Except.bind, pure, Except.pure, List.range'_succ,
      List.map_cons]

theorem counts_max_pos (cs : List ℚ) (mc : ℚ) (n : Nat) (hmax : max cs = .ok mc)
    (hsum : cs.sum = n) (hn : 0 < n) : 0 < mc := by
  by_contra hneg
  have hle : ∀ c ∈ cs, c ≤ 0 := fun c hc => ((max_spec cs mc hmax).2 c hc).trans (not_lt.mp hneg)
  have h1 : cs.sum ≤ 0 := by
    have := List.sum_le_card_nsmul cs 0 hle
    simpa using this
  have h2 : (0 : ℚ) < n := by exact_mod_cast hn
  rw [hsum] at h1
  exact absurd h2 (not_lt.mpr h1)

/-- The run of `printHist` on a valid input: the locals after the counting loop, the largest
count and the lines written. -/
theorem printHist_spec (x : List ℚ) (nBins w : Int) (lo hi : ℚ) (hmin : min x = .ok lo)
    (hmax : max x = .ok hi) (hlt : lo < hi) (hn : 0 < nBins) :
    ∃ cs mc, binning x nBins = .ok ⟨lo, hi, (hi - lo) / nBins, cs⟩ ∧ cs.length = nBins.toNat ∧
      cs.sum = x.length ∧
      (∀ j : Nat, j < nBins.toNat → cs[j]? = some (((x.countP (fun v =>
        decide (clamp nBins (castInt ((v - lo) / ((hi - lo) / nBins))) = (j : Int))) : Nat) : ℚ))) ∧
      max cs = .ok mc ∧ 0 < mc ∧ mc ∈ cs ∧ (∀ c ∈ cs, 0 ≤ c ∧ c ≤ mc) ∧
      printHist x nBins w = .ok ((List.range nBins.toNat).map (fun j =>
        (⟨label lo ((hi - lo) / nBins) j, (castInt (cs.getD j 0 / mc * w)).toNat⟩ : Line))) := by
  obtain ⟨cs, hb, hlen, hsum, hj⟩ := binning_spec x nBins lo hi hmin hmax hlt hn
  have hne : cs ≠ [] := by
    intro h
    rw [h] at hlen
    simp at hlen
    omega
  obtain ⟨mc, hmc⟩ := max_ok_of_ne_nil cs hne
  have hxpos : 0 < x.length := by
    have := (min_spec x lo hmin).1
    exact List.length_pos_of_mem this
  have hpos := counts_max_pos cs mc x.length hmc hsum hxpos
  refine ⟨cs, mc, hb, hlen, hsum, hj, hmc, hpos, (max_spec cs mc hmc).1, ?_, ?_⟩
  · intro c hc
    refine ⟨?_, (max_spec cs mc hmc).2 c hc⟩
    obtain ⟨j, hjl, rfl⟩ := List.getElem_of_mem hc
    have h1 := hj j (by omega)
    rw [List.getElem?_eq_getElem hjl] at h1
    rw [Option.some.inj h1]
    exact Nat.cast_nonneg _
  · have hd := drawBins_ok ⟨lo, hi, (hi - lo) / nBins, cs⟩ mc w hpos.ne.symm nBins.toNat 0
      (by simp [hlen])
    simp only [printHist, hb, hmc, bind, Except.bind]
    rw [hd, List.range_eq_range']

/-! ## Buckets as intervals -/

theorem clamp_castInt_eq_iff (q : ℚ) (nBins : Int) (j : Nat) (h0 : 0 ≤ q)
    (hj : (j : Int) < nBins) :
    clamp nBins (castInt q) = (j : Int) ↔
      if (j : Int) < nBins - 1 then (j : ℚ) ≤ q ∧ q < (j : ℚ) + 1 else (j : ℚ) ≤ q := by
  rw [castInt_of_nonneg q h0]
  have hf0 : 0 ≤ ⌊q⌋ := Int.floor_nonneg.mpr h0
  have hfe : ⌊q⌋ = (j : Int) ↔ (j : ℚ) ≤ q ∧ q < (j : ℚ) + 1 := by
    rw [Int.floor_eq_iff]
    push_cast
    exact Iff.rfl
  have hfl : (j : Int) ≤ ⌊q⌋ ↔ (j : ℚ) ≤ q := by
    rw [Int.le_floor]
    push_cast
    exact Iff.rfl
  unfold clamp
  by_cases hlast : (j : Int) < nBins - 1
  · rw [if_pos hlast, ← hfe]
    split <;> omega
  · rw [if_neg hlast, ← hfl]
    split <;> omega

/-! ## The extrema of equal values -/

theorem foldl_replicate_min {T : Type} [LinearOrder T] (c : T) (n : Nat) :
    (List.replicate n c).foldl (fun m xi => if xi < m then xi else m) c = c := by
  induction n with
  | zero => rfl
  | succ k ih => simpa [List.replicate_succ] using ih

theorem foldl_replicate_max {T : Type} [LinearOrder T] (c : T) (n : Nat) :
    (List.replicate n c).foldl (fun m xi => if xi > m then xi else m) c = c := by
  induction n with
  | zero => rfl
  | succ k ih => simpa [List.replicate_succ] using ih

/-! ## Further facts on truncation and on the counts -/

theorem castInt_nonpos (d : ℚ) (hd : d ≤ 0) : castInt d ≤ 0 := by
  unfold castInt
  have hnum : 0 ≤ -d.num := by
    have := Rat.num_nonpos.mpr hd
    omega
  have h1 : (0 : Int) ≤ (-d.num).tdiv d.den := Int.tdiv_nonneg hnum (Int.ofNat_nonneg _)
  rw [Int.neg_tdiv] at h1
  omega

theorem castInt_mono (d e : ℚ) (hd : 0 ≤ d) (hde : d ≤ e) : castInt d ≤ castInt e := by
  rw [castInt_of_nonneg d hd, castInt_of_nonneg e (hd.trans hde)]
  exact Int.floor_mono hde

theorem castInt_lt (d : ℚ) (n : Int) (hd : 0 ≤ d) (hn : d < n) : castInt d < n := by
  rw [castInt_of_nonneg d hd]
  exact Int.floor_lt.mpr hn

theorem castInt_zero : castInt 0 = 0 := by
  simp [castInt]

theorem min_eq_of_least {T : Type} [LinearOrder T] (x : List T) (m : T) (hm : m ∈ x)
    (hle : ∀ v ∈ x, m ≤ v) : min x = .ok m := by
  obtain ⟨m1, h1⟩ := min_ok_of_ne_nil x (List.ne_nil_of_mem hm)
  obtain ⟨h2, h3⟩ := min_spec x m1 h1
  rw [h1, le_antisymm (h3 m hm) (hle m1 h2)]

theorem max_eq_of_greatest {T : Type} [LinearOrder T] (x : List T) (m : T) (hm : m ∈ x)
    (hle : ∀ v ∈ x, v ≤ m) : max x = .ok m := by
  obtain ⟨m1, h1⟩ := max_ok_of_ne_nil x (List.ne_nil_of_mem hm)
  obtain ⟨h2, h3⟩ := max_spec x m1 h1
  rw [h1, le_antisymm (hle m1 h2) (h3 m hm)]

theorem counts_ext (cs ds : List ℚ) (n : Nat) (hc : cs.length = n) (hd : ds.length = n)
    (h : ∀ j : Nat, j < n → cs[j]? = ds[j]?) : cs = ds := by
  apply List.ext_getElem?
  intro j
  by_cases hj : j < n
  · exact h j hj
  · rw [List.getElem?_eq_none (by omega), List.getElem?_eq_none (by omega)]

theorem affine_quotient (a c lo hi v : ℚ) (nBins : Int) (ha : a ≠ 0) :
    (a * v + c - (a * lo + c)) / ((a * hi + c - (a * lo + c)) / nBins) =
      (v - lo) / ((hi - lo) / nBins) := by
  have h1 : a * v + c - (a * lo + c) = a * (v - lo) := by ring
  have h2 : (a * hi + c - (a * lo + c)) / (nBins : ℚ) = a * ((hi - lo) / nBins) := by ring
  rw [h1, h2, mul_div_mul_left _ _ ha]

/-! # Claims settled on the program in exact arithmetic -/

/-- C8, the code against the claim: on a non-empty sequence of equal samples with `nBins > 0`
the extrema coincide, `binSize` is `0`, and the first iteration of the counting loop executes
the division by `binSize`: the run of `printHist` ends in that division by zero, with no
guard, no bucket 0 filled and no line written. -/
theorem degenerate_range_divides_by_zero (c : ℚ) (n : Nat) (nBins w : Int) (hn : 0 < nBins) :
    min (List.replicate (n + 1) c) = .ok c ∧ max (List.replicate (n + 1) c) = .ok c ∧
    fdiv (c - c) nBins = .ok 0 ∧ rawIdx c 0 c = .error .divisionByZero ∧
    binning (List.replicate (n + 1) c) nBins = .error .divisionByZero ∧
    printHist (List.replicate (n + 1) c) nBins w = .error .divisionByZero := by
  have hn1 : (nBins : ℚ) ≠ 0 := by exact_mod_cast hn.ne.symm
  have hmin : min (List.replicate (n + 1) c) = .ok c := by
    simp only [List.replicate_succ, min, foldl_replicate_min]
  have hmax : max (List.replicate (n + 1) c) = .ok c := by
    simp only [List.replicate_succ, max, foldl_replicate_max]
  have hdiv : fdiv (c - c) nBins = .ok 0 := by
    rw [fdiv_ok _ _ hn1]
    simp
  have hraw : rawIdx c 0 c = .error .divisionByZero := by
    simp [rawIdx, fdiv, bind, Except.bind]
  have hbin : binning (List.replicate (n + 1) c) nBins = .error .divisionByZero := by
    simp only [binning, hmin, hmax, hdiv, newCounts_ok nBins hn.le, bind, Except.bind]
    simp only [List.replicate_succ, countBins, binIdx, hraw, bind, Except.bind]
  refine ⟨hmin, hmax, hdiv, hraw, hbin, ?_⟩
  simp only [printHist, hbin, bind, Except.bind]

/-- Witness of C8: the samples `[7,7,7]` with `nBins = 2` and `plotWidth = 16`. -/
theorem degenerate_range_divides_by_zero_witness :
    (0 : Int) < 2 ∧
    (min [(7 : ℚ), 7, 7] = .ok 7 ∧ max [(7 : ℚ), 7, 7] = .ok 7 ∧
      fdiv (7 - 7) ((2 : Int) : ℚ) = .ok 0 ∧ rawIdx 7 0 7 = .error .divisionByZero ∧
      binning [7, 7, 7] 2 = .error .divisionByZero ∧
      printHist [7, 7, 7] 2 16 = .error .divisionByZero) :=
  ⟨by decide, degenerate_range_divides_by_zero 7 2 2 16 (by decide)⟩

/-- C19, affine invariance of the binning: for a sample sequence `x` with `min < max`,
`nBins > 0`, a scale `a > 0` and a shift `c`, the run of `printHist` on the samples `a * v + c`
ends normally with the same counts and the same bar lengths as the run on `x`, with
`minVal`, `maxVal` mapped by `v ↦ a * v + c`, `binSize` multiplied by `a`, and the label of
each bucket equal to `a * (label of that bucket for x) + c`. -/
theorem affine_invariance (x : List ℚ) (nBins w : Int) (lo hi : ℚ)
    (hmin : min x = .ok lo) (hmax : max x = .ok hi) (hlt : lo < hi) (hn : 0 < nBins)
    (a c : ℚ) (ha : 0 < a) :
    ∃ h k lines rows, binning x nBins = .ok h ∧
      binning (x.map (fun v => a * v + c)) nBins = .ok k ∧
      k.counts = h.counts ∧ k.minVal = a * h.minVal + c ∧ k.maxVal = a * h.maxVal + c ∧
      k.binSize = a * h.binSize ∧
      printHist x nBins w = .ok lines ∧
      printHist (x.map (fun v => a * v + c)) nBins w = .ok rows ∧
      rows.map Line.stars = lines.map Line.stars ∧
      rows.map Line.label = lines.map (fun l => a * l.label + c) := by
  obtain ⟨hlo, hlo2⟩ := min_spec x lo hmin
  obtain ⟨hhi, hhi2⟩ := max_spec x hi hmax
  have hmin2 : min (x.map (fun v => a * v + c)) = .ok (a * lo + c) := by
    apply min_eq_of_least
    · exact List.mem_map.mpr ⟨lo, hlo, rfl⟩
    · intro u hu
      obtain ⟨v, hv, rfl⟩ := List.mem_map.mp hu
      have := mul_le_mul_of_nonneg_left (hlo2 v hv) ha.le
      linarith
  have hmax2 : max (x.map (fun v => a * v + c)) = .ok (a * hi + c) := by
    apply max_eq_of_greatest
    · exact List.mem_map.mpr ⟨hi, hhi, rfl⟩
    · intro u hu
      obtain ⟨v, hv, rfl⟩ := List.mem_map.mp hu
      have := mul_le_mul_of_nonneg_left (hhi2 v hv) ha.le
      linarith
  have hlt2 : a * lo + c < a * hi + c := by
    have := mul_lt_mul_of_pos_left hlt ha
    linarith
  obtain ⟨cs, mc, hbin, hlen, -, hj, hmc, -, -, -, hp⟩ :=
    printHist_spec x nBins w lo hi hmin hmax hlt hn
  obtain ⟨ds, md, hbin2, hlen2, -, hj2, hmd, -, -, -, hp2⟩ :=
    printHist_spec (x.map (fun v => a * v + c)) nBins w (a * lo + c) (a * hi + c) hmin2 hmax2
      hlt2 hn
  have hcd : ds = cs := by
    apply counts_ext ds cs nBins.toNat hlen2 hlen
    intro j hjn
    rw [hj2 j hjn, hj j hjn, List.countP_map]
    congr 2
    apply List.countP_congr
    intro v _
    simp only [Function.comp, affine_quotient a c lo hi v nBins ha.ne.symm]
  subst hcd
  have hmcd : md = mc := by
    rw [hmc] at hmd
    exact (Except.ok.inj hmd).symm
  subst hmcd
  refine ⟨_, _, _, _, hbin, hbin2, rfl, rfl, rfl, ?_, hp, hp2, ?_, ?_⟩
  · show (a * hi + c - (a * lo + c)) / (nBins : ℚ) = a * ((hi - lo) / nBins)
    ring
  · simp only [List.map_map]
    rfl
  · simp only [List.map_map]
    apply List.map_congr_left
    intro j _
    show label (a * lo + c) ((a * hi + c - (a * lo + c)) / nBins) j =
      a * label lo ((hi - lo) / nBins) j + c
    unfold label
    ring

/-- Witness of C19: the samples `[1,2,3,4,5]` and their images `[5,7,9,11,13]` under
`v ↦ 2 * v + 3`, with `nBins = 4` and `plotWidth = 16`: the counts are `[1,1,1,2]` for both and
the labels 1, 2, 3, 4 become 5, 7, 9, 11. -/
theorem affine_invariance_witness :
    (min [(1 : ℚ), 2, 3, 4, 5] = .ok 1 ∧ max [(1 : ℚ), 2, 3, 4, 5] = .ok 5 ∧ (1 : ℚ) < 5 ∧
      (0 : Int) < 4 ∧ (0 : ℚ) < 2) ∧
    (∃ h k lines rows, binning [1, 2, 3, 4, 5] 4 = .ok h ∧
      binning ([(1 : ℚ), 2, 3, 4, 5].map (fun v => 2 * v + 3)) 4 = .ok k ∧
      k.counts = h.counts ∧ k.minVal = 2 * h.minVal + 3 ∧ k.maxVal = 2 * h.maxVal + 3 ∧
      k.binSize = 2 * h.binSize ∧
      printHist [1, 2, 3, 4, 5] 4 16 = .ok lines ∧
      printHist ([(1 : ℚ), 2, 3, 4, 5].map (fun v => 2 * v + 3)) 4 16 = .ok rows ∧
      rows.map Line.stars = lines.map Line.stars ∧
      rows.map Line.label = lines.map (fun l => 2 * l.label + 3)) ∧
    binning [5, 7, 9, 11, 13] 4 = .ok ⟨5, 13, 2, [1, 1, 1, 2]⟩ ∧
    printHist [5, 7, 9, 11, 13] 4 16 = .ok [⟨5, 8⟩, ⟨7, 8⟩, ⟨9, 8⟩, ⟨11, 16⟩] :=
  ⟨⟨by decide!, by decide!, by decide!, by decide, by decide!⟩,
    affine_invariance [1, 2, 3, 4, 5] 4 16 1 5 (by decide!) (by decide!) (by decide!)
      (by decide) 2 3 (by decide!),
    by decide!, by decide!⟩

end RejectionSampling

namespace RejectionSampling.Binary64

/-! # The program in binary64 arithmetic: rounding -/

theorem pow2_eq (k : Int) : pow2 k = (2 : ℚ) ^ k := by
  unfold pow2
  split
  · rename_i h
    have h1 : (2 : ℚ) ^ k = (2 : ℚ) ^ ((k.toNat : Nat) : Int) := by
      rw [Int.toNat_of_nonneg h]
    rw [h1, zpow_natCast]
    push_cast
    rfl
  · rename_i h
    have hk : k = -(((-k).toNat : Nat) : Int) := by omega
    rw [Rat.mkRat_eq_div]
    conv_rhs => rw [hk, zpow_neg, zpow_natCast]
    push_cast
    simp [one_div]

theorem pow2_pos (k : Int) : 0 < pow2 k := by
  rw [pow2_eq]
  positivity

theorem pow2_le_pow2 {a b : Int} (h : a ≤ b) : pow2 a ≤ pow2 b := by
  rw [pow2_eq, pow2_eq]
  exact zpow_le_zpow_right₀ (by norm_num) h

theorem pow2_lt_pow2 {a b : Int} (h : a < b) : pow2 a < pow2 b := by
  rw [pow2_eq, pow2_eq]
  exact zpow_lt_zpow_right₀ (by norm_num) h

theorem pow2_add (a b : Int) : pow2 (a + b) = pow2 a * pow2 b := by
  rw [pow2_eq, pow2_eq, pow2_eq, zpow_add₀ (by norm_num)]

theorem pow2_zero : pow2 0 = 1 := by
  rw [pow2_eq, zpow_zero]

theorem pow2_natCast (n : Nat) : pow2 (n : Int) = (2 : ℚ) ^ n := by
  rw [pow2_eq, zpow_natCast]

/-! ### The exponent -/

theorem expoSearch_spec (q : ℚ) (b : Nat) (lo : Int)
    (h : q < pow2 (lo + ((2 ^ b : Nat) : Int))) :
    lo ≤ expoSearch q b lo ∧ expoSearch q b lo < lo + ((2 ^ b : Nat) : Int) ∧
    q < pow2 (expoSearch q b lo + 1) ∧
    ((lo < expoSearch q b lo ∨ pow2 lo ≤ q) → pow2 (expoSearch q b lo) ≤ q) := by
  induction b generalizing lo with
  | zero =>
    simp only [expoSearch]
    refine ⟨le_refl _, by norm_num, ?_, ?_⟩
    · simpa using h
    · rintro (h1 | h1)
      · exact absurd h1 (lt_irrefl _)
      · exact h1
  | succ n ih =>
    have h2 : ((2 ^ (n + 1) : Nat) : Int) = ((2 ^ n : Nat) : Int) + ((2 ^ n : Nat) : Int) := by
      push_cast
      ring
    have hpos : (0 : Int) < ((2 ^ n : Nat) : Int) := by positivity
    simp only [expoSearch]
    by_cases hc : pow2 (lo + ((2 ^ n : Nat) : Int)) ≤ q
    · rw [if_pos hc]
      have h3 : q < pow2 (lo + ((2 ^ n : Nat) : Int) + ((2 ^ n : Nat) : Int)) := by
        rw [h2, ← add_assoc] at h
        exact h
      obtain ⟨i1, i2, i3, i4⟩ := ih (lo + ((2 ^ n : Nat) : Int)) h3
      refine ⟨by omega, by omega, i3, fun _ => i4 (Or.inr hc)⟩
    · rw [if_neg hc]
      obtain ⟨i1, i2, i3, i4⟩ := ih lo (not_le.mp hc)
      exact ⟨i1, by omega, i3, i4⟩

theorem expo_spec (q : ℚ) (h : |q| < pow2 1024) :
    -1022 ≤ expo q ∧ expo q ≤ 1023 ∧ |q| < pow2 (expo q + 1) ∧
    ((-1022 < expo q ∨ pow2 (-1022) ≤ |q|) → pow2 (expo q) ≤ |q|) := by
  have h1 : |q| < pow2 (-1022 + ((2 ^ 11 : Nat) : Int)) :=
    lt_of_lt_of_le h (pow2_le_pow2 (by norm_num))
  obtain ⟨i1, i2, i3, i4⟩ := expoSearch_spec |q| 11 (-1022) h1
  refine ⟨i1, ?_, i3, i4⟩
  by_contra hcon
  have hcon1 : ¬ expoSearch |q| 11 (-1022) ≤ 1023 := hcon
  have h5 : (1024 : Int) ≤ expoSearch |q| 11 (-1022) := by omega
  have h6 : pow2 (expoSearch |q| 11 (-1022)) ≤ |q| := i4 (Or.inl (by omega))
  exact absurd (lt_of_le_of_lt (le_trans (pow2_le_pow2 h5) h6) h) (lt_irrefl _)

theorem expo_mono (a b : ℚ) (hab : |a| ≤ |b|) (hb : |b| < pow2 1024) : expo a ≤ expo b := by
  obtain ⟨a1, a2, a3, a4⟩ := expo_spec a (lt_of_le_of_lt hab hb)
  obtain ⟨b1, b2, b3, b4⟩ := expo_spec b hb
  by_contra hcon
  have h1 : expo b + 1 ≤ expo a := by omega
  have h2 : pow2 (expo a) ≤ |a| := a4 (Or.inl (by omega))
  have h3 := lt_of_le_of_lt (le_trans (le_trans (pow2_le_pow2 h1) h2) hab) b3
  exact absurd h3 (lt_irrefl _)

theorem ulp_pos (q : ℚ) : 0 < ulp q := pow2_pos _

/-! ### Rounding to an integer -/

theorem roundEven_intCast (k : Int) : roundEven (k : ℚ) = k := by
  simp [roundEven]

theorem floor_le_roundEven (r : ℚ) : ⌊r⌋ ≤ roundEven r := by
  unfold roundEven
  split
  · exact le_refl _
  · split
    · omega
    · split <;> omega

theorem roundEven_le_floor_add_one (r : ℚ) : roundEven r ≤ ⌊r⌋ + 1 := by
  unfold roundEven
  split
  · omega
  · split
    · omega
    · split <;> omega

theorem roundEven_mono {r s : ℚ} (h : r ≤ s) : roundEven r ≤ roundEven s := by
  have hf : ⌊r⌋ ≤ ⌊s⌋ := Int.floor_mono h
  rcases lt_or_eq_of_le hf with hlt | heq
  · calc roundEven r ≤ ⌊r⌋ + 1 := roundEven_le_floor_add_one r
      _ ≤ ⌊s⌋ := hlt
      _ ≤ roundEven s := floor_le_roundEven s
  · have hd : r - ⌊r⌋ ≤ s - ⌊s⌋ := by
      rw [heq]
      linarith
    unfold roundEven
    rw [heq] at hd ⊢
    by_cases h1 : r - (⌊s⌋ : ℚ) < 1 / 2
    · rw [if_pos h1]
      split
      · omega
      · split
        · omega
        · split <;> omega
    · rw [if_neg h1]
      have h2 : ¬ s - (⌊s⌋ : ℚ) < 1 / 2 := by
        intro hc
        exact h1 (lt_of_le_of_lt hd hc)
      rw [if_neg h2]
      by_cases h3 : 1 / 2 < r - (⌊s⌋ : ℚ)
      · rw [if_pos h3, if_pos (lt_of_lt_of_le h3 hd)]
      · rw [if_neg h3]
        split
        · split <;> omega
        · omega

theorem roundEven_zero : roundEven 0 = 0 := by
  have := roundEven_intCast 0
  simpa using this

/-! ### Rounding to a multiple of the spacing -/

theorem roundFinite_zero : roundFinite 0 = 0 := by
  simp [roundFinite, roundEven_zero]

theorem roundFinite_nonneg {q : ℚ} (h : 0 ≤ q) : 0 ≤ roundFinite q := by
  unfold roundFinite
  have h1 : (0 : ℚ) ≤ q / ulp q := div_nonneg h (ulp_pos q).le
  have h2 : (0 : Int) ≤ roundEven (q / ulp q) := by
    have := roundEven_mono h1
    rwa [roundEven_zero] at this
  have h3 : (0 : ℚ) ≤ (roundEven (q / ulp q) : ℚ) := by exact_mod_cast h2
  exact mul_nonneg h3 (ulp_pos q).le

theorem roundFinite_nonpos {q : ℚ} (h : q ≤ 0) : roundFinite q ≤ 0 := by
  unfold roundFinite
  have h1 : q / ulp q ≤ 0 := div_nonpos_of_nonpos_of_nonneg h (ulp_pos q).le
  have h2 : roundEven (q / ulp q) ≤ 0 := by
    have := roundEven_mono h1
    rwa [roundEven_zero] at this
  have h3 : (roundEven (q / ulp q) : ℚ) ≤ 0 := by exact_mod_cast h2
  exact mul_nonpos_of_nonpos_of_nonneg h3 (ulp_pos q).le

theorem grid_le_roundEven (k : Int) (u q : ℚ) (hu : 0 < u) (h : (k : ℚ) * u ≤ q) :
    (k : ℚ) * u ≤ roundEven (q / u) * u := by
  have h1 : (k : ℚ) ≤ q / u := (le_div_iff₀ hu).mpr h
  have h2 : k ≤ roundEven (q / u) := by
    have := roundEven_mono h1
    rwa [roundEven_intCast] at this
  have h3 : (k : ℚ) ≤ (roundEven (q / u) : ℚ) := by exact_mod_cast h2
  exact mul_le_mul_of_nonneg_right h3 hu.le

theorem roundEven_le_grid (k : Int) (u q : ℚ) (hu : 0 < u) (h : q ≤ (k : ℚ) * u) :
    roundEven (q / u) * u ≤ (k : ℚ) * u := by
  have h1 : q / u ≤ (k : ℚ) := (div_le_iff₀ hu).mpr h
  have h2 : roundEven (q / u) ≤ k := by
    have := roundEven_mono h1
    rwa [roundEven_intCast] at this
  have h3 : (roundEven (q / u) : ℚ) ≤ (k : ℚ) := by exact_mod_cast h2
  exact mul_le_mul_of_nonneg_right h3 hu.le

theorem pow2_eq_grid (e : Int) : pow2 e = ((2 ^ 52 : Int) : ℚ) * pow2 (e - 52) := by
  have h : e = 52 + (e - 52) := by ring
  conv_lhs => rw [h, pow2_add]
  congr 1

theorem pow2_succ_eq_grid (e : Int) : pow2 (e + 1) = ((2 ^ 53 : Int) : ℚ) * pow2 (e - 52) := by
  have h : e + 1 = 53 + (e - 52) := by ring
  conv_lhs => rw [h, pow2_add]
  congr 1

theorem roundFinite_mono {a b : ℚ} (hab : a ≤ b) (ha : |a| < pow2 1024)
    (hb : |b| < pow2 1024) : roundFinite a ≤ roundFinite b := by
  rcases le_or_lt a 0 with ha0 | ha0
  · rcases le_or_lt 0 b with hb0 | hb0
    · exact le_trans (roundFinite_nonpos ha0) (roundFinite_nonneg hb0)
    · -- both negative
      have habs : |b| ≤ |a| := by
        rw [abs_of_neg hb0, abs_of_nonpos ha0]
        linarith
      have he := expo_mono b a habs ha
      obtain ⟨a1, a2, a3, a4⟩ := expo_spec a ha
      obtain ⟨b1, b2, b3, b4⟩ := expo_spec b hb
      rcases lt_or_eq_of_le he with hlt | heq
      · have h1 : pow2 (expo a) ≤ |a| := a4 (Or.inl (by omega))
        rw [abs_of_nonpos ha0] at h1
        rw [abs_of_neg hb0] at b3
        have h2 : roundFinite a ≤ ((-(2 ^ 52) : Int) : ℚ) * pow2 (expo a - 52) := by
          apply roundEven_le_grid _ _ _ (pow2_pos _)
          have := pow2_eq_grid (expo a)
          push_cast at this ⊢
          linarith
        have h3 : ((-(2 ^ 53) : Int) : ℚ) * pow2 (expo b - 52) ≤ roundFinite b := by
          apply grid_le_roundEven _ _ _ (pow2_pos _)
          have := pow2_succ_eq_grid (expo b)
          push_cast at this ⊢
          linarith
        have h4 : pow2 (expo b + 1) ≤ pow2 (expo a) := pow2_le_pow2 (by omega)
        have h5 := pow2_eq_grid (expo a)
        have h6 := pow2_succ_eq_grid (expo b)
        push_cast at h2 h3 h5 h6
        linarith
      · unfold roundFinite ulp
        rw [heq]
        have hu := pow2_pos (expo a - 52)
        have h1 : b / pow2 (expo a - 52) ≤ b / pow2 (expo a - 52) := le_refl _
        have h2 : a / pow2 (expo a - 52) ≤ b / pow2 (expo a - 52) :=
          div_le_div_of_nonneg_right hab hu.le
        have h3 : (roundEven (a / pow2 (expo a - 52)) : ℚ) ≤
            (roundEven (b / pow2 (expo a - 52)) : ℚ) := by
          exact_mod_cast roundEven_mono h2
        exact mul_le_mul_of_nonneg_right h3 hu.le
  · -- both positive
    have hb0 : 0 < b := lt_of_lt_of_le ha0 hab
    have habs : |a| ≤ |b| := by
      rw [abs_of_pos ha0, abs_of_pos hb0]
      exact hab
    have he := expo_mono a b habs hb
    obtain ⟨a1, a2, a3, a4⟩ := expo_spec a ha
    obtain ⟨b1, b2, b3, b4⟩ := expo_spec b hb
    rcases lt_or_eq_of_le he with hlt | heq
    · have h1 : pow2 (expo b) ≤ |b| := b4 (Or.inl (by omega))
      rw [abs_of_pos hb0] at h1
      rw [abs_of_pos ha0] at a3
      have h2 : roundFinite a ≤ ((2 ^ 53 : Int) : ℚ) * pow2 (expo a - 52) := by
        apply roundEven_le_grid _ _ _ (pow2_pos _)
        have := pow2_succ_eq_grid (expo a)
        linarith
      have h3 : ((2 ^ 52 : Int) : ℚ) * pow2 (expo b - 52) ≤ roundFinite b := by
        apply grid_le_roundEven _ _ _ (pow2_pos _)
        have := pow2_eq_grid (expo b)
        linarith
      have h4 : pow2 (expo a + 1) ≤ pow2 (expo b) := pow2_le_pow2 (by omega)
      have h5 := pow2_succ_eq_grid (expo a)
      have h6 := pow2_eq_grid (expo b)
      linarith
    · unfold roundFinite ulp
      rw [heq]
      have hu := pow2_pos (expo b - 52)
      have h2 : a / pow2 (expo b - 52) ≤ b / pow2 (expo b - 52) :=
        div_le_div_of_nonneg_right hab hu.le
      have h3 : (roundEven (a / pow2 (expo b - 52)) : ℚ) ≤
          (roundEven (b / pow2 (expo b - 52)) : ℚ) := by
        exact_mod_cast roundEven_mono h2
      exact mul_le_mul_of_nonneg_right h3 hu.le

theorem roundFinite_intCast (n : Int) (h : |n| < 2 ^ 53) : roundFinite (n : ℚ) = n := by
  by_cases hn : n = 0
  · rw [hn]
    simpa using roundFinite_zero
  have h1 : (1 : ℚ) ≤ |(n : ℚ)| := by
    have : (1 : Int) ≤ |n| := Int.one_le_abs hn
    exact_mod_cast this
  have h2 : |(n : ℚ)| < pow2 53 := by
    have h3 : ((|n| : Int) : ℚ) < ((2 ^ 53 : Int) : ℚ) := by exact_mod_cast h
    have h4 := pow2_natCast 53
    push_cast at h3 h4
    rw [h4]
    exact h3
  have h5 : |(n : ℚ)| < pow2 1024 := lt_of_lt_of_le h2 (pow2_le_pow2 (by norm_num))
  obtain ⟨a1, a2, a3, a4⟩ := expo_spec (n : ℚ) h5
  have h6 : pow2 (-1022) ≤ |(n : ℚ)| := by
    have : pow2 (-1022) ≤ pow2 0 := pow2_le_pow2 (by norm_num)
    rw [pow2_zero] at this
    exact le_trans this h1
  have h7 : pow2 (expo (n : ℚ)) ≤ |(n : ℚ)| := a4 (Or.inr h6)
  have he0 : 0 ≤ expo (n : ℚ) := by
    by_contra hcon
    have : pow2 (expo (n : ℚ) + 1) ≤ pow2 0 := pow2_le_pow2 (by omega)
    rw [pow2_zero] at this
    exact absurd (lt_of_lt_of_le a3 this) (not_lt.mpr h1)
  have he1 : expo (n : ℚ) ≤ 52 := by
    by_contra hcon
    have : pow2 53 ≤ pow2 (expo (n : ℚ)) := pow2_le_pow2 (by omega)
    exact absurd (lt_of_le_of_lt (le_trans this h7) h2) (lt_irrefl _)
  obtain ⟨m, hm⟩ : ∃ m : Nat, expo (n : ℚ) - 52 = -(m : Int) :=
    ⟨(52 - expo (n : ℚ)).toNat, by omega⟩
  unfold roundFinite ulp
  rw [hm]
  have hu : pow2 (-(m : Int)) * pow2 (m : Int) = 1 := by
    rw [← pow2_add]
    simp [pow2_zero]
  have hupos := pow2_pos (-(m : Int))
  have hdiv : (n : ℚ) / pow2 (-(m : Int)) = ((n * 2 ^ m : Int) : ℚ) := by
    rw [div_eq_iff hupos.ne.symm]
    push_cast
    rw [← pow2_natCast, mul_assoc, mul_comm (pow2 (m : Int)), hu, mul_one]
  rw [hdiv, roundEven_intCast]
  push_cast
  rw [← pow2_natCast, mul_assoc, mul_comm (pow2 (m : Int)), hu, mul_one]

/-! ### Rounding to a `double` -/

theorem pow2_53_lt : ((2 : ℚ) ^ 53) < pow2 1024 := by
  have : pow2 53 < pow2 1024 := pow2_lt_pow2 (by norm_num)
  have h := pow2_natCast 53
  push_cast at h
  rw [h] at this
  exact this

theorem round_ne_nan (q : ℚ) : round q ≠ .nan := by
  unfold round
  split
  · exact Double.noConfusion
  · split <;> exact Double.noConfusion

theorem round_eq_fin {q v : ℚ} (h : round q = .fin v) :
    v = roundFinite q ∧ |q| < pow2 1024 ∧ |v| < pow2 1024 := by
  unfold round at h
  split at h
  · exact Double.noConfusion h
  · rename_i h1
    split at h
    · exact Double.noConfusion h
    · rename_i h2
      have hv : roundFinite q = v := Double.fin.inj h
      rw [← hv]
      exact ⟨rfl, not_le.mp h1, not_le.mp h2⟩

theorem round_of_bounds {q : ℚ} (h1 : |q| < pow2 1024) (h2 : |roundFinite q| < pow2 1024) :
    round q = .fin (roundFinite q) := by
  unfold round
  rw [if_neg (not_le.mpr h1), if_neg (not_le.mpr h2)]

/-- Rounding between two integers of magnitude below `2 ^ 53` stays between them. -/
theorem round_between (q : ℚ) (lo hi : Int) (hlo : |lo| < 2 ^ 53) (hhi : |hi| < 2 ^ 53)
    (h1 : (lo : ℚ) ≤ q) (h2 : q ≤ (hi : ℚ)) :
    round q = .fin (roundFinite q) ∧ (lo : ℚ) ≤ roundFinite q ∧ roundFinite q ≤ (hi : ℚ) := by
  have hb : ∀ n : Int, |n| < 2 ^ 53 → |(n : ℚ)| < pow2 1024 := by
    intro n hn
    have h3 : ((|n| : Int) : ℚ) < ((2 ^ 53 : Int) : ℚ) := by exact_mod_cast hn
    push_cast at h3
    exact lt_trans h3 pow2_53_lt
  have hq : |q| < pow2 1024 := by
    rw [abs_lt]
    have := abs_lt.mp (hb lo hlo)
    have := abs_lt.mp (hb hi hhi)
    constructor <;> linarith
  have m1 := roundFinite_mono h1 (hb lo hlo) hq
  have m2 := roundFinite_mono h2 hq (hb hi hhi)
  rw [roundFinite_intCast lo hlo] at m1
  rw [roundFinite_intCast hi hhi] at m2
  refine ⟨round_of_bounds hq ?_, m1, m2⟩
  rw [abs_lt]
  have := abs_lt.mp (hb lo hlo)
  have := abs_lt.mp (hb hi hhi)
  constructor <;> linarith

theorem round_intCast (n : Int) (h : |n| < 2 ^ 53) : round (n : ℚ) = .fin n := by
  have := (round_between (n : ℚ) n n h h (le_refl _) (le_refl _)).1
  rw [roundFinite_intCast n h] at this
  exact this

theorem ofInt_eq (n : Int) (h : |n| < 2 ^ 53) : ofInt n = .fin n :=
  round_intCast n h

theorem round_zero : round 0 = .fin 0 := by
  have := round_intCast 0 (by norm_num)
  simpa using this

theorem round_one : round 1 = .fin 1 := by
  have := round_intCast 1 (by norm_num)
  simpa using this

/-- Rounding is monotone, also where it overflows. -/
theorem round_mono {a b : ℚ} (hab : a ≤ b) : le (round a) (round b) = true := by
  unfold round
  by_cases ha : pow2 1024 ≤ |a|
  · rw [if_pos ha]
    by_cases ha0 : a < 0
    · have : decide (a < 0) = true := decide_eq_true ha0
      rw [this]
      split
      · simp [le]
      · split <;> simp [le]
    · have hda : decide (a < 0) = false := decide_eq_false ha0
      rw [hda]
      have ha1 : pow2 1024 ≤ a := by rwa [abs_of_nonneg (not_lt.mp ha0)] at ha
      have hb0 : ¬ b < 0 := not_lt.mpr (le_trans (not_lt.mp ha0) hab)
      have hb : pow2 1024 ≤ |b| := by
        rw [abs_of_nonneg (not_lt.mp hb0)]
        exact le_trans ha1 hab
      rw [if_pos hb, decide_eq_false hb0]
      simp [le]
  · rw [if_neg ha]
    have ha' : |a| < pow2 1024 := not_le.mp ha
    by_cases hb : pow2 1024 ≤ |b|
    · rw [if_pos hb]
      have hb0 : ¬ b < 0 := by
        intro hneg
        rw [abs_of_neg hneg] at hb
        have := (abs_lt.mp ha').1
        linarith
      rw [decide_eq_false hb0]
      split <;> simp [le]
    · rw [if_neg hb]
      have hb' : |b| < pow2 1024 := not_le.mp hb
      have hm := roundFinite_mono hab ha' hb'
      by_cases hva : pow2 1024 ≤ |roundFinite a|
      · rw [if_pos hva]
        by_cases ha0 : a < 0
        · rw [decide_eq_true ha0]
          split <;> simp [le]
        · rw [decide_eq_false ha0]
          have hva1 : pow2 1024 ≤ roundFinite a := by
            rwa [abs_of_nonneg (roundFinite_nonneg (not_lt.mp ha0))] at hva
          have hb0 : ¬ b < 0 := not_lt.mpr (le_trans (not_lt.mp ha0) hab)
          have hvb : pow2 1024 ≤ |roundFinite b| := by
            rw [abs_of_nonneg (roundFinite_nonneg (not_lt.mp hb0))]
            exact le_trans hva1 hm
          rw [if_pos hvb, decide_eq_false hb0]
          simp [le]
      · rw [if_neg hva]
        by_cases hvb : pow2 1024 ≤ |roundFinite b|
        · rw [if_pos hvb]
          have hb0 : ¬ b < 0 := by
            intro hneg
            rw [abs_of_nonpos (roundFinite_nonpos hneg.le)] at hvb
            have := (abs_lt.mp (not_le.mp hva)).1
            linarith
          rw [decide_eq_false hb0]
          simp [le]
        · rw [if_neg hvb]
          simp [le, hm]

theorem round_fin_mono {a b va vb : ℚ} (hab : a ≤ b) (ha : round a = .fin va)
    (hb : round b = .fin vb) : va ≤ vb := by
  have := round_mono hab
  rw [ha, hb] at this
  simpa [le] using this

theorem round_fin_nonneg {a va : ℚ} (h0 : 0 ≤ a) (ha : round a = .fin va) : 0 ≤ va :=
  round_fin_mono h0 round_zero ha

/-! ### The values a `double` can hold are fixed by rounding -/

theorem expo_unique (v : ℚ) (k : Int) (hv : |v| < pow2 1024) (hk : -1022 ≤ k)
    (hlo : pow2 k ≤ |v| ∨ k = -1022) (hhi : |v| < pow2 (k + 1)) : expo v = k := by
  obtain ⟨a1, a2, a3, a4⟩ := expo_spec v hv
  rcases lt_trichotomy (expo v) k with h | h | h
  · exfalso
    have hk1 : k ≠ -1022 := by omega
    rcases hlo with h1 | h1
    · have : pow2 (expo v + 1) ≤ pow2 k := pow2_le_pow2 (by omega)
      exact absurd (lt_of_le_of_lt (le_trans this h1) a3) (lt_irrefl _)
    · exact hk1 h1
  · exact h
  · exfalso
    have h1 : pow2 (expo v) ≤ |v| := a4 (Or.inl (by omega))
    have : pow2 (k + 1) ≤ pow2 (expo v) := pow2_le_pow2 (by omega)
    exact absurd (lt_of_le_of_lt (le_trans this h1) hhi) (lt_irrefl _)

/-- A multiple `m * 2 ^ (e - 52)` with at most 53 significant bits is fixed by rounding. -/
theorem roundFinite_grid (m e : Int) (he : -1022 ≤ e) (hm : |m| ≤ 2 ^ 53)
    (hnorm : 2 ^ 52 ≤ |m| ∨ e = -1022) (hv : |(m : ℚ) * pow2 (e - 52)| < pow2 1024) :
    roundFinite ((m : ℚ) * pow2 (e - 52)) = (m : ℚ) * pow2 (e - 52) := by
  have hu := pow2_pos (e - 52)
  have habs : |(m : ℚ) * pow2 (e - 52)| = ((|m| : Int) : ℚ) * pow2 (e - 52) := by
    rw [abs_mul, abs_of_pos hu]
    push_cast
    rfl
  rcases lt_or_eq_of_le hm with hlt | heq
  · -- fewer than 54 bits: same exponent
    have hhi : |(m : ℚ) * pow2 (e - 52)| < pow2 (e + 1) := by
      rw [habs, pow2_succ_eq_grid]
      apply mul_lt_mul_of_pos_right _ hu
      exact_mod_cast hlt
    have hlo : pow2 e ≤ |(m : ℚ) * pow2 (e - 52)| ∨ e = -1022 := by
      rcases hnorm with h | h
      · left
        rw [habs, pow2_eq_grid]
        apply mul_le_mul_of_nonneg_right _ hu.le
        exact_mod_cast h
      · exact Or.inr h
    have hexp := expo_unique _ e hv he hlo hhi
    unfold roundFinite ulp
    rw [hexp, mul_div_assoc, div_self hu.ne.symm, mul_one, roundEven_intCast]
  · -- exactly 2 ^ 53: the next exponent
    have hval : |(m : ℚ) * pow2 (e - 52)| = pow2 (e + 1) := by
      rw [habs, pow2_succ_eq_grid, heq]
    have hexp := expo_unique _ (e + 1) hv (by omega) (Or.inl (le_of_eq hval.symm)) (by
      rw [hval]
      exact pow2_lt_pow2 (by omega))
    obtain ⟨z, hz⟩ : ∃ z : Int, m = 2 * z := by
      rcases abs_cases m with ⟨h1, -⟩ | ⟨h1, -⟩
      · exact ⟨2 ^ 52, by rw [← h1, heq]; norm_num⟩
      · exact ⟨-(2 ^ 52), by
          have : m = -|m| := by omega
          rw [this, heq]
          norm_num⟩
    have hu2 : pow2 (e + 1 - 52) = 2 * pow2 (e - 52) := by
      have : e + 1 - 52 = 1 + (e - 52) := by ring
      rw [this, pow2_add]
      congr 1
    unfold roundFinite ulp
    rw [hexp, hu2]
    have hdiv : (m : ℚ) * pow2 (e - 52) / (2 * pow2 (e - 52)) = (z : ℚ) := by
      rw [hz]
      push_cast
      field_simp
      ring
    rw [hdiv, roundEven_intCast, hz]
    push_cast
    ring

theorem roundFinite_idem (q : ℚ) (hq : |q| < pow2 1024) (hv : |roundFinite q| < pow2 1024) :
    roundFinite (roundFinite q) = roundFinite q := by
  obtain ⟨a1, a2, a3, a4⟩ := expo_spec q hq
  have hu := pow2_pos (expo q - 52)
  have hlt := abs_lt.mp a3
  have hm : |roundEven (q / pow2 (expo q - 52))| ≤ 2 ^ 53 := by
    rw [abs_le]
    constructor
    · have h1 : ((-(2 ^ 53) : Int) : ℚ) ≤ q / pow2 (expo q - 52) := by
        rw [le_div_iff₀ hu]
        have := pow2_succ_eq_grid (expo q)
        push_cast at this ⊢
        linarith
      have := roundEven_mono h1
      rwa [roundEven_intCast] at this
    · have h1 : q / pow2 (expo q - 52) ≤ ((2 ^ 53 : Int) : ℚ) := by
        rw [div_le_iff₀ hu]
        have := pow2_succ_eq_grid (expo q)
        push_cast at this ⊢
        linarith
      have := roundEven_mono h1
      rwa [roundEven_intCast] at this
  have hnorm : 2 ^ 52 ≤ |roundEven (q / pow2 (expo q - 52))| ∨ expo q = -1022 := by
    by_cases he : expo q = -1022
    · exact Or.inr he
    · left
      have h1 : pow2 (expo q) ≤ |q| := a4 (Or.inl (by omega))
      have hg := pow2_eq_grid (expo q)
      rcases le_or_lt 0 q with h0 | h0
      · rw [abs_of_nonneg h0] at h1
        have h2 : ((2 ^ 52 : Int) : ℚ) ≤ q / pow2 (expo q - 52) := by
          rw [le_div_iff₀ hu]
          linarith
        have := roundEven_mono h2
        rw [roundEven_intCast] at this
        exact le_trans this (le_abs_self _)
      · rw [abs_of_neg h0] at h1
        have h2 : q / pow2 (expo q - 52) ≤ ((-(2 ^ 52) : Int) : ℚ) := by
          rw [div_le_iff₀ hu]
          push_cast at hg ⊢
          linarith
        have := roundEven_mono h2
        rw [roundEven_intCast] at this
        have h3 := neg_abs_le (roundEven (q / pow2 (expo q - 52)))
        omega
  have := roundFinite_grid (roundEven (q / pow2 (expo q - 52))) (expo q) a1 hm hnorm hv
  exact this

/-- The result of a rounding is a value a `double` can hold. -/
theorem round_idem {q v : ℚ} (h : round q = .fin v) : round v = .fin v := by
  obtain ⟨hv, hq, hvb⟩ := round_eq_fin h
  have hid := roundFinite_idem q hq (hv ▸ hvb)
  rw [← hv] at hid
  have := round_of_bounds hvb (by rw [hid]; exact hvb)
  rw [hid] at this
  exact this

theorem round_of_isDouble {q : ℚ} (h : isDouble (.fin q) = true) : round q = .fin q := by
  simpa [isDouble] using h

/-! ### The relative error of a rounding -/

theorem roundEven_le_add_half (r : ℚ) : (roundEven r : ℚ) ≤ r + 1 / 2 := by
  have hf := Int.floor_le r
  unfold roundEven
  split
  · linarith
  · rename_i h1
    split
    · rename_i h2
      push_cast
      linarith
    · rename_i h2
      have : r - (⌊r⌋ : ℚ) = 1 / 2 := le_antisymm (not_lt.mp h2) (not_lt.mp h1)
      split
      · linarith
      · push_cast
        linarith

/-- In the normal range a rounding exceeds its argument by at most the fraction `2 ^ -53`. -/
theorem roundFinite_le_rel (q : ℚ) (h0 : pow2 (-1022) ≤ q) (h1 : q < pow2 1024) :
    roundFinite q ≤ q + q / 2 ^ 53 := by
  have hq0 : 0 < q := by
    have := pow2_pos (-1022)
    linarith
  have hq : |q| < pow2 1024 := by
    rw [abs_of_pos hq0]
    exact h1
  obtain ⟨a1, a2, a3, a4⟩ := expo_spec q hq
  have h2 : pow2 (expo q) ≤ q := by
    have := a4 (Or.inr (by rw [abs_of_pos hq0]; exact h0))
    rw [abs_of_pos hq0] at this
    exact this
  have hu := pow2_pos (expo q - 52)
  have hg := pow2_eq_grid (expo q)
  have hr := roundEven_le_add_half (q / pow2 (expo q - 52))
  unfold roundFinite ulp
  have h3 : (roundEven (q / pow2 (expo q - 52)) : ℚ) * pow2 (expo q - 52) ≤
      (q / pow2 (expo q - 52) + 1 / 2) * pow2 (expo q - 52) :=
    mul_le_mul_of_nonneg_right hr hu.le
  have h4 : (q / pow2 (expo q - 52) + 1 / 2) * pow2 (expo q - 52) =
      q + pow2 (expo q - 52) / 2 := by
    field_simp
    ring
  have hg1 : pow2 (expo q) = 2 ^ 52 * pow2 (expo q - 52) := by
    rw [hg]
    norm_num
  have h5 : pow2 (expo q - 52) / 2 = pow2 (expo q) / 2 ^ 53 := by
    rw [hg1]
    ring
  have h6 : pow2 (expo q) / 2 ^ 53 ≤ q / 2 ^ 53 :=
    div_le_div_of_nonneg_right h2 (by positivity)
  linarith

/-! # The program in binary64 arithmetic: the run of `printHist` -/

/-! ### Runs that end normally -/

theorem bind_eq_ok {α β : Type} (x : Except Fault α) (f : α → Except Fault β) (b : β) :
    (x >>= f) = .ok b ↔ ∃ a, x = .ok a ∧ f a = .ok b := by
  cases x with
  | error e => simp [bind, Except.bind]
  | ok a => simp [bind, Except.bind]

theorem castInt_eq_ok {d : Double} {r : Int} (h : castInt d = .ok r) :
    ∃ q, d = .fin q ∧ r = RejectionSampling.castInt q ∧ -2147483648 ≤ r ∧ r ≤ 2147483647 := by
  cases d with
  | nan => simp [castInt] at h
  | inf n => simp [castInt] at h
  | fin q =>
    simp only [castInt] at h
    split at h
    · rename_i hr
      have hq : RejectionSampling.castInt q = r := Except.ok.inj h
      rw [hq] at hr
      exact ⟨q, rfl, hq.symm, hr.1, hr.2⟩
    · exact Except.noConfusion h

theorem castInt_fin_ok {q : ℚ} (h1 : -2147483648 ≤ RejectionSampling.castInt q)
    (h2 : RejectionSampling.castInt q ≤ 2147483647) :
    castInt (.fin q) = .ok (RejectionSampling.castInt q) := by
  simp only [castInt]
  rw [if_pos ⟨h1, h2⟩]

theorem fdiv_eq_ok {a b d : Double} (h : fdiv a b = .ok d) :
    b ≠ .fin 0 ∧ d = quotient a b := by
  unfold fdiv at h
  split at h
  · exact Except.noConfusion h
  · rename_i hb
    exact ⟨hb, (Except.ok.inj h).symm⟩

theorem fdiv_of_ne_zero {a b : Double} (hb : b ≠ .fin 0) : fdiv a b = .ok (quotient a b) := by
  unfold fdiv
  rw [if_neg hb]

theorem fsub_eq_fin {a b : Double} {p : ℚ} (h : fsub a b = .fin p) :
    ∃ aq bq, a = .fin aq ∧ b = .fin bq ∧ round (aq - bq) = .fin p := by
  cases a with
  | nan => simp [fsub] at h
  | inf n =>
    cases b with
    | nan => simp [fsub] at h
    | inf m =>
      simp only [fsub] at h
      split at h <;> exact Double.noConfusion h
    | fin bq => simp [fsub] at h
  | fin aq =>
    cases b with
    | nan => simp [fsub] at h
    | inf m => simp [fsub] at h
    | fin bq => exact ⟨aq, bq, rfl, rfl, h⟩

theorem quotient_eq_fin {a b : Double} {q : ℚ} (h : quotient a b = .fin q) :
    ∃ p, a = .fin p ∧
      ((∃ m, b = .inf m ∧ q = 0) ∨ ∃ bq, b = .fin bq ∧ round (p / bq) = .fin q) := by
  cases a with
  | nan => simp [quotient] at h
  | inf n =>
    cases b with
    | nan => simp [quotient] at h
    | inf m => simp [quotient] at h
    | fin bq => simp [quotient] at h
  | fin p =>
    cases b with
    | nan => simp [quotient] at h
    | inf m =>
      simp only [quotient] at h
      exact ⟨p, rfl, Or.inl ⟨m, rfl, (Double.fin.inj h).symm⟩⟩
    | fin bq => exact ⟨p, rfl, Or.inr ⟨bq, rfl, h⟩⟩

/-- What a defined raw index says of the sample, of `minVal` and of `binSize`. -/
theorem rawIdx_eq_ok {lo bs v : Double} {r : Int} (h : rawIdx lo bs v = .ok r) :
    ∃ vq lq p q, v = .fin vq ∧ lo = .fin lq ∧ round (vq - lq) = .fin p ∧ bs ≠ .fin 0 ∧
      quotient (.fin p) bs = .fin q ∧ r = RejectionSampling.castInt q ∧
      -2147483648 ≤ r ∧ r ≤ 2147483647 := by
  unfold rawIdx at h
  obtain ⟨d, hd, hc⟩ := (bind_eq_ok _ _ _).mp h
  obtain ⟨hb, hq⟩ := fdiv_eq_ok hd
  obtain ⟨q, hdq, hr, h1, h2⟩ := castInt_eq_ok hc
  rw [hdq] at hq
  obtain ⟨p, hp, _⟩ := quotient_eq_fin hq.symm
  obtain ⟨vq, lq, hv, hl, hround⟩ := fsub_eq_fin hp
  refine ⟨vq, lq, p, q, hv, hl, hround, hb, ?_, hr, h1, h2⟩
  rw [← hp]
  exact hq.symm

theorem binIdx_eq_ok {lo bs v : Double} {nBins k : Int} (h : binIdx lo bs nBins v = .ok k) :
    ∃ r, rawIdx lo bs v = .ok r ∧ k = clamp nBins r := by
  unfold binIdx at h
  obtain ⟨r, hr, hk⟩ := (bind_eq_ok _ _ _).mp h
  exact ⟨r, hr, (Except.ok.inj hk).symm⟩

theorem binIdx_of_rawIdx {lo bs v : Double} {nBins r : Int} (h : rawIdx lo bs v = .ok r) :
    binIdx lo bs nBins v = .ok (clamp nBins r) := by
  unfold binIdx
  rw [h]
  rfl

/-! ### The order of the `double`s that are not NaN -/

theorem le_fin_fin (p q : ℚ) : le (.fin p) (.fin q) = true ↔ p ≤ q := by
  simp [le]

theorem lt_fin_fin (p q : ℚ) : lt (.fin p) (.fin q) = true ↔ p < q := by
  simp [lt]

theorem le_self {a : Double} (ha : a ≠ .nan) : le a a = true := by
  cases a with
  | nan => exact absurd rfl ha
  | inf n => cases n <;> simp [le]
  | fin q => simp [le]

theorem lt_eq_not_le {a b : Double} (ha : a ≠ .nan) (hb : b ≠ .nan) :
    lt a b = !le b a := by
  cases a with
  | nan => exact absurd rfl ha
  | inf n =>
    cases b with
    | nan => exact absurd rfl hb
    | inf m => cases n <;> cases m <;> simp [lt, le]
    | fin q => cases n <;> simp [lt, le]
  | fin p =>
    cases b with
    | nan => exact absurd rfl hb
    | inf m => cases m <;> simp [lt, le]
    | fin q =>
      simp only [lt, le]
      by_cases h : p < q
      · simp [h, not_le.mpr h]
      · simp [h, not_lt.mp h]

theorem le_of_le_of_le {a b c : Double} (h1 : le a b = true) (h2 : le b c = true) :
    le a c = true := by
  cases a with
  | nan => simp [le] at h1
  | inf n =>
    cases b with
    | nan => simp [le] at h1
    | inf m =>
      cases c with
      | nan => simp [le] at h2
      | inf k => cases n <;> cases m <;> cases k <;> simp_all [le]
      | fin r => cases n <;> cases m <;> simp_all [le]
    | fin q =>
      cases c with
      | nan => simp [le] at h2
      | inf k => cases n <;> cases k <;> simp_all [le]
      | fin r => cases n <;> simp_all [le]
  | fin p =>
    cases b with
    | nan => simp [le] at h1
    | inf m =>
      cases c with
      | nan => simp [le] at h2
      | inf k => cases m <;> cases k <;> simp_all [le]
      | fin r => cases m <;> simp_all [le]
    | fin q =>
      cases c with
      | nan => simp [le] at h2
      | inf k => cases k <;> simp_all [le]
      | fin r =>
        simp only [le, decide_eq_true_eq] at h1 h2 ⊢
        exact le_trans h1 h2

theorem le_or_le {a b : Double} (ha : a ≠ .nan) (hb : b ≠ .nan) :
    le a b = true ∨ le b a = true := by
  cases a with
  | nan => exact absurd rfl ha
  | inf n =>
    cases b with
    | nan => exact absurd rfl hb
    | inf m => cases n <;> cases m <;> simp [le]
    | fin q => cases n <;> simp [le]
  | fin p =>
    cases b with
    | nan => exact absurd rfl hb
    | inf m => cases m <;> simp [le]
    | fin q =>
      simp only [le, decide_eq_true_eq]
      exact le_total p q

theorem eq_of_le_of_le {a b : Double} (h1 : le a b = true) (h2 : le b a = true) : a = b := by
  cases a with
  | nan => simp [le] at h1
  | inf n =>
    cases b with
    | nan => simp [le] at h1
    | inf m => cases n <;> cases m <;> simp_all [le]
    | fin q => cases n <;> simp_all [le]
  | fin p =>
    cases b with
    | nan => simp [le] at h1
    | inf m => cases m <;> simp_all [le]
    | fin q =>
      simp only [le, decide_eq_true_eq] at h1 h2
      rw [le_antisymm h1 h2]

/-! ### The extrema -/

theorem min_nil : min [] = .error .outOfBounds := by
  simp [min, readAt, bind, Except.bind]

theorem max_nil : max [] = .error .outOfBounds := by
  simp [max, readAt, bind, Except.bind]

theorem min_cons (a : Double) (l : List Double) :
    min (a :: l) = .ok (l.foldl (fun m xi => if lt xi m then xi else m) a) := by
  simp [min, readAt, bind, Except.bind, pure, Except.pure]

theorem max_cons (a : Double) (l : List Double) :
    max (a :: l) = .ok (l.foldl (fun m xi => if lt m xi then xi else m) a) := by
  simp [max, readAt, bind, Except.bind, pure, Except.pure]

theorem min_returns (x : List Double) (hx : x ≠ []) : ∃ m, min x = .ok m := by
  cases x with
  | nil => exact absurd rfl hx
  | cons a l => exact ⟨_, min_cons a l⟩

theorem max_returns (x : List Double) (hx : x ≠ []) : ∃ m, max x = .ok m := by
  cases x with
  | nil => exact absurd rfl hx
  | cons a l => exact ⟨_, max_cons a l⟩

theorem foldl_min_le (rest : List Double) (m0 : Double) (h0 : m0 ≠ .nan)
    (hrest : ∀ v ∈ rest, v ≠ .nan) :
    (rest.foldl (fun m xi => if lt xi m then xi else m) m0 = m0 ∨
      rest.foldl (fun m xi => if lt xi m then xi else m) m0 ∈ rest) ∧
    le (rest.foldl (fun m xi => if lt xi m then xi else m) m0) m0 = true ∧
    ∀ v ∈ rest, le (rest.foldl (fun m xi => if lt xi m then xi else m) m0) v = true := by
  induction rest generalizing m0 with
  | nil => simp [le_self h0]
  | cons y ys ih =>
    have hy : y ≠ .nan := hrest y (List.mem_cons_self _ _)
    have hys : ∀ v ∈ ys, v ≠ .nan := fun v hv => hrest v (List.mem_cons_of_mem _ hv)
    simp only [List.foldl_cons, List.mem_cons]
    by_cases hlt : lt y m0 = true
    · obtain ⟨h1, h2, h3⟩ := ih y hy hys
      simp only [hlt, if_true] at h1 h2 h3 ⊢
      have hle : le y m0 = true := by
        rcases le_or_le hy h0 with h | h
        · exact h
        · rw [lt_eq_not_le hy h0, h] at hlt
          simp at hlt
      refine ⟨?_, le_of_le_of_le h2 hle, ?_⟩
      · rcases h1 with h | h
        · exact Or.inr (Or.inl h)
        · exact Or.inr (Or.inr h)
      · rintro v (rfl | hv)
        · exact h2
        · exact h3 v hv
    · obtain ⟨h1, h2, h3⟩ := ih m0 h0 hys
      have hlt' : lt y m0 = false := by simpa using hlt
      simp only [hlt', Bool.false_eq_true, if_false] at h1 h2 h3 ⊢
      have hle : le m0 y = true := by
        rw [lt_eq_not_le hy h0] at hlt'
        simpa using hlt'
      refine ⟨?_, h2, ?_⟩
      · rcases h1 with h | h
        · exact Or.inl h
        · exact Or.inr (Or.inr h)
      · rintro v (rfl | hv)
        · exact le_of_le_of_le h2 hle
        · exact h3 v hv

theorem foldl_max_ge (rest : List Double) (m0 : Double) (h0 : m0 ≠ .nan)
    (hrest : ∀ v ∈ rest, v ≠ .nan) :
    (rest.foldl (fun m xi => if lt m xi then xi else m) m0 = m0 ∨
      rest.foldl (fun m xi => if lt m xi then xi else m) m0 ∈ rest) ∧
    le m0 (rest.foldl (fun m xi => if lt m xi then xi else m) m0) = true ∧
    ∀ v ∈ rest, le v (rest.foldl (fun m xi => if lt m xi then xi else m) m0) = true := by
  induction rest generalizing m0 with
  | nil => simp [le_self h0]
  | cons y ys ih =>
    have hy : y ≠ .nan := hrest y (List.mem_cons_self _ _)
    have hys : ∀ v ∈ ys, v ≠ .nan := fun v hv => hrest v (List.mem_cons_of_mem _ hv)
    simp only [List.foldl_cons, List.mem_cons]
    by_cases hlt : lt m0 y = true
    · obtain ⟨h1, h2, h3⟩ := ih y hy hys
      simp only [hlt, if_true] at h1 h2 h3 ⊢
      have hle : le m0 y = true := by
        rcases le_or_le h0 hy with h | h
        · exact h
        · rw [lt_eq_not_le h0 hy, h] at hlt
          simp at hlt
      refine ⟨?_, le_of_le_of_le hle h2, ?_⟩
      · rcases h1 with h | h
        · exact Or.inr (Or.inl h)
        · exact Or.inr (Or.inr h)
      · rintro v (rfl | hv)
        · exact h2
        · exact h3 v hv
    · obtain ⟨h1, h2, h3⟩ := ih m0 h0 hys
      have hlt' : lt m0 y = false := by simpa using hlt
      simp only [hlt', Bool.false_eq_true, if_false] at h1 h2 h3 ⊢
      have hle : le y m0 = true := by
        rw [lt_eq_not_le h0 hy] at hlt'
        simpa using hlt'
      refine ⟨?_, h2, ?_⟩
      · rcases h1 with h | h
        · exact Or.inl h
        · exact Or.inr (Or.inr h)
      · rintro v (rfl | hv)
        · exact le_of_le_of_le hle h2
        · exact h3 v hv

theorem min_le_all (x : List Double) (m : Double) (hnan : ∀ v ∈ x, v ≠ .nan)
    (h : min x = .ok m) : m ∈ x ∧ ∀ v ∈ x, le m v = true := by
  cases x with
  | nil => rw [min_nil] at h; exact Except.noConfusion h
  | cons a l =>
    rw [min_cons] at h
    have hm := Except.ok.inj h
    have ha : a ≠ .nan := hnan a (List.mem_cons_self _ _)
    obtain ⟨h1, h2, h3⟩ := foldl_min_le l a ha (fun v hv => hnan v (List.mem_cons_of_mem _ hv))
    rw [hm] at h1 h2 h3
    refine ⟨?_, ?_⟩
    · rcases h1 with h | h
      · simp [h]
      · exact List.mem_cons_of_mem _ h
    · intro v hv
      rcases List.mem_cons.mp hv with rfl | hv
      · exact h2
      · exact h3 v hv

theorem max_ge_all (x : List Double) (m : Double) (hnan : ∀ v ∈ x, v ≠ .nan)
    (h : max x = .ok m) : m ∈ x ∧ ∀ v ∈ x, le v m = true := by
  cases x with
  | nil => rw [max_nil] at h; exact Except.noConfusion h
  | cons a l =>
    rw [max_cons] at h
    have hm := Except.ok.inj h
    have ha : a ≠ .nan := hnan a (List.mem_cons_self _ _)
    obtain ⟨h1, h2, h3⟩ := foldl_max_ge l a ha (fun v hv => hnan v (List.mem_cons_of_mem _ hv))
    rw [hm] at h1 h2 h3
    refine ⟨?_, ?_⟩
    · rcases h1 with h | h
      · simp [h]
      · exact List.mem_cons_of_mem _ h
    · intro v hv
      rcases List.mem_cons.mp hv with rfl | hv
      · exact h2
      · exact h3 v hv

theorem min_of_least (x : List Double) (m : Double) (hnan : ∀ v ∈ x, v ≠ .nan)
    (hm : m ∈ x) (hle : ∀ v ∈ x, le m v = true) : min x = .ok m := by
  obtain ⟨m1, h1⟩ := min_returns x (List.ne_nil_of_mem hm)
  obtain ⟨h2, h3⟩ := min_le_all x m1 hnan h1
  rw [h1, eq_of_le_of_le (h3 m hm) (hle m1 h2)]

theorem max_of_greatest (x : List Double) (m : Double) (hnan : ∀ v ∈ x, v ≠ .nan)
    (hm : m ∈ x) (hle : ∀ v ∈ x, le v m = true) : max x = .ok m := by
  obtain ⟨m1, h1⟩ := max_returns x (List.ne_nil_of_mem hm)
  obtain ⟨h2, h3⟩ := max_ge_all x m1 hnan h1
  rw [h1, eq_of_le_of_le (hle m1 h2) (h3 m hm)]

/-! ### The counting loop -/

theorem increment_eq_ok {counts cs : List Double} {k : Int} (h : increment counts k = .ok cs) :
    0 ≤ k ∧ k < counts.length ∧ cs.length = counts.length := by
  unfold increment at h
  split at h
  · rename_i hk
    have := Except.ok.inj h
    rw [← this]
    exact ⟨hk.1, hk.2, List.length_set _ _ _⟩
  · exact Except.noConfusion h

/-- A run of the counting loop that ends normally has converted every sample to an index
inside `counts`. -/
theorem countBins_eq_ok (lo bs : Double) (nBins : Int) (xs counts cs : List Double)
    (h : countBins lo bs nBins xs counts = .ok cs) :
    cs.length = counts.length ∧
    ∀ v ∈ xs, ∃ k, binIdx lo bs nBins v = .ok k ∧ 0 ≤ k ∧ k < counts.length := by
  induction xs generalizing counts with
  | nil =>
    simp only [countBins] at h
    rw [← Except.ok.inj h]
    exact ⟨rfl, fun v hv => absurd hv (List.not_mem_nil v)⟩
  | cons v rest ih =>
    simp only [countBins] at h
    obtain ⟨k, hk, h1⟩ := (bind_eq_ok _ _ _).mp h
    obtain ⟨c1, hc1, h2⟩ := (bind_eq_ok _ _ _).mp h1
    obtain ⟨k0, k1, hlen⟩ := increment_eq_ok hc1
    obtain ⟨i1, i2⟩ := ih c1 h2
    refine ⟨i1.trans hlen, ?_⟩
    intro w hw
    rcases List.mem_cons.mp hw with rfl | hw
    · exact ⟨k, hk, k0, k1⟩
    · obtain ⟨j, hj, j0, j1⟩ := i2 w hw
      exact ⟨j, hj, j0, by rw [hlen] at j1; exact j1⟩

theorem getD_le_sum (cn : List Nat) (i : Nat) : cn.getD i 0 ≤ cn.sum := by
  induction cn generalizing i with
  | nil => simp
  | cons a l ih =>
    cases i with
    | zero => simp
    | succ j =>
      have := ih j
      simp only [List.getD_eq_getElem?_getD] at this
      simp only [List.getD_eq_getElem?_getD, List.getElem?_cons_succ, List.sum_cons]
      omega

theorem sum_set_succ_nat (cn : List Nat) (i : Nat) (hi : i < cn.length) :
    (cn.set i (cn.getD i 0 + 1)).sum = cn.sum + 1 := by
  induction cn generalizing i with
  | nil => simp at hi
  | cons a l ih =>
    cases i with
    | zero => simp; omega
    | succ j =>
      have hj : j < l.length := by simpa using hi
      have := ih j hj
      simp only [List.getD_eq_getElem?_getD] at this
      simp [this]; omega

theorem getElem?_set_succ_nat (cn : List Nat) (i j : Nat) (hi : i < cn.length)
    (hj : j < cn.length) :
    (cn.set i (cn.getD i 0 + 1))[j]? = some (cn.getD j 0 + if i = j then 1 else 0) := by
  rw [List.getElem?_set]
  by_cases hij : i = j
  · subst hij
    simp [hi]
  · simp [hij, List.getElem?_eq_getElem hj]

theorem increment_natCounts (cn : List Nat) (k : Int) (h0 : 0 ≤ k) (h1 : k < cn.length)
    (hb : cn.sum + 1 < 2 ^ 53) :
    increment (cn.map (fun c : Nat => Double.fin (c : ℚ))) k =
      .ok ((cn.set k.toNat (cn.getD k.toNat 0 + 1)).map (fun c : Nat => Double.fin (c : ℚ))) := by
  have hk : k.toNat < cn.length := by omega
  unfold increment
  rw [if_pos ⟨h0, by simpa using h1⟩]
  congr 1
  rw [List.map_set]
  congr 1
  have hget : (cn.map (fun c : Nat => Double.fin (c : ℚ))).getD k.toNat (.fin 0) =
      .fin ((cn.getD k.toNat 0 : Nat) : ℚ) := by
    simp [List.getElem?_eq_getElem hk]
  rw [hget]
  simp only [fadd]
  have hle := getD_le_sum cn k.toNat
  have hr := round_intCast ((cn.getD k.toNat 0 + 1 : Nat) : Int) (by
    rw [abs_of_nonneg (Int.ofNat_nonneg _)]
    have : cn.getD k.toNat 0 + 1 < 2 ^ 53 := by omega
    exact_mod_cast this)
  push_cast at hr ⊢
  exact hr

/-- The counting loop on counts that hold natural numbers: each bucket gains the number of
samples whose index it is. -/
theorem countBins_natCounts (lo bs : Double) (nBins : Int) (xs : List Double) (cn : List Nat)
    (hsum : cn.sum + xs.length < 2 ^ 53)
    (hidx : ∀ v ∈ xs, ∃ k, binIdx lo bs nBins v = .ok k ∧ 0 ≤ k ∧ k < cn.length) :
    ∃ dn : List Nat,
      countBins lo bs nBins xs (cn.map (fun c : Nat => Double.fin (c : ℚ))) =
        .ok (dn.map (fun c : Nat => Double.fin (c : ℚ))) ∧
      dn.length = cn.length ∧ dn.sum = cn.sum + xs.length ∧
      ∀ j : Nat, j < cn.length → dn[j]? = some (cn.getD j 0 +
        xs.countP (fun v => decide (binIdx lo bs nBins v = .ok (j : Int)))) := by
  induction xs generalizing cn with
  | nil =>
    refine ⟨cn, rfl, rfl, by simp, ?_⟩
    intro j hj
    simp [List.getElem?_eq_getElem hj]
  | cons v rest ih =>
    obtain ⟨k, hk, k0, k1⟩ := hidx v (List.mem_cons_self _ _)
    have hkn : k.toNat < cn.length := by omega
    have hlen1 : (cn.set k.toNat (cn.getD k.toNat 0 + 1)).length = cn.length :=
      List.length_set _ _ _
    have hsum1 := sum_set_succ_nat cn k.toNat hkn
    have hinc := increment_natCounts cn k k0 k1 (by
      simp only [List.length_cons] at hsum
      omega)
    obtain ⟨dn, hd, hdl, hds, hdj⟩ := ih (cn.set k.toNat (cn.getD k.toNat 0 + 1))
      (by
        rw [hsum1]
        simp only [List.length_cons] at hsum
        omega)
      (fun w hw => by
        rw [hlen1]
        exact hidx w (List.mem_cons_of_mem _ hw))
    refine ⟨dn, ?_, hdl.trans hlen1, ?_, ?_⟩
    · simp only [countBins, hk, hinc, bind, Except.bind]
      exact hd
    · rw [hds, hsum1]
      simp only [List.length_cons]
      omega
    · intro j hj
      rw [hdj j (by rw [hlen1]; exact hj)]
      have h1 := getElem?_set_succ_nat cn k.toNat j hkn hj
      have h2 : (cn.set k.toNat (cn.getD k.toNat 0 + 1)).getD j 0 =
          cn.getD j 0 + if k.toNat = j then 1 else 0 := by
        rw [List.getD_eq_getElem?_getD, h1]
        rfl
      rw [h2, List.countP_cons, hk]
      have h3 : (k.toNat = j) ↔ (k = (j : Int)) := by omega
      by_cases hjj : k = (j : Int)
      · rw [if_pos (h3.mpr hjj)]
        simp only [hjj, decide_True, if_true]
        congr 1
        omega
      · rw [if_neg (fun h => hjj (h3.mp h))]
        have : ¬ (Except.ok k : Except Fault Int) = Except.ok (j : Int) :=
          fun h => hjj (Except.ok.inj h)
        simp [this]

/-! ### The histogram of a run that ends normally -/

theorem newCounts_eq_ok {nBins : Int} {c0 : List Double} (h : newCounts nBins = .ok c0) :
    0 ≤ nBins ∧ c0 = (List.replicate nBins.toNat 0).map (fun c : Nat => Double.fin (c : ℚ)) := by
  unfold newCounts at h
  split at h
  · exact Except.noConfusion h
  · rename_i hn
    refine ⟨not_lt.mp hn, ?_⟩
    rw [← Except.ok.inj h]
    simp

theorem binning_eq_ok {x : List Double} {nBins : Int} {h : Histogram}
    (hbin : binning x nBins = .ok h) :
    min x = .ok h.minVal ∧ max x = .ok h.maxVal ∧
    fdiv (fsub h.maxVal h.minVal) (ofInt nBins) = .ok h.binSize ∧
    ∃ c0, newCounts nBins = .ok c0 ∧
      countBins h.minVal h.binSize nBins x c0 = .ok h.counts := by
  unfold binning at hbin
  obtain ⟨lo, hlo, h1⟩ := (bind_eq_ok _ _ _).mp hbin
  obtain ⟨hi, hhi, h2⟩ := (bind_eq_ok _ _ _).mp h1
  obtain ⟨bs, hbs, h3⟩ := (bind_eq_ok _ _ _).mp h2
  obtain ⟨c0, hc0, h4⟩ := (bind_eq_ok _ _ _).mp h3
  obtain ⟨cs, hcs, h5⟩ := (bind_eq_ok _ _ _).mp h4
  have h6 := Except.ok.inj h5
  rw [← h6]
  exact ⟨hlo, hhi, hbs, c0, hc0, hcs⟩

theorem round_eq_inf {q : ℚ} {m : Bool} (h : round q = .inf m) : m = decide (q < 0) := by
  unfold round at h
  split at h
  · exact (Double.inf.inj h).symm
  · split at h
    · exact (Double.inf.inj h).symm
    · exact Double.noConfusion h

/-- The shape of `binSize` on a run of the counting loop that ends normally: finite and
positive. -/
theorem binSize_shape {lo hi p : ℚ} {nBins : Int} {bs : Double} (hle : lo ≤ hi)
    (hn : 0 < nBins) (hp : round (hi - lo) = .fin p)
    (hbs : fdiv (fsub (.fin hi) (.fin lo)) (ofInt nBins) = .ok bs) (hbs0 : bs ≠ .fin 0) :
    ∃ b : ℚ, bs = .fin b ∧ 0 < b := by
  obtain ⟨-, hq⟩ := fdiv_eq_ok hbs
  have hp0 : 0 ≤ p := round_fin_nonneg (sub_nonneg.mpr hle) hp
  have hfs : fsub (.fin hi) (.fin lo) = .fin p := hp
  rw [hfs] at hq
  have hn1 : (1 : ℚ) ≤ (nBins : ℚ) := by exact_mod_cast hn
  cases hr : ofInt nBins with
  | nan => exact absurd hr (round_ne_nan _)
  | inf m =>
    rw [hr] at hq
    simp only [quotient] at hq
    exact absurd hq hbs0
  | fin n1 =>
    have hn2 : 1 ≤ n1 := round_fin_mono hn1 round_one hr
    rw [hr] at hq
    simp only [quotient] at hq
    have hquot : 0 ≤ p / n1 := div_nonneg hp0 (by linarith)
    have hquot1 : p / n1 ≤ p := div_le_self hp0 hn2
    cases hrr : round (p / n1) with
    | nan => exact absurd hrr (round_ne_nan _)
    | inf m =>
      exfalso
      have hm := round_eq_inf hrr
      rw [decide_eq_false (not_lt.mpr hquot)] at hm
      have h1 := round_mono hquot1
      rw [hrr, hm, round_idem hp] at h1
      simp [le] at h1
    | fin b =>
      rw [hrr] at hq
      have hb1 : 0 ≤ b := round_fin_nonneg hquot hrr
      refine ⟨b, hq, lt_of_le_of_ne hb1 ?_⟩
      intro h0
      rw [← h0] at hq
      exact hbs0 hq

/-- The raw index is monotone in the sample, and not negative. -/
theorem rawIdx_mono {lo v w b : ℚ} {rv rw : Int} (hb0 : 0 < b) (hlv : lo ≤ v) (hvw : v ≤ w)
    (hv : rawIdx (.fin lo) (.fin b) (.fin v) = .ok rv)
    (hw : rawIdx (.fin lo) (.fin b) (.fin w) = .ok rw) :
    0 ≤ rv ∧ rv ≤ rw := by
  obtain ⟨v1, l1, pv, qv, e1, e2, hpv, -, hqv, hrv, -, -⟩ := rawIdx_eq_ok hv
  obtain ⟨w1, l2, pw, qw, e3, e4, hpw, -, hqw, hrw, -, -⟩ := rawIdx_eq_ok hw
  have e1' := Double.fin.inj e1
  have e2' := Double.fin.inj e2
  have e3' := Double.fin.inj e3
  have e4' := Double.fin.inj e4
  subst e1' e2' e3'
  rw [← e4'] at hpw
  have hpv0 : 0 ≤ pv := round_fin_nonneg (sub_nonneg.mpr hlv) hpv
  have hpvw : pv ≤ pw := round_fin_mono (by linarith) hpv hpw
  simp only [quotient] at hqv hqw
  have hq0 : 0 ≤ qv := round_fin_nonneg (div_nonneg hpv0 hb0.le) hqv
  have hqvw : qv ≤ qw := round_fin_mono (div_le_div_of_nonneg_right hpvw hb0.le) hqv hqw
  rw [hrv, hrw]
  refine ⟨?_, RejectionSampling.castInt_mono qv qw hq0 hqvw⟩
  rw [RejectionSampling.castInt_of_nonneg qv hq0]
  exact Int.floor_nonneg.mpr hq0

theorem clamp_mono {nBins a b : Int} (h : a ≤ b) : clamp nBins a ≤ clamp nBins b := by
  unfold clamp
  split <;> split <;> omega

/-- What a run of the counting loop that ends normally says of its input and its result. -/
theorem binning_inv {x : List Double} {nBins : Int} {h : Histogram}
    (hbin : binning x nBins = .ok h) (hlen : x.length < 2 ^ 53) :
    ∃ (lo hi b : ℚ) (cn : List Nat),
      h.minVal = .fin lo ∧ h.maxVal = .fin hi ∧ Double.fin lo ∈ x ∧ Double.fin hi ∈ x ∧
      0 < nBins ∧ h.binSize = .fin b ∧ 0 < b ∧
      fdiv (fsub (.fin hi) (.fin lo)) (ofInt nBins) = .ok (.fin b) ∧
      (∀ v ∈ x, ∃ vq, v = .fin vq ∧ lo ≤ vq ∧ vq ≤ hi) ∧
      (∀ v ∈ x, ∃ r, rawIdx h.minVal h.binSize v = .ok r ∧ 0 ≤ r ∧
        binIdx h.minVal h.binSize nBins v = .ok (clamp nBins r) ∧
        0 ≤ clamp nBins r ∧ clamp nBins r < nBins) ∧
      h.counts = cn.map (fun c : Nat => Double.fin (c : ℚ)) ∧ cn.length = nBins.toNat ∧
      cn.sum = x.length ∧
      ∀ j : Nat, j < nBins.toNat → cn[j]? = some
        (x.countP (fun v => decide (binIdx h.minVal h.binSize nBins v = .ok (j : Int)))) := by
  obtain ⟨hmin, hmax, hbs, c0, hc0, hcount⟩ := binning_eq_ok hbin
  obtain ⟨hn0, hc0eq⟩ := newCounts_eq_ok hc0
  obtain ⟨hcl, hidx⟩ := countBins_eq_ok _ _ _ _ _ _ hcount
  have hc0len : c0.length = nBins.toNat := by rw [hc0eq]; simp
  -- every sample is finite, and so is minVal
  have hfin : ∀ v ∈ x, ∃ vq, v = .fin vq := by
    intro v hv
    obtain ⟨k, hk, -, -⟩ := hidx v hv
    obtain ⟨r, hr, -⟩ := binIdx_eq_ok hk
    obtain ⟨vq, _, _, _, e1, _⟩ := rawIdx_eq_ok hr
    exact ⟨vq, e1⟩
  have hnan : ∀ v ∈ x, v ≠ .nan := by
    intro v hv hc
    obtain ⟨vq, e⟩ := hfin v hv
    rw [hc] at e
    exact Double.noConfusion e
  obtain ⟨hlomem, hlole⟩ := min_le_all x h.minVal hnan hmin
  obtain ⟨himem, hhile⟩ := max_ge_all x h.maxVal hnan hmax
  obtain ⟨lo, hlo⟩ := hfin _ hlomem
  obtain ⟨hi, hhi⟩ := hfin _ himem
  have hbounds : ∀ v ∈ x, ∃ vq, v = .fin vq ∧ lo ≤ vq ∧ vq ≤ hi := by
    intro v hv
    obtain ⟨vq, e⟩ := hfin v hv
    have h1 := hlole v hv
    have h2 := hhile v hv
    rw [hlo, e] at h1
    rw [hhi, e] at h2
    exact ⟨vq, e, (le_fin_fin _ _).mp h1, (le_fin_fin _ _).mp h2⟩
  have hlohi : lo ≤ hi := by
    obtain ⟨vq, e, h1, h2⟩ := hbounds _ himem
    rw [hhi] at e
    rw [← Double.fin.inj e] at h1
    exact h1
  -- nBins is positive
  have hnpos : 0 < nBins := by
    rcases lt_or_eq_of_le hn0 with h1 | h1
    · exact h1
    · exfalso
      rw [← h1] at hbs
      have : ofInt 0 = .fin 0 := by
        have := round_zero
        simpa [ofInt] using this
      rw [this] at hbs
      exact (fdiv_eq_ok hbs).1 rfl
  -- the shape of binSize
  have hshape : ∃ b : ℚ, h.binSize = .fin b ∧ 0 < b := by
    obtain ⟨k, hk, -, -⟩ := hidx _ himem
    obtain ⟨r, hr, -⟩ := binIdx_eq_ok hk
    obtain ⟨vq, lq, p, q, e1, e2, hp, hbs0, -⟩ := rawIdx_eq_ok hr
    rw [hhi] at e1
    rw [hlo] at e2
    rw [← Double.fin.inj e1, ← Double.fin.inj e2] at hp
    have hbs' := hbs
    rw [hhi, hlo] at hbs'
    exact binSize_shape hlohi hnpos hp hbs' hbs0
  obtain ⟨b, hb, hb0⟩ := hshape
  -- the indices
  have hraw : ∀ v ∈ x, ∃ r, rawIdx h.minVal h.binSize v = .ok r ∧ 0 ≤ r ∧
      binIdx h.minVal h.binSize nBins v = .ok (clamp nBins r) ∧
      0 ≤ clamp nBins r ∧ clamp nBins r < nBins := by
    intro v hv
    obtain ⟨k, hk, k0, k1⟩ := hidx v hv
    obtain ⟨r, hr, hkr⟩ := binIdx_eq_ok hk
    obtain ⟨vq, e, b1, b2⟩ := hbounds v hv
    have hr' := hr
    rw [hlo, hb, e] at hr'
    have := (rawIdx_mono hb0 b1 (le_refl vq) hr' hr').1
    refine ⟨r, hr, this, binIdx_of_rawIdx hr, ?_, ?_⟩
    · rw [← hkr]; exact k0
    · rw [← hkr]
      rw [hc0len] at k1
      omega
  -- the counts
  obtain ⟨dn, hd, hdl, hds, hdj⟩ := countBins_natCounts h.minVal h.binSize nBins x
    (List.replicate nBins.toNat 0) (by simp; exact hlen)
    (fun v hv => by
      obtain ⟨k, hk, k0, k1⟩ := hidx v hv
      refine ⟨k, hk, k0, ?_⟩
      rw [hc0len] at k1
      simpa using k1)
  rw [hc0eq, hd] at hcount
  have hcounts : h.counts = dn.map (fun c : Nat => Double.fin (c : ℚ)) :=
    (Except.ok.inj hcount).symm
  refine ⟨lo, hi, b, dn, hlo, hhi, hlo ▸ hlomem, hhi ▸ himem, hnpos, hb, hb0,
    by rw [← hlo, ← hhi, ← hb]; exact hbs, hbounds, hraw,
    hcounts, by simpa using hdl, by simpa using hds, ?_⟩
  intro j hj
  rw [hdj j (by simpa using hj)]
  simp [hj]

/-! ### The drawing loop -/

theorem readAt_eq_ok {T : Type} {l : List T} {i : Nat} {v : T} :
    readAt l i = .ok v ↔ l[i]? = some v := by
  unfold readAt
  cases h : l[i]? with
  | none => simp
  | some a => simp

theorem castInt_neg (q : ℚ) : RejectionSampling.castInt (-q) = -RejectionSampling.castInt q := by
  unfold RejectionSampling.castInt
  rw [Rat.neg_num, Rat.neg_den, Int.neg_tdiv]

theorem castInt_ge_of_nonpos (p : ℚ) (w : Int) (h1 : (w : ℚ) ≤ p) (h2 : p ≤ 0) :
    w ≤ RejectionSampling.castInt p ∧ RejectionSampling.castInt p ≤ 0 := by
  refine ⟨?_, RejectionSampling.castInt_nonpos p h2⟩
  have h3 : RejectionSampling.castInt p = -RejectionSampling.castInt (-p) := by
    rw [castInt_neg, neg_neg]
  rw [h3, RejectionSampling.castInt_of_nonneg (-p) (by linarith)]
  have h4 : ⌊-p⌋ ≤ -w := by
    have h5 : ((⌊-p⌋ : Int) : ℚ) ≤ ((-w : Int) : ℚ) := by
      push_cast
      exact le_trans (Int.floor_le _) (by linarith)
    exact_mod_cast h5
  omega

theorem printHist_eq_ok {x : List Double} {nBins w : Int} {lines : List Line}
    (h : printHist x nBins w = .ok lines) :
    ∃ hist mc, binning x nBins = .ok hist ∧ max hist.counts = .ok mc ∧
      drawBins hist mc w 0 nBins.toNat = .ok lines := by
  unfold printHist at h
  obtain ⟨hist, h1, h2⟩ := (bind_eq_ok _ _ _).mp h
  obtain ⟨mc, h3, h4⟩ := (bind_eq_ok _ _ _).mp h2
  exact ⟨hist, mc, h1, h3, h4⟩

theorem printHist_of_parts {x : List Double} {nBins w : Int} {hist : Histogram} {mc : Double}
    (h1 : binning x nBins = .ok hist) (h2 : max hist.counts = .ok mc) :
    printHist x nBins w = drawBins hist mc w 0 nBins.toNat := by
  unfold printHist
  rw [h1]
  simp only [bind, Except.bind]
  rw [h2]

theorem drawBin_eq_ok {h : Histogram} {mc : Double} {w : Int} {i : Nat} {line : Line}
    (hd : drawBin h mc w i = .ok line) :
    ∃ cnt b, h.counts[i]? = some cnt ∧ barLength cnt mc w = .ok b ∧
      line = ⟨label h.minVal h.binSize i, b.toNat⟩ := by
  unfold drawBin at hd
  obtain ⟨cnt, h1, h2⟩ := (bind_eq_ok _ _ _).mp hd
  obtain ⟨b, h3, h4⟩ := (bind_eq_ok _ _ _).mp h2
  exact ⟨cnt, b, readAt_eq_ok.mp h1, h3, (Except.ok.inj h4).symm⟩

theorem drawBin_of_parts {h : Histogram} {mc cnt : Double} {w b : Int} {i : Nat}
    (h1 : h.counts[i]? = some cnt) (h2 : barLength cnt mc w = .ok b) :
    drawBin h mc w i = .ok ⟨label h.minVal h.binSize i, b.toNat⟩ := by
  unfold drawBin
  rw [readAt_eq_ok.mpr h1]
  simp only [bind, Except.bind]
  rw [h2]
  rfl

theorem drawBins_eq_ok (h : Histogram) (mc : Double) (w : Int) (todo i : Nat)
    (lines : List Line) (hd : drawBins h mc w i todo = .ok lines) :
    lines.length = todo ∧
    ∀ j : Nat, j < todo → ∃ line, lines[j]? = some line ∧ drawBin h mc w (i + j) = .ok line := by
  induction todo generalizing i lines with
  | zero =>
    simp only [drawBins] at hd
    rw [← Except.ok.inj hd]
    exact ⟨rfl, fun j hj => absurd hj (Nat.not_lt_zero j)⟩
  | succ n ih =>
    simp only [drawBins] at hd
    obtain ⟨line, h1, h2⟩ := (bind_eq_ok _ _ _).mp hd
    obtain ⟨rest, h3, h4⟩ := (bind_eq_ok _ _ _).mp h2
    obtain ⟨i1, i2⟩ := ih (i + 1) rest h3
    rw [← Except.ok.inj h4]
    refine ⟨by simp [i1], ?_⟩
    intro j hj
    cases j with
    | zero => exact ⟨line, by simp, h1⟩
    | succ k =>
      obtain ⟨l, hl1, hl2⟩ := i2 k (by omega)
      refine ⟨l, by simpa using hl1, ?_⟩
      have : i + (k + 1) = i + 1 + k := by omega
      rw [this]
      exact hl2

theorem drawBins_of_ok (h : Histogram) (mc : Double) (w : Int) (f : Nat → Line)
    (todo i : Nat) (hf : ∀ j : Nat, j < todo → drawBin h mc w (i + j) = .ok (f (i + j))) :
    drawBins h mc w i todo = .ok ((List.range' i todo).map f) := by
  induction todo generalizing i with
  | zero => rfl
  | succ n ih =>
    have h1 := hf 0 (by omega)
    have h2 := ih (i + 1) (fun j hj => by
      have := hf (j + 1) (by omega)
      have e : i + (j + 1) = i + 1 + j := by omega
      rw [e] at this
      exact this)
    simp only [Nat.add_zero] at h1
    simp only [drawBins, h1, h2, bind, Except.bind, pure, Except.pure, List.range'_succ,
      List.map_cons]

/-- The largest count of counts that hold natural numbers. -/
theorem maxCount_spec (cn : List Nat) (hne : cn ≠ []) :
    ∃ m, m ∈ cn ∧ max (cn.map (fun c : Nat => Double.fin (c : ℚ))) = .ok (.fin (m : ℚ)) ∧
      ∀ c ∈ cn, c ≤ m := by
  have hne' : cn.map (fun c : Nat => Double.fin (c : ℚ)) ≠ [] := by simpa using hne
  obtain ⟨mc, hmc⟩ := max_returns _ hne'
  have hnan : ∀ v ∈ cn.map (fun c : Nat => Double.fin (c : ℚ)), v ≠ .nan := by
    intro v hv hc
    obtain ⟨c, -, e⟩ := List.mem_map.mp hv
    rw [hc] at e
    exact Double.noConfusion e
  obtain ⟨h1, h2⟩ := max_ge_all _ mc hnan hmc
  obtain ⟨m, hm, e⟩ := List.mem_map.mp h1
  refine ⟨m, hm, by rw [hmc, ← e], ?_⟩
  intro c hc
  have := h2 _ (List.mem_map.mpr ⟨c, hc, rfl⟩)
  rw [← e] at this
  have h3 : (c : ℚ) ≤ (m : ℚ) := (le_fin_fin _ _).mp this
  exact_mod_cast h3

/-! ### The bound of the loop that prints the markers -/

theorem int31_lt_pow53 {w : Int} (hw1 : -2147483648 ≤ w) (hw2 : w ≤ 2147483647) :
    |w| < 2 ^ 53 := by
  rw [abs_lt]
  constructor <;> norm_num <;> omega

theorem ratio_round (c m : Nat) (hcm : c ≤ m) (hm : 1 ≤ m) :
    ∃ r : ℚ, round ((c : ℚ) / (m : ℚ)) = .fin r ∧ 0 ≤ r ∧ r ≤ 1 ∧
      fdiv (.fin (c : ℚ)) (.fin (m : ℚ)) = .ok (.fin r) := by
  have hm0 : (0 : ℚ) < (m : ℚ) := by exact_mod_cast hm
  have h0 : (0 : ℚ) ≤ (c : ℚ) / (m : ℚ) := div_nonneg (Nat.cast_nonneg c) hm0.le
  have h1 : (c : ℚ) / (m : ℚ) ≤ 1 := by
    rw [div_le_one hm0]
    exact_mod_cast hcm
  obtain ⟨hr, hr0, hr1⟩ := round_between ((c : ℚ) / (m : ℚ)) 0 1 (by norm_num) (by norm_num)
    (by simpa using h0) (by simpa using h1)
  refine ⟨roundFinite ((c : ℚ) / (m : ℚ)), hr, by simpa using hr0, by simpa using hr1, ?_⟩
  have hne : (Double.fin (m : ℚ)) ≠ .fin 0 := by
    intro h
    have := Double.fin.inj h
    linarith
  rw [fdiv_of_ne_zero hne]
  simp only [quotient]
  rw [hr]

theorem barLength_spec (c m : Nat) (w : Int) (hcm : c ≤ m) (hm : 1 ≤ m)
    (hw1 : -2147483648 ≤ w) (hw2 : w ≤ 2147483647) :
    ∃ r p : ℚ, round ((c : ℚ) / (m : ℚ)) = .fin r ∧ 0 ≤ r ∧ r ≤ 1 ∧
      round (r * (w : ℚ)) = .fin p ∧
      barLength (.fin (c : ℚ)) (.fin (m : ℚ)) w = .ok (RejectionSampling.castInt p) ∧
      (0 ≤ w → 0 ≤ p ∧ p ≤ (w : ℚ)) ∧ (w ≤ 0 → (w : ℚ) ≤ p ∧ p ≤ 0) := by
  obtain ⟨r, hr, hr0, hr1, hdiv⟩ := ratio_round c m hcm hm
  have hw53 := int31_lt_pow53 hw1 hw2
  have key : ∃ p : ℚ, round (r * (w : ℚ)) = .fin p ∧ (0 ≤ w → 0 ≤ p ∧ p ≤ (w : ℚ)) ∧
      (w ≤ 0 → (w : ℚ) ≤ p ∧ p ≤ 0) := by
    rcases le_total 0 w with h | h
    · have hwq : (0 : ℚ) ≤ (w : ℚ) := by exact_mod_cast h
      obtain ⟨hp, hp0, hp1⟩ := round_between (r * (w : ℚ)) 0 w (by norm_num) hw53
        (by simpa using mul_nonneg hr0 hwq) (by nlinarith)
      refine ⟨_, hp, fun _ => ⟨by simpa using hp0, hp1⟩, fun h2 => ?_⟩
      have hw0 : w = 0 := le_antisymm h2 h
      subst hw0
      exact ⟨by simpa using hp0, by simpa using hp1⟩
    · have hwq : (w : ℚ) ≤ 0 := by exact_mod_cast h
      obtain ⟨hp, hp0, hp1⟩ := round_between (r * (w : ℚ)) w 0 hw53 (by norm_num)
        (by nlinarith) (by simpa using mul_nonpos_of_nonneg_of_nonpos hr0 hwq)
      refine ⟨_, hp, fun h2 => ?_, fun _ => ⟨hp0, by simpa using hp1⟩⟩
      have hw0 : w = 0 := le_antisymm h h2
      subst hw0
      exact ⟨by simpa using hp0, by simpa using hp1⟩
  obtain ⟨p, hp, hb1, hb2⟩ := key
  refine ⟨r, p, hr, hr0, hr1, hp, ?_, hb1, hb2⟩
  have hcast : -2147483648 ≤ RejectionSampling.castInt p ∧
      RejectionSampling.castInt p ≤ 2147483647 := by
    rcases le_total 0 w with h | h
    · obtain ⟨h1, h2⟩ := hb1 h
      obtain ⟨h3, h4⟩ := RejectionSampling.castInt_bounds _ w h1 h2
      omega
    · obtain ⟨h1, h2⟩ := hb2 h
      obtain ⟨h3, h4⟩ := castInt_ge_of_nonpos _ w h1 h2
      omega
  simp only [barLength, hdiv, bind, Except.bind]
  rw [ofInt_eq w hw53]
  simp only [fmul]
  rw [hp]
  exact castInt_fin_ok hcast.1 hcast.2

theorem barLength_bounds (c m : Nat) (w : Int) (hcm : c ≤ m) (hm : 1 ≤ m)
    (hw1 : -2147483648 ≤ w) (hw2 : w ≤ 2147483647) :
    ∃ bar, barLength (.fin (c : ℚ)) (.fin (m : ℚ)) w = .ok bar ∧
      (0 ≤ w → 0 ≤ bar ∧ bar ≤ w) ∧ (w ≤ 0 → w ≤ bar ∧ bar ≤ 0) := by
  obtain ⟨r, p, _, _, _, _, hbar, hb1, hb2⟩ := barLength_spec c m w hcm hm hw1 hw2
  refine ⟨_, hbar, ?_, ?_⟩
  · intro h
    obtain ⟨h1, h2⟩ := hb1 h
    exact RejectionSampling.castInt_bounds _ w h1 h2
  · intro h
    obtain ⟨h1, h2⟩ := hb2 h
    exact castInt_ge_of_nonpos _ w h1 h2

theorem barLength_full (m : Nat) (w : Int) (hm : 1 ≤ m)
    (hw1 : -2147483648 ≤ w) (hw2 : w ≤ 2147483647) :
    barLength (.fin (m : ℚ)) (.fin (m : ℚ)) w = .ok w := by
  obtain ⟨r, p, hr, _, _, hp, hbar, _, _⟩ := barLength_spec m m w (le_refl m) hm hw1 hw2
  have hm0 : (m : ℚ) ≠ 0 := by
    have : (0 : ℚ) < (m : ℚ) := by exact_mod_cast hm
    exact this.ne.symm
  rw [div_self hm0, round_one] at hr
  have hr1 : r = 1 := (Double.fin.inj hr).symm
  rw [hr1, one_mul, round_intCast w (int31_lt_pow53 hw1 hw2)] at hp
  have hp1 : p = (w : ℚ) := (Double.fin.inj hp).symm
  rw [hbar, hp1, RejectionSampling.castInt_intCast]

theorem barLength_zero (m : Nat) (w : Int) (hm : 1 ≤ m)
    (hw1 : -2147483648 ≤ w) (hw2 : w ≤ 2147483647) :
    barLength (.fin ((0 : Nat) : ℚ)) (.fin (m : ℚ)) w = .ok 0 := by
  obtain ⟨r, p, hr, _, _, hp, hbar, _, _⟩ := barLength_spec 0 m w (Nat.zero_le m) hm hw1 hw2
  rw [Nat.cast_zero, zero_div, round_zero] at hr
  have hr1 : r = 0 := (Double.fin.inj hr).symm
  rw [hr1, zero_mul, round_zero] at hp
  have hp1 : p = 0 := (Double.fin.inj hp).symm
  rw [hbar, hp1, RejectionSampling.castInt_zero]

theorem barLength_mono (c d m : Nat) (w : Int) (hcd : c ≤ d) (hdm : d ≤ m) (hm : 1 ≤ m)
    (hw0 : 0 ≤ w) (hw2 : w ≤ 2147483647) :
    ∃ bc bd, barLength (.fin (c : ℚ)) (.fin (m : ℚ)) w = .ok bc ∧
      barLength (.fin (d : ℚ)) (.fin (m : ℚ)) w = .ok bd ∧ bc ≤ bd := by
  have hw1 : -2147483648 ≤ w := by omega
  obtain ⟨r, p, hr, hr0, _, hp, hbar, hb1, _⟩ :=
    barLength_spec c m w (le_trans hcd hdm) hm hw1 hw2
  obtain ⟨s, q, hs, _, _, hq, hbar2, _, _⟩ := barLength_spec d m w hdm hm hw1 hw2
  refine ⟨_, _, hbar, hbar2, ?_⟩
  have hm0 : (0 : ℚ) < (m : ℚ) := by exact_mod_cast hm
  have hcd2 : (c : ℚ) / (m : ℚ) ≤ (d : ℚ) / (m : ℚ) := by
    apply div_le_div_of_nonneg_right _ hm0.le
    exact_mod_cast hcd
  have hrs : r ≤ s := round_fin_mono hcd2 hr hs
  have hw : (0 : ℚ) ≤ (w : ℚ) := by exact_mod_cast hw0
  have hpq : p ≤ q := round_fin_mono (mul_le_mul_of_nonneg_right hrs hw) hp hq
  exact RejectionSampling.castInt_mono p q (hb1 hw0).1 hpq

theorem round_pred_one :
    round (9007199254740991 / 9007199254740992) = .fin (9007199254740991 / 9007199254740992) := by
  decide!

theorem round_half : round (1 / 2) = .fin (1 / 2) := by
  decide!

theorem barLength_lt (c m : Nat) (w : Int) (hcm : c < m) (hm53 : m < 2 ^ 53)
    (hw0 : 0 < w) (hw2 : w ≤ 2147483647) :
    ∃ bar, barLength (.fin (c : ℚ)) (.fin (m : ℚ)) w = .ok bar ∧ bar < w := by
  have hm : 1 ≤ m := by omega
  have hw1 : -2147483648 ≤ w := by omega
  obtain ⟨r, p, hr, hr0, _, hp, hbar, hb1, _⟩ := barLength_spec c m w hcm.le hm hw1 hw2
  refine ⟨_, hbar, ?_⟩
  have hm0 : (0 : ℚ) < (m : ℚ) := by exact_mod_cast hm
  have hwq : (1 : ℚ) ≤ (w : ℚ) := by exact_mod_cast hw0
  have hw31 : (w : ℚ) ≤ 2147483647 := by exact_mod_cast hw2
  have hratio : (c : ℚ) / (m : ℚ) ≤ 9007199254740991 / 9007199254740992 := by
    rw [div_le_div_iff₀ hm0 (by norm_num)]
    have h1 : (c : ℚ) + 1 ≤ (m : ℚ) := by exact_mod_cast hcm
    have h2 : (m : ℚ) ≤ 9007199254740992 := by
      have : m ≤ 9007199254740992 := by
        have : (2 : Nat) ^ 53 = 9007199254740992 := by norm_num
        omega
      exact_mod_cast this
    nlinarith
  have hr2 : r ≤ 9007199254740991 / 9007199254740992 := round_fin_mono hratio hr round_pred_one
  have hrw : r * (w : ℚ) ≤ 9007199254740991 / 9007199254740992 * (w : ℚ) :=
    mul_le_mul_of_nonneg_right hr2 (by linarith)
  have hplt : p < (w : ℚ) := by
    rcases le_or_lt (r * (w : ℚ)) (1 / 2) with h | h
    · have := round_fin_mono h hp round_half
      linarith
    · have h22 : pow2 (-1022) ≤ r * (w : ℚ) := by
        have h3 : pow2 (-1022) ≤ pow2 (-1) := pow2_le_pow2 (by norm_num)
        have h4 : pow2 (-1) = 1 / 2 := by
          rw [pow2_eq]
          norm_num
        rw [h4] at h3
        exact le_trans h3 h.le
      have h24 : r * (w : ℚ) < pow2 1024 := by
        have := pow2_53_lt
        have h5 : ((2 : ℚ) ^ 53) = 9007199254740992 := by norm_num
        rw [h5] at this
        linarith
      have hrel := roundFinite_le_rel (r * (w : ℚ)) h22 h24
      rw [← (round_eq_fin hp).1] at hrel
      have h5 : ((2 : ℚ) ^ 53) = 9007199254740992 := by norm_num
      rw [h5] at hrel
      have h6 : r * (w : ℚ) + r * (w : ℚ) / 9007199254740992 < (w : ℚ) := by
        have h7 : r * (w : ℚ) + r * (w : ℚ) / 9007199254740992 =
            r * (w : ℚ) * (9007199254740993 / 9007199254740992) := by ring
        rw [h7]
        have h8 : r * (w : ℚ) * (9007199254740993 / 9007199254740992) ≤
            9007199254740991 / 9007199254740992 * (w : ℚ) *
              (9007199254740993 / 9007199254740992) :=
          mul_le_mul_of_nonneg_right hrw (by norm_num)
        have h9 : 9007199254740991 / 9007199254740992 * (w : ℚ) *
              (9007199254740993 / 9007199254740992) < (w : ℚ) := by
          have : (9007199254740991 : ℚ) / 9007199254740992 *
              (9007199254740993 / 9007199254740992) < 1 := by norm_num
          nlinarith
        linarith
      linarith
  exact RejectionSampling.castInt_lt p w (hb1 hw0.le).1 hplt

/-! ### The run of `printHist` after a counting loop without fault -/

theorem printHist_run {x : List Double} {nBins w : Int} {h : Histogram}
    (hbin : binning x nBins = .ok h) (hlen : x.length < 2 ^ 53)
    (hw1 : -2147483648 ≤ w) (hw2 : w ≤ 2147483647) :
    ∃ (cn : List Nat) (mc : Nat) (lines : List Line),
      h.counts = cn.map (fun c : Nat => Double.fin (c : ℚ)) ∧ cn.length = nBins.toNat ∧
      cn.sum = x.length ∧ mc ∈ cn ∧ (∀ c ∈ cn, c ≤ mc) ∧ 1 ≤ mc ∧ mc < 2 ^ 53 ∧
      max h.counts = .ok (.fin (mc : ℚ)) ∧
      printHist x nBins w = .ok lines ∧ lines.length = nBins.toNat ∧
      ∀ i : Nat, i < nBins.toNat → ∃ (c : Nat) (bar : Int), cn[i]? = some c ∧
        barLength (.fin (c : ℚ)) (.fin (mc : ℚ)) w = .ok bar ∧
        lines[i]? = some ⟨label h.minVal h.binSize i, bar.toNat⟩ := by
  obtain ⟨lo, hi, b, cn, _, _, hlo, _, hn, _, _, _, _, _, hcn, hcl, hsum, _⟩ :=
    binning_inv hbin hlen
  have hne : cn ≠ [] := by
    intro h0
    rw [h0] at hcl
    simp at hcl
    omega
  obtain ⟨mc, hmem, hmax, hle⟩ := maxCount_spec cn hne
  have hxpos : 0 < x.length := List.length_pos_of_mem hlo
  have hmc1 : 1 ≤ mc := by
    by_contra hcon
    have h0 : mc = 0 := by omega
    have := List.sum_le_card_nsmul cn mc hle
    rw [h0] at this
    simp at this
    omega
  have hmc53 : mc < 2 ^ 53 := by
    obtain ⟨i, hi⟩ := List.mem_iff_getElem?.1 hmem
    have := getD_le_sum cn i
    rw [List.getD_eq_getElem?_getD, hi] at this
    simp at this
    omega
  have hbars : ∀ i : Nat, i < nBins.toNat → ∃ (c : Nat) (bar : Int), cn[i]? = some c ∧
      barLength (.fin (c : ℚ)) (.fin (mc : ℚ)) w = .ok bar := by
    intro i hi
    have hil : i < cn.length := by omega
    refine ⟨cn[i], ?_⟩
    obtain ⟨bar, hbar, _⟩ := barLength_bounds cn[i] mc w (hle _ (List.getElem_mem hil)) hmc1 hw1 hw2
    exact ⟨bar, List.getElem?_eq_getElem hil, hbar⟩
  let f : Nat → Line := fun i =>
    ⟨label h.minVal h.binSize i,
      (match barLength (.fin ((cn.getD i 0 : Nat) : ℚ)) (.fin (mc : ℚ)) w with
        | .ok bar => bar.toNat
        | .error _ => 0)⟩
  have hdraw : ∀ j : Nat, j < nBins.toNat → drawBin h (.fin (mc : ℚ)) w (0 + j) = .ok (f (0 + j)) := by
    intro j hj
    obtain ⟨c, bar, hc, hbar⟩ := hbars j hj
    rw [Nat.zero_add]
    have hcnt : h.counts[j]? = some (Double.fin (c : ℚ)) := by
      rw [hcn, List.getElem?_map, hc]
      rfl
    rw [drawBin_of_parts hcnt hbar]
    have hgd : cn.getD j 0 = c := by
      rw [List.getD_eq_getElem?_getD, hc]
      rfl
    simp only [f, hgd, hbar]
  have hrun := drawBins_of_ok h (.fin (mc : ℚ)) w f nBins.toNat 0 hdraw
  rw [← hcn] at hmax
  refine ⟨cn, mc, (List.range' 0 nBins.toNat).map f, hcn, hcl, hsum, hmem, hle, hmc1, hmc53,
    hmax, ?_, by simp, ?_⟩
  · rw [printHist_of_parts hbin hmax]
    exact hrun
  · intro i hi
    obtain ⟨c, bar, hc, hbar⟩ := hbars i hi
    refine ⟨c, bar, hc, hbar, ?_⟩
    rw [List.getElem?_map, List.getElem?_range' 0 1 hi]
    have hgd : cn.getD i 0 = c := by
      rw [List.getD_eq_getElem?_getD, hc]
      rfl
    have hfi : f i = ⟨label h.minVal h.binSize i, bar.toNat⟩ := by
      simp only [f, hgd, hbar]
    simp only [Option.map, Nat.zero_add, Nat.one_mul, hfi]

/-! ### The bucket of the maximum -/

theorem le_inf_false {a : Double} (ha : a ≠ .nan) : le a (.inf false) = true := by
  cases a with
  | nan => exact absurd rfl ha
  | inf n => cases n <;> rfl
  | fin p => rfl

theorem inf_true_le {a : Double} (ha : a ≠ .nan) : le (.inf true) a = true := by
  cases a with
  | nan => exact absurd rfl ha
  | inf n => cases n <;> rfl
  | fin p => rfl

theorem fadd_le_fadd_left (lo : ℚ) {u v : Double} (h : le u v = true) :
    le (fadd (.fin lo) u) (fadd (.fin lo) v) = true := by
  cases u with
  | nan => simp [le] at h
  | inf s =>
    cases v with
    | nan => cases s <;> simp [le] at h
    | inf t => simpa [fadd] using h
    | fin q =>
      have hs : s = true := by simpa [le] using h
      subst hs
      simp only [fadd]
      exact inf_true_le (round_ne_nan _)
  | fin p =>
    cases v with
    | nan => simp [le] at h
    | inf t =>
      have ht : t = false := by simpa [le] using h
      subst ht
      simp only [fadd]
      exact le_inf_false (round_ne_nan _)
    | fin q =>
      simp only [fadd]
      exact round_mono (by linarith [(le_fin_fin p q).1 h])

theorem fmul_le_fmul_right {b : ℚ} (hb : 0 < b) {u v : Double} (h : le u v = true) :
    le (fmul u (.fin b)) (fmul v (.fin b)) = true := by
  have hb0 : ¬ b = 0 := hb.ne.symm
  have hbn : ¬ b < 0 := not_lt.mpr hb.le
  cases u with
  | nan => simp [le] at h
  | inf s =>
    cases v with
    | nan => cases s <;> simp [le] at h
    | inf t => simpa [fmul, hb0, hbn] using h
    | fin q =>
      have hs : s = true := by simpa [le] using h
      subst hs
      simp only [fmul, hb0, hbn, if_false, decide_False, Bool.xor_false]
      exact inf_true_le (round_ne_nan _)
  | fin p =>
    cases v with
    | nan => simp [le] at h
    | inf t =>
      have ht : t = false := by simpa [le] using h
      subst ht
      simp only [fmul, hb0, hbn, if_false, decide_False, Bool.xor_false]
      exact le_inf_false (round_ne_nan _)
    | fin q =>
      simp only [fmul]
      exact round_mono (mul_le_mul_of_nonneg_right ((le_fin_fin p q).1 h) hb.le)

theorem label_mono (lo : ℚ) {b : ℚ} (hb : 0 < b) {i j : Nat} (hij : i ≤ j) :
    le (label (.fin lo) (.fin b) i) (label (.fin lo) (.fin b) j) = true := by
  unfold label
  apply fadd_le_fadd_left
  apply fmul_le_fmul_right hb
  unfold ofInt
  apply round_mono
  exact_mod_cast hij

theorem label_zero {lo : ℚ} (b : ℚ) (hlo : isDouble (.fin lo) = true) :
    label (.fin lo) (.fin b) 0 = .fin lo := by
  unfold label ofInt
  simp only [Nat.cast_zero, Int.cast_zero, round_zero, fmul, zero_mul, fadd, add_zero]
  exact round_of_isDouble hlo

/-! ### The counting loop on a rearranged vector -/

theorem binning_of_parts {x : List Double} {nBins : Int} {lo hi bs : Double}
    {c0 cs : List Double} (h1 : min x = .ok lo) (h2 : max x = .ok hi)
    (h3 : fdiv (fsub hi lo) (ofInt nBins) = .ok bs) (h4 : newCounts nBins = .ok c0)
    (h5 : countBins lo bs nBins x c0 = .ok cs) : binning x nBins = .ok ⟨lo, hi, bs, cs⟩ := by
  simp only [binning, h1, h2, h3, h4, h5, bind, Except.bind, pure, Except.pure]

theorem binning_perm {x y : List Double} {nBins : Int} {h : Histogram}
    (hbin : binning x nBins = .ok h) (hlen : x.length < 2 ^ 53) (hperm : y.Perm x) :
    binning y nBins = .ok h := by
  obtain ⟨hmin, hmax, hbs, c0, hc0, _⟩ := binning_eq_ok hbin
  obtain ⟨lo, hi, b, cn, hlo, hhi, hlomem, himem, hn, hb, hb0, _, hbounds, hidx, hcn, hcl,
    hsum, hcount⟩ := binning_inv hbin hlen
  obtain ⟨_, hc0eq⟩ := newCounts_eq_ok hc0
  have hnanx : ∀ v ∈ x, v ≠ .nan := by
    intro v hv hc
    obtain ⟨vq, e, _⟩ := hbounds v hv
    rw [hc] at e
    exact Double.noConfusion e
  have hnany : ∀ v ∈ y, v ≠ .nan := fun v hv => hnanx v (hperm.subset hv)
  obtain ⟨hm1, hm2⟩ := min_le_all x h.minVal hnanx hmin
  obtain ⟨hM1, hM2⟩ := max_ge_all x h.maxVal hnanx hmax
  have hminy : min y = .ok h.minVal :=
    min_of_least y h.minVal hnany (hperm.symm.subset hm1)
      (fun v hv => hm2 v (hperm.subset hv))
  have hmaxy : max y = .ok h.maxVal :=
    max_of_greatest y h.maxVal hnany (hperm.symm.subset hM1)
      (fun v hv => hM2 v (hperm.subset hv))
  have hreplen : (List.replicate nBins.toNat 0 : List Nat).length = nBins.toNat := by simp
  have hrepsum : (List.replicate nBins.toNat 0 : List Nat).sum = 0 := by simp
  have hylen : y.length = x.length := hperm.length_eq
  obtain ⟨dn, hdn, hdl, _, hdcount⟩ := countBins_natCounts h.minVal h.binSize nBins y
    (List.replicate nBins.toNat 0) (by rw [hrepsum, hylen]; omega)
    (by
      intro v hv
      obtain ⟨r, _, _, hk, hk0, hk1⟩ := hidx v (hperm.subset hv)
      refine ⟨_, hk, hk0, ?_⟩
      rw [hreplen]
      omega)
  have hdc : dn = cn := by
    apply List.ext_getElem?
    intro j
    by_cases hj : j < nBins.toNat
    · rw [hdcount j (by rw [hreplen]; exact hj), hcount j hj, hperm.countP_eq]
      simp
    · rw [List.getElem?_eq_none (by omega), List.getElem?_eq_none (by omega)]
  rw [← hc0eq, hdc, ← hcn] at hdn
  exact binning_of_parts hminy hmaxy hbs hc0 hdn

/-! ### Inputs on which the counting loop runs without fault -/

theorem ofInt_ne_zero {n : Int} (hn : n ≠ 0) : ofInt n ≠ .fin 0 := by
  intro h
  unfold ofInt at h
  rcases lt_or_gt_of_ne hn with h1 | h1
  · have hle : ((n : Int) : ℚ) ≤ ((-1 : Int) : ℚ) := by exact_mod_cast (by omega : n ≤ -1)
    have := round_mono hle
    rw [h, round_intCast (-1) (by norm_num)] at this
    have := (le_fin_fin _ _).1 this
    norm_num at this
  · have hle : ((1 : Int) : ℚ) ≤ ((n : Int) : ℚ) := by exact_mod_cast (by omega : 1 ≤ n)
    have := round_mono hle
    rw [h, round_intCast 1 (by norm_num)] at this
    have := (le_fin_fin _ _).1 this
    norm_num at this

theorem min_max_of_equal {x : List Double} {v : ℚ} (hx : x ≠ [])
    (hall : ∀ u ∈ x, u = .fin v) : min x = .ok (.fin v) ∧ max x = .ok (.fin v) := by
  have hnan : ∀ u ∈ x, u ≠ .nan := by
    intro u hu hc
    have := hall u hu
    rw [hc] at this
    exact Double.noConfusion this
  obtain ⟨a, ha⟩ := List.exists_mem_of_ne_nil x hx
  have hmem : Double.fin v ∈ x := by
    rw [← hall a ha]
    exact ha
  have hle : ∀ u ∈ x, le (.fin v) u = true := by
    intro u hu
    rw [hall u hu]
    exact (le_fin_fin _ _).2 (le_refl v)
  have hge : ∀ u ∈ x, le u (.fin v) = true := by
    intro u hu
    rw [hall u hu]
    exact (le_fin_fin _ _).2 (le_refl v)
  exact ⟨min_of_least x _ hnan hmem hle, max_of_greatest x _ hnan hmem hge⟩

/-- In binary64 arithmetic too, a non-empty vector of equal finite samples makes `binSize`
zero and the run end in the division by it, for every `nBins > 0`. -/
theorem equal_samples_divide_by_zero (x : List Double) (v : ℚ) (nBins w : Int) (hx : x ≠ [])
    (hall : ∀ u ∈ x, u = .fin v) (hn : 0 < nBins) :
    fdiv (fsub (.fin v) (.fin v)) (ofInt nBins) = .ok (.fin 0) ∧
    binning x nBins = .error .divisionByZero ∧
    printHist x nBins w = .error .divisionByZero := by
  obtain ⟨hmin, hmax⟩ := min_max_of_equal hx hall
  have hbs : fdiv (fsub (.fin v) (.fin v)) (ofInt nBins) = .ok (.fin 0) := by
    rw [fdiv_of_ne_zero (ofInt_ne_zero hn.ne')]
    simp only [fsub, sub_self, round_zero]
    cases hq : ofInt nBins with
    | nan => exact absurd hq (round_ne_nan _)
    | inf s => rfl
    | fin m =>
      simp only [quotient, zero_div, round_zero]
  have hnew : newCounts nBins = .ok (List.replicate nBins.toNat (.fin 0)) := by
    simp [newCounts, not_lt.mpr hn.le]
  have hb : binning x nBins = .error .divisionByZero := by
    cases x with
    | nil => exact absurd rfl hx
    | cons a l =>
      have ha : a = .fin v := hall a (by simp)
      rw [ha] at hmin hmax
      rw [ha]
      simp only [binning, hmin, hmax, hbs, hnew, bind, Except.bind, countBins, binIdx, rawIdx]
      simp only [fdiv, if_true]
  refine ⟨hbs, hb, ?_⟩
  simp only [printHist, hb, bind, Except.bind]

/-- In binary64 arithmetic too, a negative `nBins` makes the run of `printHist` on a
non-empty vector end in the exception thrown by the declaration of `counts`. -/
theorem negative_nBins_throws (x : List Double) (nBins w : Int) (hx : x ≠ [])
    (hn : nBins < 0) : printHist x nBins w = .error .lengthError := by
  obtain ⟨lo, hmin⟩ := min_returns x hx
  obtain ⟨hi, hmax⟩ := max_returns x hx
  have hnew : newCounts nBins = .error .lengthError := by
    simp [newCounts, hn]
  simp only [printHist, binning, hmin, hmax, fdiv_of_ne_zero (ofInt_ne_zero hn.ne), hnew, bind,
    Except.bind]

/-- A range that underflows: for the samples 0 and `2^-1074`, the smallest positive
`double`, with `nBins = 2`, the bin size `2^-1074 / 2` rounds to zero and the run ends in
the division by it. -/
theorem underflow_range_divides_by_zero :
    isDouble (.fin (pow2 (-1074))) = true ∧
    min [.fin 0, .fin (pow2 (-1074))] = .ok (.fin 0) ∧
    max [.fin 0, .fin (pow2 (-1074))] = .ok (.fin (pow2 (-1074))) ∧
    lt (.fin 0) (.fin (pow2 (-1074))) = true ∧
    fdiv (fsub (.fin (pow2 (-1074))) (.fin 0)) (ofInt 2) = .ok (.fin 0) ∧
    binning [.fin 0, .fin (pow2 (-1074))] 2 = .error .divisionByZero ∧
    printHist [.fin 0, .fin (pow2 (-1074))] 2 16 = .error .divisionByZero := by
  refine ⟨by decide!, by decide!, by decide!, by decide!, by decide!, by decide!, by decide!⟩

/-! ### Claims on the extrema and on the sampler -/

/-- C10 as amended, empty input is not checked: `min` and `max` read `x[0]` without a test
for emptiness; that read is outside the vector exactly when the vector is empty, which is
undefined behaviour and no failure reported to the caller; on the empty sequence the run of
`printHist` is undefined from its first statement on, for every `nBins` and `plotWidth`. -/
theorem empty_input_reads_out_of_bounds :
    (∀ x : List Double, min x = .error .outOfBounds ↔ x = []) ∧
    (∀ x : List Double, max x = .error .outOfBounds ↔ x = []) ∧
    (∀ (x : List Double) (f : Fault), (min x = .error f ∨ max x = .error f) →
      x = [] ∧ f = .outOfBounds) ∧
    (∀ nBins w : Int, binning [] nBins = .error .outOfBounds ∧
      printHist [] nBins w = .error .outOfBounds) ∧
    Fault.isException .outOfBounds = false := by
  have hmin : ∀ (x : List Double) (f : Fault), min x = .error f → x = [] ∧ f = .outOfBounds := by
    intro x f h
    cases x with
    | nil =>
      rw [min_nil] at h
      exact ⟨rfl, (Except.error.inj h).symm⟩
    | cons a l =>
      rw [min_cons] at h
      exact Except.noConfusion h
  have hmax : ∀ (x : List Double) (f : Fault), max x = .error f → x = [] ∧ f = .outOfBounds := by
    intro x f h
    cases x with
    | nil =>
      rw [max_nil] at h
      exact ⟨rfl, (Except.error.inj h).symm⟩
    | cons a l =>
      rw [max_cons] at h
      exact Except.noConfusion h
  refine ⟨?_, ?_, ?_, ?_, rfl⟩
  · intro x
    exact ⟨fun h => (hmin x _ h).1, fun h => by rw [h, min_nil]⟩
  · intro x
    exact ⟨fun h => (hmax x _ h).1, fun h => by rw [h, max_nil]⟩
  · rintro x f (h | h)
    · exact hmin x f h
    · exact hmax x f h
  · intro nBins w
    have hb : binning [] nBins = .error .outOfBounds := by
      simp [binning, min_nil, bind, Except.bind]
    refine ⟨hb, ?_⟩
    simp [printHist, hb, bind, Except.bind]

/-- C10 as stated fails: on the empty sequence with `nBins = 10` and `plotWidth = 16` the
run of `printHist` starts with the out-of-bounds read of `x[0]` in `min`, which is undefined
behaviour and not a failure reported to the caller. -/
theorem empty_input_not_rejected :
    min [] = .error .outOfBounds ∧
    printHist [] 10 16 = .error .outOfBounds ∧
    ¬ ∃ f, printHist [] 10 16 = .error f ∧ Fault.isException f = true := by
  have h : printHist [] 10 16 = .error .outOfBounds := by decide!
  refine ⟨min_nil, h, ?_⟩
  rintro ⟨f, hf, hex⟩
  rw [h] at hf
  cases hf
  exact Bool.noConfusion hex

/-! ### Claims on the counting loop -/

/-- C1 as amended, count conservation: whenever the counting loop of `printHist` runs
without undefined behaviour on a vector of fewer than 2^53 samples, `counts` holds `nBins`
natural numbers whose sum is the number of samples. -/
theorem count_conservation (x : List Double) (nBins : Int) (h : Histogram)
    (hbin : binning x nBins = .ok h) (hlen : x.length < 2 ^ 53) :
    h.counts.length = nBins.toNat ∧
    ∃ cn : List Nat, h.counts = cn.map (fun c : Nat => Double.fin (c : ℚ)) ∧
      cn.sum = x.length := by
  obtain ⟨lo, hi, b, cn, _, _, _, _, _, _, _, _, _, _, hcn, hcl, hsum, _⟩ :=
    binning_inv hbin hlen
  refine ⟨?_, cn, hcn, hsum⟩
  rw [hcn, List.length_map, hcl]

/-- Witness of C1 as amended: the samples `{1, 2, 3, 4, 5}` with `nBins = 4` give the counts
`{1, 1, 1, 2}`, which sum to 5. -/
theorem count_conservation_witness :
    (binning [.fin 1, .fin 2, .fin 3, .fin 4, .fin 5] 4 =
        .ok ⟨.fin 1, .fin 5, .fin 1, [.fin 1, .fin 1, .fin 1, .fin 2]⟩ ∧
      ([.fin 1, .fin 2, .fin 3, .fin 4, .fin 5] : List Double).length < 2 ^ 53) ∧
    (([.fin 1, .fin 1, .fin 1, .fin 2] : List Double).length = (4 : Int).toNat ∧
      ∃ cn : List Nat, ([.fin 1, .fin 1, .fin 1, .fin 2] : List Double) =
        cn.map (fun c : Nat => Double.fin (c : ℚ)) ∧
        cn.sum = ([.fin 1, .fin 2, .fin 3, .fin 4, .fin 5] : List Double).length) :=
  ⟨⟨by decide!, by decide!⟩,
    count_conservation [.fin 1, .fin 2, .fin 3, .fin 4, .fin 5] 4
      ⟨.fin 1, .fin 5, .fin 1, [.fin 1, .fin 1, .fin 1, .fin 2]⟩ (by decide!) (by decide!)⟩

/-- C1 as stated fails where the range overflows: for the two samples `-2^1023` and
`2^1023` and `nBins = 2`, `maxVal - minVal` is `+inf`, so is `binSize`, the quotient of the
maximum is `inf / inf = NaN`, and its conversion to `int` is undefined: no counts are
computed. Also `counts[binIdx]++` on a count of 2^53 leaves it unchanged. -/
theorem count_conservation_fails_on_overflow :
    isDouble (.fin (-(pow2 1023))) = true ∧ isDouble (.fin (pow2 1023)) = true ∧
    min [.fin (-(pow2 1023)), .fin (pow2 1023)] = .ok (.fin (-(pow2 1023))) ∧
    max [.fin (-(pow2 1023)), .fin (pow2 1023)] = .ok (.fin (pow2 1023)) ∧
    lt (.fin (-(pow2 1023))) (.fin (pow2 1023)) = true ∧
    fsub (.fin (pow2 1023)) (.fin (-(pow2 1023))) = .inf false ∧
    fdiv (.inf false) (ofInt 2) = .ok (.inf false) ∧
    binning [.fin (-(pow2 1023)), .fin (pow2 1023)] 2 = .error .undefinedConversion ∧
    (¬ ∃ h : Histogram, binning [.fin (-(pow2 1023)), .fin (pow2 1023)] 2 = .ok h) ∧
    increment [.fin 9007199254740992] 0 = .ok [.fin 9007199254740992] := by
  have hb : binning [.fin (-(pow2 1023)), .fin (pow2 1023)] 2 = .error .undefinedConversion := by
    decide!
  refine ⟨by decide!, by decide!, by decide!, by decide!, by decide!, by decide!, by decide!,
    hb, ?_, by decide!⟩
  rintro ⟨h, hh⟩
  rw [hb] at hh
  exact Except.noConfusion hh

/-- C13 as amended, the divisor of the drawing loop: whenever the counting loop of
`printHist` runs without undefined behaviour on a vector of fewer than 2^53 samples,
`maxCount = max(counts)` is a natural number that is at least 1 and is one of the counts,
so the division `counts[i] / maxCount` is defined for every bucket. -/
theorem max_count_at_least_one (x : List Double) (nBins : Int) (h : Histogram)
    (hbin : binning x nBins = .ok h) (hlen : x.length < 2 ^ 53) :
    ∃ mc : Nat, max h.counts = .ok (.fin (mc : ℚ)) ∧ 1 ≤ mc ∧ Double.fin (mc : ℚ) ∈ h.counts ∧
      ∀ cnt ∈ h.counts, fdiv cnt (.fin (mc : ℚ)) = .ok (quotient cnt (.fin (mc : ℚ))) := by
  obtain ⟨cn, mc, lines, hcn, _, _, hmem, _, hmc1, _, hmax, _⟩ :=
    @printHist_run x nBins 0 h hbin hlen (by norm_num) (by norm_num)
  refine ⟨mc, hmax, hmc1, ?_, ?_⟩
  · rw [hcn]
    exact List.mem_map_of_mem _ hmem
  · intro cnt _
    apply fdiv_of_ne_zero
    intro h0
    have := Double.fin.inj h0
    have h1 : (1 : ℚ) ≤ (mc : ℚ) := by exact_mod_cast hmc1
    linarith

/-- Witness of C13 as amended: for the samples `{1, 2, 3, 4, 5}` with `nBins = 4` the counts
are `{1, 1, 1, 2}` and `maxCount` is 2. -/
theorem max_count_at_least_one_witness :
    (binning [.fin 1, .fin 2, .fin 3, .fin 4, .fin 5] 4 =
        .ok ⟨.fin 1, .fin 5, .fin 1, [.fin 1, .fin 1, .fin 1, .fin 2]⟩ ∧
      ([.fin 1, .fin 2, .fin 3, .fin 4, .fin 5] : List Double).length < 2 ^ 53) ∧
    (∃ mc : Nat, max [.fin 1, .fin 1, .fin 1, .fin 2] = .ok (.fin (mc : ℚ)) ∧ 1 ≤ mc ∧
      Double.fin (mc : ℚ) ∈ ([.fin 1, .fin 1, .fin 1, .fin 2] : List Double) ∧
      ∀ cnt ∈ ([.fin 1, .fin 1, .fin 1, .fin 2] : List Double),
        fdiv cnt (.fin (mc : ℚ)) = .ok (quotient cnt (.fin (mc : ℚ)))) ∧
    max [.fin 1, .fin 1, .fin 1, .fin 2] = .ok (.fin 2) :=
  ⟨⟨by decide!, by decide!⟩,
    max_count_at_least_one [.fin 1, .fin 2, .fin 3, .fin 4, .fin 5] 4
      ⟨.fin 1, .fin 5, .fin 1, [.fin 1, .fin 1, .fin 1, .fin 2]⟩ (by decide!) (by decide!),
    by decide!⟩

/-- C13 as stated fails where the range overflows: for the samples `-2^1023`, `0` and
`2^1023` with `nBins = 10` the counting loop ends in the undefined conversion of NaN to
`int`, so `maxCount` is never computed. -/
theorem max_count_not_computed_on_overflow :
    min [.fin (-(pow2 1023)), .fin 0, .fin (pow2 1023)] = .ok (.fin (-(pow2 1023))) ∧
    max [.fin (-(pow2 1023)), .fin 0, .fin (pow2 1023)] = .ok (.fin (pow2 1023)) ∧
    lt (.fin (-(pow2 1023))) (.fin (pow2 1023)) = true ∧
    binning [.fin (-(pow2 1023)), .fin 0, .fin (pow2 1023)] 10 = .error .undefinedConversion ∧
    ¬ ∃ (h : Histogram) (mc : Double),
      binning [.fin (-(pow2 1023)), .fin 0, .fin (pow2 1023)] 10 = .ok h ∧
      max h.counts = .ok mc ∧ le (.fin 1) mc = true := by
  have hb : binning [.fin (-(pow2 1023)), .fin 0, .fin (pow2 1023)] 10 =
      .error .undefinedConversion := by decide!
  refine ⟨by decide!, by decide!, by decide!, hb, ?_⟩
  rintro ⟨h, mc, hh, _⟩
  rw [hb] at hh
  exact Except.noConfusion hh

/-! ### Claims on the drawing loop -/

/-- C6 as amended, bar scaling bound: whenever the counting loop of `printHist` runs without
undefined behaviour on a vector of fewer than 2^53 samples and `0 <= plotWidth`, `printHist`
prints `nBins` lines, and the number of markers of line `i`, the truncation of
`(counts[i] / maxCount) * plotWidth`, lies in `[0, plotWidth]`. -/
theorem bar_scaling_bound (x : List Double) (nBins w : Int) (h : Histogram)
    (hbin : binning x nBins = .ok h) (hlen : x.length < 2 ^ 53)
    (hw0 : 0 ≤ w) (hw2 : w ≤ 2147483647) :
    ∃ (mc : Double) (lines : List Line), max h.counts = .ok mc ∧
      printHist x nBins w = .ok lines ∧ lines.length = nBins.toNat ∧
      ∀ i : Nat, i < nBins.toNat → ∃ (cnt : Double) (bar : Int), h.counts[i]? = some cnt ∧
        barLength cnt mc w = .ok bar ∧ 0 ≤ bar ∧ bar ≤ w ∧
        lines[i]? = some ⟨label h.minVal h.binSize i, bar.toNat⟩ := by
  obtain ⟨cn, mc, lines, hcn, _, _, _, hle, hmc1, _, hmax, hp, hlines, hall⟩ :=
    printHist_run hbin hlen (by omega) hw2
  refine ⟨_, lines, hmax, hp, hlines, ?_⟩
  intro i hi
  obtain ⟨c, bar, hc, hbar, hline⟩ := hall i hi
  obtain ⟨bar2, hbar2, hb, _⟩ :=
    barLength_bounds c mc w (hle c (List.mem_iff_getElem?.2 ⟨i, hc⟩)) hmc1 (by omega) hw2
  rw [hbar] at hbar2
  have hbb : bar = bar2 := Except.ok.inj hbar2
  rw [← hbb] at hb
  refine ⟨.fin (c : ℚ), bar, ?_, hbar, (hb hw0).1, (hb hw0).2, hline⟩
  rw [hcn, List.getElem?_map, hc]
  rfl

/-- Witness of C6 as amended: the samples `{1, 2, 3, 4, 5}` with `nBins = 4` and
`plotWidth = 16` print bars of 8, 8, 8 and 16 markers. -/
theorem bar_scaling_bound_witness :
    (binning [.fin 1, .fin 2, .fin 3, .fin 4, .fin 5] 4 =
        .ok ⟨.fin 1, .fin 5, .fin 1, [.fin 1, .fin 1, .fin 1, .fin 2]⟩ ∧
      ([.fin 1, .fin 2, .fin 3, .fin 4, .fin 5] : List Double).length < 2 ^ 53 ∧
      (0 : Int) ≤ 16 ∧ (16 : Int) ≤ 2147483647) ∧
    (∃ (mc : Double) (lines : List Line), max [.fin 1, .fin 1, .fin 1, .fin 2] = .ok mc ∧
      printHist [.fin 1, .fin 2, .fin 3, .fin 4, .fin 5] 4 16 = .ok lines ∧
      lines.length = (4 : Int).toNat ∧
      ∀ i : Nat, i < (4 : Int).toNat → ∃ (cnt : Double) (bar : Int),
        ([.fin 1, .fin 1, .fin 1, .fin 2] : List Double)[i]? = some cnt ∧
        barLength cnt mc 16 = .ok bar ∧ 0 ≤ bar ∧ bar ≤ 16 ∧
        lines[i]? = some ⟨label (.fin 1) (.fin 1) i, bar.toNat⟩) ∧
    printHist [.fin 1, .fin 2, .fin 3, .fin 4, .fin 5] 4 16 =
      .ok [⟨.fin 1, 8⟩, ⟨.fin 2, 8⟩, ⟨.fin 3, 8⟩, ⟨.fin 4, 16⟩] :=
  ⟨⟨by decide!, by decide!, by decide, by decide⟩,
    bar_scaling_bound [.fin 1, .fin 2, .fin 3, .fin 4, .fin 5] 4 16
      ⟨.fin 1, .fin 5, .fin 1, [.fin 1, .fin 1, .fin 1, .fin 2]⟩ (by decide!) (by decide!)
      (by decide) (by decide),
    by decide!⟩

/-- C6 as stated fails where the range overflows: for the samples `-2^1023` and `2^1023`
with `nBins = 2` and `plotWidth = 16` the run of `printHist` ends in the undefined
conversion of NaN to `int` in the counting loop, before any bar is drawn. -/
theorem bar_scaling_fails_on_overflow :
    lt (.fin (-(pow2 1023))) (.fin (pow2 1023)) = true ∧
    printHist [.fin (-(pow2 1023)), .fin (pow2 1023)] 2 16 = .error .undefinedConversion ∧
    ¬ ∃ lines : List Line,
      printHist [.fin (-(pow2 1023)), .fin (pow2 1023)] 2 16 = .ok lines ∧
      ∀ line ∈ lines, (line.stars : Int) ≤ 16 := by
  have hb : printHist [.fin (-(pow2 1023)), .fin (pow2 1023)] 2 16 =
      .error .undefinedConversion := by decide!
  refine ⟨by decide!, hb, ?_⟩
  rintro ⟨lines, hh, _⟩
  rw [hb] at hh
  exact Except.noConfusion hh

/-- C7 as amended, full-width bar: whenever the counting loop of `printHist` runs without
undefined behaviour on a vector of fewer than 2^53 samples and `0 <= plotWidth`, some
bucket has the count `maxCount`, every bucket whose count equals `maxCount` is printed with
exactly `plotWidth` markers, and no bucket is printed with more. -/
theorem full_width_bar (x : List Double) (nBins w : Int) (h : Histogram)
    (hbin : binning x nBins = .ok h) (hlen : x.length < 2 ^ 53)
    (hw0 : 0 ≤ w) (hw2 : w ≤ 2147483647) :
    ∃ (mc : Double) (lines : List Line), max h.counts = .ok mc ∧ mc ∈ h.counts ∧
      printHist x nBins w = .ok lines ∧ lines.length = nBins.toNat ∧
      ∀ i : Nat, i < nBins.toNat → ∃ (cnt : Double) (line : Line),
        h.counts[i]? = some cnt ∧ lines[i]? = some line ∧ (line.stars : Int) ≤ w ∧
        (cnt = mc → (line.stars : Int) = w) := by
  obtain ⟨cn, mc, lines, hcn, _, _, hmem, hle, hmc1, _, hmax, hp, hlines, hall⟩ :=
    printHist_run hbin hlen (by omega) hw2
  refine ⟨_, lines, hmax, ?_, hp, hlines, ?_⟩
  · rw [hcn]
    exact List.mem_map_of_mem _ hmem
  intro i hi
  obtain ⟨c, bar, hc, hbar, hline⟩ := hall i hi
  obtain ⟨bar2, hbar2, hb, _⟩ :=
    barLength_bounds c mc w (hle c (List.mem_iff_getElem?.2 ⟨i, hc⟩)) hmc1 (by omega) hw2
  rw [hbar] at hbar2
  have hbb : bar = bar2 := Except.ok.inj hbar2
  rw [← hbb] at hb
  refine ⟨.fin (c : ℚ), _, ?_, hline, ?_, ?_⟩
  · rw [hcn, List.getElem?_map, hc]
    rfl
  · have := hb hw0
    show ((bar.toNat : Nat) : Int) ≤ w
    omega
  · intro heq
    have hcm : c = mc := by exact_mod_cast Double.fin.inj heq
    rw [hcm, barLength_full mc w hmc1 (by omega) hw2] at hbar
    have : w = bar := Except.ok.inj hbar
    show ((bar.toNat : Nat) : Int) = w
    omega

/-- Witness of C7 as amended: the samples `{3, 3, 3, 3, 5, 5, 5, 5}` with `nBins = 2` and
`plotWidth = 16` give two buckets of count 4, both printed with 16 markers. -/
theorem full_width_bar_witness :
    (binning [.fin 3, .fin 3, .fin 3, .fin 3, .fin 5, .fin 5, .fin 5, .fin 5] 2 =
        .ok ⟨.fin 3, .fin 5, .fin 1, [.fin 4, .fin 4]⟩ ∧
      ([.fin 3, .fin 3, .fin 3, .fin 3, .fin 5, .fin 5, .fin 5, .fin 5] : List Double).length
        < 2 ^ 53 ∧ (0 : Int) ≤ 16 ∧ (16 : Int) ≤ 2147483647) ∧
    (∃ (mc : Double) (lines : List Line), max [.fin 4, .fin 4] = .ok mc ∧
      mc ∈ ([.fin 4, .fin 4] : List Double) ∧
      printHist [.fin 3, .fin 3, .fin 3, .fin 3, .fin 5, .fin 5, .fin 5, .fin 5] 2 16 =
        .ok lines ∧ lines.length = (2 : Int).toNat ∧
      ∀ i : Nat, i < (2 : Int).toNat → ∃ (cnt : Double) (line : Line),
        ([.fin 4, .fin 4] : List Double)[i]? = some cnt ∧ lines[i]? = some line ∧
        (line.stars : Int) ≤ 16 ∧ (cnt = mc → (line.stars : Int) = 16)) ∧
    printHist [.fin 3, .fin 3, .fin 3, .fin 3, .fin 5, .fin 5, .fin 5, .fin 5] 2 16 =
      .ok [⟨.fin 3, 16⟩, ⟨.fin 4, 16⟩] :=
  ⟨⟨by decide!, by decide!, by decide, by decide⟩,
    full_width_bar [.fin 3, .fin 3, .fin 3, .fin 3, .fin 5, .fin 5, .fin 5, .fin 5] 2 16
      ⟨.fin 3, .fin 5, .fin 1, [.fin 4, .fin 4]⟩ (by decide!) (by decide!)
      (by decide) (by decide),
    by decide!⟩

/-- C7 as stated fails where the range overflows: for the largest finite `double` and its
negative with `nBins = 2` and `plotWidth = 16`, `maxVal - minVal` is `+inf` and the run of
`printHist` ends in the undefined conversion of NaN to `int`: no bar of `plotWidth` markers
is printed. -/
theorem full_width_bar_fails_on_overflow :
    isDouble (.fin (9007199254740991 * pow2 971)) = true ∧
    lt (.fin (-(9007199254740991 * pow2 971))) (.fin (9007199254740991 * pow2 971)) = true ∧
    fsub (.fin (9007199254740991 * pow2 971)) (.fin (-(9007199254740991 * pow2 971))) =
      .inf false ∧
    printHist [.fin (-(9007199254740991 * pow2 971)), .fin (9007199254740991 * pow2 971)] 2 16 =
      .error .undefinedConversion ∧
    ¬ ∃ lines : List Line,
      printHist [.fin (-(9007199254740991 * pow2 971)),
        .fin (9007199254740991 * pow2 971)] 2 16 = .ok lines ∧
      ∃ line ∈ lines, line.stars = 16 := by
  have hb : printHist [.fin (-(9007199254740991 * pow2 971)),
      .fin (9007199254740991 * pow2 971)] 2 16 = .error .undefinedConversion := by decide!
  refine ⟨by decide!, by decide!, by decide!, hb, ?_⟩
  rintro ⟨lines, hh, _⟩
  rw [hb] at hh
  exact Except.noConfusion hh

/-- C12 as amended, shorter bars below the maximum: whenever the counting loop of
`printHist` runs without undefined behaviour on a vector of fewer than 2^53 samples and
`0 < plotWidth`, every bucket whose count is below `maxCount` is printed with strictly fewer
than `plotWidth` markers, and a bucket of count 0 with none. -/
theorem shorter_bars_below_max (x : List Double) (nBins w : Int) (h : Histogram)
    (hbin : binning x nBins = .ok h) (hlen : x.length < 2 ^ 53)
    (hw0 : 0 < w) (hw2 : w ≤ 2147483647) :
    ∃ (mc : Double) (lines : List Line), max h.counts = .ok mc ∧
      printHist x nBins w = .ok lines ∧ lines.length = nBins.toNat ∧
      ∀ i : Nat, i < nBins.toNat → ∃ (cnt : Double) (line : Line),
        h.counts[i]? = some cnt ∧ lines[i]? = some line ∧
        (lt cnt mc = true → (line.stars : Int) < w) ∧ (cnt = .fin 0 → line.stars = 0) := by
  obtain ⟨cn, mc, lines, hcn, _, _, _, hle, hmc1, hmc53, hmax, hp, hlines, hall⟩ :=
    printHist_run hbin hlen (by omega) hw2
  refine ⟨_, lines, hmax, hp, hlines, ?_⟩
  intro i hi
  obtain ⟨c, bar, hc, hbar, hline⟩ := hall i hi
  refine ⟨.fin (c : ℚ), _, ?_, hline, ?_, ?_⟩
  · rw [hcn, List.getElem?_map, hc]
    rfl
  · intro hlt
    have hcm : c < mc := by exact_mod_cast (lt_fin_fin _ _).1 hlt
    obtain ⟨bar2, hbar2, hb⟩ := barLength_lt c mc w hcm hmc53 hw0 hw2
    rw [hbar] at hbar2
    have hbb : bar = bar2 := Except.ok.inj hbar2
    show ((bar.toNat : Nat) : Int) < w
    omega
  · intro heq
    have hc0 : c = 0 := by exact_mod_cast Double.fin.inj heq
    rw [hc0, barLength_zero mc w hmc1 (by omega) hw2] at hbar
    have : (0 : Int) = bar := Except.ok.inj hbar
    show bar.toNat = 0
    omega

/-- Witness of C12 as amended: the samples `{1, 2, 2, 5}` with `nBins = 4` and
`plotWidth = 16` give the counts `{1, 2, 0, 1}` and bars of 8, 16, 0 and 8 markers. -/
theorem shorter_bars_below_max_witness :
    (binning [.fin 1, .fin 2, .fin 2, .fin 5] 4 =
        .ok ⟨.fin 1, .fin 5, .fin 1, [.fin 1, .fin 2, .fin 0, .fin 1]⟩ ∧
      ([.fin 1, .fin 2, .fin 2, .fin 5] : List Double).length < 2 ^ 53 ∧
      (0 : Int) < 16 ∧ (16 : Int) ≤ 2147483647) ∧
    (∃ (mc : Double) (lines : List Line), max [.fin 1, .fin 2, .fin 0, .fin 1] = .ok mc ∧
      printHist [.fin 1, .fin 2, .fin 2, .fin 5] 4 16 = .ok lines ∧
      lines.length = (4 : Int).toNat ∧
      ∀ i : Nat, i < (4 : Int).toNat → ∃ (cnt : Double) (line : Line),
        ([.fin 1, .fin 2, .fin 0, .fin 1] : List Double)[i]? = some cnt ∧
        lines[i]? = some line ∧
        (lt cnt mc = true → (line.stars : Int) < 16) ∧ (cnt = .fin 0 → line.stars = 0)) ∧
    printHist [.fin 1, .fin 2, .fin 2, .fin 5] 4 16 =
      .ok [⟨.fin 1, 8⟩, ⟨.fin 2, 16⟩, ⟨.fin 3, 0⟩, ⟨.fin 4, 8⟩] :=
  ⟨⟨by decide!, by decide!, by decide, by decide⟩,
    shorter_bars_below_max [.fin 1, .fin 2, .fin 2, .fin 5] 4 16
      ⟨.fin 1, .fin 5, .fin 1, [.fin 1, .fin 2, .fin 0, .fin 1]⟩ (by decide!) (by decide!)
      (by decide) (by decide),
    by decide!⟩

/-- C12 as stated fails where the range overflows: for the samples `-2^1023`, `0` and
`2^1023` with `nBins = 3` and `plotWidth = 10` the run of `printHist` ends in the undefined
conversion of NaN to `int` in the counting loop: no bar is printed for any bucket. -/
theorem shorter_bars_fail_on_overflow :
    min [.fin (-(pow2 1023)), .fin 0, .fin (pow2 1023)] = .ok (.fin (-(pow2 1023))) ∧
    max [.fin (-(pow2 1023)), .fin 0, .fin (pow2 1023)] = .ok (.fin (pow2 1023)) ∧
    rawIdx (.fin (-(pow2 1023))) (.inf false) (.fin 0) = .ok 0 ∧
    rawIdx (.fin (-(pow2 1023))) (.inf false) (.fin (pow2 1023)) =
      .error .undefinedConversion ∧
    printHist [.fin (-(pow2 1023)), .fin 0, .fin (pow2 1023)] 3 10 =
      .error .undefinedConversion ∧
    ¬ ∃ lines : List Line,
      printHist [.fin (-(pow2 1023)), .fin 0, .fin (pow2 1023)] 3 10 = .ok lines := by
  have hb : printHist [.fin (-(pow2 1023)), .fin 0, .fin (pow2 1023)] 3 10 =
      .error .undefinedConversion := by decide!
  refine ⟨by decide!, by decide!, by decide!, by decide!, hb, ?_⟩
  rintro ⟨lines, hh⟩
  rw [hb] at hh
  exact Except.noConfusion hh

/-- C17 as amended, bar length is monotone in the count: whenever the counting loop of
`printHist` runs without undefined behaviour on a vector of fewer than 2^53 samples and
`0 <= plotWidth`, for any two buckets `i`, `j` with `counts[i] <= counts[j]` the number of
markers printed for bucket `i` is at most the number printed for bucket `j`. -/
theorem bar_length_monotone (x : List Double) (nBins w : Int) (h : Histogram)
    (hbin : binning x nBins = .ok h) (hlen : x.length < 2 ^ 53)
    (hw0 : 0 ≤ w) (hw2 : w ≤ 2147483647) :
    ∃ lines : List Line, printHist x nBins w = .ok lines ∧ lines.length = nBins.toNat ∧
      ∀ i j : Nat, i < nBins.toNat → j < nBins.toNat →
        ∃ (ci cj : Double) (li lj : Line), h.counts[i]? = some ci ∧ h.counts[j]? = some cj ∧
          lines[i]? = some li ∧ lines[j]? = some lj ∧
          (le ci cj = true → li.stars ≤ lj.stars) := by
  obtain ⟨cn, mc, lines, hcn, _, _, _, hle, hmc1, hmc53, hmax, hp, hlines, hall⟩ :=
    printHist_run hbin hlen (by omega) hw2
  refine ⟨lines, hp, hlines, ?_⟩
  intro i j hi hj
  obtain ⟨c, bar, hc, hbar, hline⟩ := hall i hi
  obtain ⟨d, bar2, hd, hbar2, hline2⟩ := hall j hj
  refine ⟨.fin (c : ℚ), .fin (d : ℚ), _, _, ?_, ?_, hline, hline2, ?_⟩
  · rw [hcn, List.getElem?_map, hc]
    rfl
  · rw [hcn, List.getElem?_map, hd]
    rfl
  · intro hcd
    have hcd2 : c ≤ d := by exact_mod_cast (le_fin_fin _ _).1 hcd
    obtain ⟨bc, bd, h1, h2, h3⟩ :=
      barLength_mono c d mc w hcd2 (hle d (List.mem_iff_getElem?.2 ⟨j, hd⟩)) hmc1 hw0 hw2
    rw [hbar] at h1
    rw [hbar2] at h2
    have e1 : bar = bc := Except.ok.inj h1
    have e2 : bar2 = bd := Except.ok.inj h2
    show bar.toNat ≤ bar2.toNat
    omega

/-- Witness of C17 as amended: the samples `{1, 2, 2, 5}` with `nBins = 4` and
`plotWidth = 20` give the counts `{1, 2, 0, 1}` and bars of 10, 20, 0 and 10 markers. -/
theorem bar_length_monotone_witness :
    (binning [.fin 1, .fin 2, .fin 2, .fin 5] 4 =
        .ok ⟨.fin 1, .fin 5, .fin 1, [.fin 1, .fin 2, .fin 0, .fin 1]⟩ ∧
      ([.fin 1, .fin 2, .fin 2, .fin 5] : List Double).length < 2 ^ 53 ∧
      (0 : Int) ≤ 20 ∧ (20 : Int) ≤ 2147483647) ∧
    (∃ lines : List Line, printHist [.fin 1, .fin 2, .fin 2, .fin 5] 4 20 = .ok lines ∧
      lines.length = (4 : Int).toNat ∧
      ∀ i j : Nat, i < (4 : Int).toNat → j < (4 : Int).toNat →
        ∃ (ci cj : Double) (li lj : Line),
          ([.fin 1, .fin 2, .fin 0, .fin 1] : List Double)[i]? = some ci ∧
          ([.fin 1, .fin 2, .fin 0, .fin 1] : List Double)[j]? = some cj ∧
          lines[i]? = some li ∧ lines[j]? = some lj ∧
          (le ci cj = true → li.stars ≤ lj.stars)) ∧
    printHist [.fin 1, .fin 2, .fin 2, .fin 5] 4 20 =
      .ok [⟨.fin 1, 10⟩, ⟨.fin 2, 20⟩, ⟨.fin 3, 0⟩, ⟨.fin 4, 10⟩] :=
  ⟨⟨by decide!, by decide!, by decide, by decide⟩,
    bar_length_monotone [.fin 1, .fin 2, .fin 2, .fin 5] 4 20
      ⟨.fin 1, .fin 5, .fin 1, [.fin 1, .fin 2, .fin 0, .fin 1]⟩ (by decide!) (by decide!)
      (by decide) (by decide),
    by decide!⟩

/-- C17 as stated fails where the range overflows: for the samples `-2^1023`, `2^1023` and
`2^1023` with `nBins = 2` and `plotWidth = 20` the run of `printHist` ends in the undefined
conversion of NaN to `int` in the counting loop: there are no two bars to compare. -/
theorem bar_length_monotone_fails_on_overflow :
    lt (.fin (-(pow2 1023))) (.fin (pow2 1023)) = true ∧
    binIdx (.fin (-(pow2 1023))) (.inf false) 2 (.fin (pow2 1023)) =
      .error .undefinedConversion ∧
    printHist [.fin (-(pow2 1023)), .fin (pow2 1023), .fin (pow2 1023)] 2 20 =
      .error .undefinedConversion ∧
    ¬ ∃ lines : List Line,
      printHist [.fin (-(pow2 1023)), .fin (pow2 1023), .fin (pow2 1023)] 2 20 = .ok lines := by
  have hb : printHist [.fin (-(pow2 1023)), .fin (pow2 1023), .fin (pow2 1023)] 2 20 =
      .error .undefinedConversion := by decide!
  refine ⟨by decide!, by decide!, hb, ?_⟩
  rintro ⟨lines, hh⟩
  rw [hb] at hh
  exact Except.noConfusion hh

/-- C11 as amended, a non-positive bar width is not checked: `printHist` has no test on
`plotWidth`; whenever the counting loop runs without undefined behaviour on a vector of
fewer than 2^53 samples and `plotWidth <= 0`, `printHist` prints its `nBins` lines, each
with the label of its bucket and no marker, and reports no failure. -/
theorem nonpositive_width_prints_empty_bars (x : List Double) (nBins w : Int) (h : Histogram)
    (hbin : binning x nBins = .ok h) (hlen : x.length < 2 ^ 53)
    (hw0 : w ≤ 0) (hw1 : -2147483648 ≤ w) :
    ∃ lines : List Line, printHist x nBins w = .ok lines ∧ lines.length = nBins.toNat ∧
      ∀ i : Nat, i < nBins.toNat →
        lines[i]? = some ⟨label h.minVal h.binSize i, 0⟩ := by
  obtain ⟨cn, mc, lines, hcn, _, _, _, hle, hmc1, hmc53, hmax, hp, hlines, hall⟩ :=
    printHist_run hbin hlen hw1 (by omega)
  refine ⟨lines, hp, hlines, ?_⟩
  intro i hi
  obtain ⟨c, bar, hc, hbar, hline⟩ := hall i hi
  obtain ⟨bar2, hbar2, _, hb⟩ :=
    barLength_bounds c mc w (hle c (List.mem_iff_getElem?.2 ⟨i, hc⟩)) hmc1 hw1 (by omega)
  rw [hbar] at hbar2
  have hbb : bar = bar2 := Except.ok.inj hbar2
  have := hb hw0
  have h0 : bar.toNat = 0 := by omega
  rw [hline, h0]

/-- Witness of C11 as amended: the samples `{1, 2, 3, 4, 5}` with `nBins = 4` and
`plotWidth = -3` print the four labels 1, 2, 3, 4 with no marker. -/
theorem nonpositive_width_prints_empty_bars_witness :
    (binning [.fin 1, .fin 2, .fin 3, .fin 4, .fin 5] 4 =
        .ok ⟨.fin 1, .fin 5, .fin 1, [.fin 1, .fin 1, .fin 1, .fin 2]⟩ ∧
      ([.fin 1, .fin 2, .fin 3, .fin 4, .fin 5] : List Double).length < 2 ^ 53 ∧
      (-3 : Int) ≤ 0 ∧ (-2147483648 : Int) ≤ -3) ∧
    (∃ lines : List Line,
      printHist [.fin 1, .fin 2, .fin 3, .fin 4, .fin 5] 4 (-3) = .ok lines ∧
      lines.length = (4 : Int).toNat ∧
      ∀ i : Nat, i < (4 : Int).toNat → lines[i]? = some ⟨label (.fin 1) (.fin 1) i, 0⟩) ∧
    printHist [.fin 1, .fin 2, .fin 3, .fin 4, .fin 5] 4 (-3) =
      .ok [⟨.fin 1, 0⟩, ⟨.fin 2, 0⟩, ⟨.fin 3, 0⟩, ⟨.fin 4, 0⟩] :=
  ⟨⟨by decide!, by decide!, by decide, by decide⟩,
    nonpositive_width_prints_empty_bars [.fin 1, .fin 2, .fin 3, .fin 4, .fin 5] 4 (-3)
      ⟨.fin 1, .fin 5, .fin 1, [.fin 1, .fin 1, .fin 1, .fin 2]⟩ (by decide!) (by decide!)
      (by decide) (by decide),
    by decide!⟩

/-- C11 as stated fails: with `plotWidth = 0` the samples `{1, 2, 3, 4, 5}` and `nBins = 4`
make `printHist` print four lines of a label and no marker; no failure is reported. -/
theorem zero_width_not_rejected :
    printHist [.fin 1, .fin 2, .fin 3, .fin 4, .fin 5] 4 0 =
      .ok [⟨.fin 1, 0⟩, ⟨.fin 2, 0⟩, ⟨.fin 3, 0⟩, ⟨.fin 4, 0⟩] ∧
    ¬ ∃ f : Fault, printHist [.fin 1, .fin 2, .fin 3, .fin 4, .fin 5] 4 0 = .error f := by
  have hb : printHist [.fin 1, .fin 2, .fin 3, .fin 4, .fin 5] 4 0 =
      .ok [⟨.fin 1, 0⟩, ⟨.fin 2, 0⟩, ⟨.fin 3, 0⟩, ⟨.fin 4, 0⟩] := by decide!
  refine ⟨hb, ?_⟩
  rintro ⟨f, hf⟩
  rw [hb] at hf
  exact Except.noConfusion hf

/-! ### Claims on the bucket of the maximum and on the clamp -/

/-- C14 as amended, the clamp: whenever the counting loop of `printHist` runs without
undefined behaviour on a vector of fewer than 2^53 samples, the raw index of every sample
is at least 0 and at most the raw index of `maxVal`; so the clamp replaces an index only
when the raw index of `maxVal` is `>= nBins` too, the index it stores is then `nBins - 1`,
and a raw index below `nBins` is left unchanged. -/
theorem clamp_fires_only_with_max (x : List Double) (nBins : Int) (h : Histogram)
    (hbin : binning x nBins = .ok h) (hlen : x.length < 2 ^ 53) :
    ∃ rawmax : Int, rawIdx h.minVal h.binSize h.maxVal = .ok rawmax ∧
      ∀ v ∈ x, ∃ raw : Int, rawIdx h.minVal h.binSize v = .ok raw ∧ 0 ≤ raw ∧ raw ≤ rawmax ∧
        binIdx h.minVal h.binSize nBins v = .ok (clamp nBins raw) ∧
        (nBins ≤ raw → nBins ≤ rawmax ∧ clamp nBins raw = nBins - 1) ∧
        (raw < nBins → clamp nBins raw = raw) := by
  obtain ⟨lo, hi, b, cn, hlo, hhi, _, himem, hn, hb, hb0, hbs, hbounds, hidx, _⟩ :=
    binning_inv hbin hlen
  obtain ⟨rmax, hrmax, _, _, _, _⟩ := hidx _ himem
  refine ⟨rmax, by rw [hhi]; exact hrmax, ?_⟩
  intro v hv
  obtain ⟨r, hr, hr0, hk, _, _⟩ := hidx v hv
  obtain ⟨vq, e, b1, b2⟩ := hbounds v hv
  have hle : r ≤ rmax := by
    have hr2 := hr
    rw [hlo, hb, e] at hr2
    rw [hlo, hb] at hrmax
    exact (rawIdx_mono hb0 b1 b2 hr2 hrmax).2
  refine ⟨r, hr, hr0, hle, hk, ?_, ?_⟩
  · intro hge
    refine ⟨by omega, ?_⟩
    unfold clamp
    split <;> omega
  · intro hlt
    unfold clamp
    split <;> omega

/-- Witness of C14 as amended: for the samples `{3, 3, 3, 3, 5, 5, 5, 5}` with `nBins = 2`
the raw index of `maxVal = 5` is 2, that of 3 is 0. -/
theorem clamp_fires_only_with_max_witness :
    (binning [.fin 3, .fin 3, .fin 3, .fin 3, .fin 5, .fin 5, .fin 5, .fin 5] 2 =
        .ok ⟨.fin 3, .fin 5, .fin 1, [.fin 4, .fin 4]⟩ ∧
      ([.fin 3, .fin 3, .fin 3, .fin 3, .fin 5, .fin 5, .fin 5, .fin 5] : List Double).length
        < 2 ^ 53) ∧
    (∃ rawmax : Int, rawIdx (.fin 3) (.fin 1) (.fin 5) = .ok rawmax ∧
      ∀ v ∈ ([.fin 3, .fin 3, .fin 3, .fin 3, .fin 5, .fin 5, .fin 5, .fin 5] : List Double),
        ∃ raw : Int, rawIdx (.fin 3) (.fin 1) v = .ok raw ∧ 0 ≤ raw ∧ raw ≤ rawmax ∧
          binIdx (.fin 3) (.fin 1) 2 v = .ok (clamp 2 raw) ∧
          (2 ≤ raw → 2 ≤ rawmax ∧ clamp 2 raw = 2 - 1) ∧
          (raw < 2 → clamp 2 raw = raw)) ∧
    rawIdx (.fin 3) (.fin 1) (.fin 5) = .ok 2 ∧ rawIdx (.fin 3) (.fin 1) (.fin 3) = .ok 0 :=
  ⟨⟨by decide!, by decide!⟩,
    clamp_fires_only_with_max [.fin 3, .fin 3, .fin 3, .fin 3, .fin 5, .fin 5, .fin 5, .fin 5] 2
      ⟨.fin 3, .fin 5, .fin 1, [.fin 4, .fin 4]⟩ (by decide!) (by decide!),
    by decide!, by decide!⟩

/-- C14 as stated fails in `double` arithmetic: for the samples 0, `1 - 2^-53` and 1 with
`nBins = 3` the sample `1 - 2^-53`, which is not `maxVal`, has the raw index 3; for the
samples 0 and 1 with `nBins = 93` the raw index of `maxVal` is 92, below `nBins`; and for
the samples 0 and `7 * 2^-1074` with `nBins = 5` the raw index of `maxVal` is 7. -/
theorem clamp_fires_for_other_sample :
    isDouble (.fin (9007199254740991 / 9007199254740992)) = true ∧
    binning [.fin 0, .fin (9007199254740991 / 9007199254740992), .fin 1] 3 =
      .ok ⟨.fin 0, .fin 1, .fin (6004799503160661 / 18014398509481984),
        [.fin 1, .fin 0, .fin 2]⟩ ∧
    lt (.fin (9007199254740991 / 9007199254740992)) (.fin 1) = true ∧
    rawIdx (.fin 0) (.fin (6004799503160661 / 18014398509481984))
      (.fin (9007199254740991 / 9007199254740992)) = .ok 3 ∧
    fdiv (fsub (.fin 1) (.fin 0)) (ofInt 93) =
      .ok (.fin (3099251356470019 / 288230376151711744)) ∧
    rawIdx (.fin 0) (.fin (3099251356470019 / 288230376151711744)) (.fin 1) = .ok 92 ∧
    (∃ h : Histogram, binning [.fin 0, .fin (7 * pow2 (-1074))] 5 = .ok h ∧
      rawIdx h.minVal h.binSize h.maxVal = .ok 7) := by
  refine ⟨by decide!, by decide!, by decide!, by decide!, by decide!, by decide!,
    ⟨⟨.fin 0, .fin (7 * pow2 (-1074)), .fin (pow2 (-1074)),
      [.fin 1, .fin 0, .fin 0, .fin 0, .fin 1]⟩, by decide!, by decide!⟩⟩

/-! ### Claims on the buckets -/

/-- C4 as amended, buckets: whenever the counting loop of `printHist` runs without
undefined behaviour on a vector of fewer than 2^53 samples, the count of bucket `k` is the
number of samples whose computed quotient `(v - minVal) / binSize`, a `double` obtained from
three rounded operations, lies in `[k, k + 1)` when `k < nBins - 1`, and is at least
`nBins - 1` when `k = nBins - 1`; and the bucket index is non-decreasing in the sample, so
every bucket holds a contiguous range of the sorted samples. -/
theorem buckets_are_intervals (x : List Double) (nBins : Int) (h : Histogram)
    (hbin : binning x nBins = .ok h) (hlen : x.length < 2 ^ 53) :
    (∀ j : Nat, (j : Int) < nBins → h.counts[j]? = some (.fin ((x.countP (fun v =>
        match quotient (fsub v h.minVal) h.binSize with
        | .fin q => decide ((j : ℚ) ≤ q ∧ (q < (j : ℚ) + 1 ∨ (j : Int) = nBins - 1))
        | _ => false) : Nat) : ℚ))) ∧
    ∀ v ∈ x, ∀ w ∈ x, le v w = true →
      ∃ kv kw : Int, binIdx h.minVal h.binSize nBins v = .ok kv ∧
        binIdx h.minVal h.binSize nBins w = .ok kw ∧ kv ≤ kw := by
  obtain ⟨lo, hi, b, cn, hlo, hhi, _, himem, hn, hb, hb0, hbs, hbounds, hidx, hcn, hcl, _,
    hcount⟩ := binning_inv hbin hlen
  constructor
  · intro j hj
    have hjn : j < nBins.toNat := by omega
    rw [hcn, List.getElem?_map, hcount j hjn]
    simp only [Option.map]
    congr 3
    apply List.countP_congr
    intro v hv
    obtain ⟨r, hr, _, hk, _, _⟩ := hidx v hv
    obtain ⟨vq, e, b1, _⟩ := hbounds v hv
    obtain ⟨v1, l1, p, q, e1, e2, hp, -, hq, hrq, -, -⟩ := rawIdx_eq_ok hr
    have hquot : quotient (fsub v h.minVal) h.binSize = .fin q := by
      rw [e1, e2]
      simp only [fsub]
      rw [hp]
      exact hq
    have hl1 : lo = l1 := Double.fin.inj (hlo.symm.trans e2)
    have hv1 : vq = v1 := Double.fin.inj (e.symm.trans e1)
    have hp0 : 0 ≤ p := round_fin_nonneg (by rw [← hl1, ← hv1]; linarith) hp
    have hq0 : 0 ≤ q := by
      rw [hb] at hq
      simp only [quotient] at hq
      exact round_fin_nonneg (div_nonneg hp0 hb0.le) hq
    have hiff := RejectionSampling.clamp_castInt_eq_iff q nBins j hq0 hj
    rw [hk, hquot, hrq]
    simp only [decide_eq_true_eq]
    constructor
    · intro heq
      have h1 := hiff.1 (Except.ok.inj heq)
      by_cases hlast : (j : Int) < nBins - 1
      · rw [if_pos hlast] at h1
        exact ⟨h1.1, Or.inl h1.2⟩
      · rw [if_neg hlast] at h1
        exact ⟨h1, Or.inr (by omega)⟩
    · rintro ⟨h1, h2⟩
      congr 1
      apply hiff.2
      by_cases hlast : (j : Int) < nBins - 1
      · rw [if_pos hlast]
        rcases h2 with h2 | h2
        · exact ⟨h1, h2⟩
        · omega
      · rw [if_neg hlast]
        exact h1
  · intro v hv w hw hvw
    obtain ⟨rv, hrv, _, hkv, _, _⟩ := hidx v hv
    obtain ⟨rw, hrw, _, hkw, _, _⟩ := hidx w hw
    obtain ⟨vq, ev, b1, _⟩ := hbounds v hv
    obtain ⟨wq, ew, _, _⟩ := hbounds w hw
    refine ⟨_, _, hkv, hkw, clamp_mono ?_⟩
    rw [ev, ew] at hvw
    rw [hlo, hb, ev] at hrv
    rw [hlo, hb, ew] at hrw
    exact (rawIdx_mono hb0 b1 ((le_fin_fin _ _).1 hvw) hrv hrw).2

/-- Witness of C4 as amended: the samples `{1, 2, 3, 4, 5}` with `nBins = 4` give the
counts `{1, 1, 1, 2}`; the value 3 has the quotient `(3 - 1) / 1 = 2`. -/
theorem buckets_are_intervals_witness :
    (binning [.fin 1, .fin 2, .fin 3, .fin 4, .fin 5] 4 =
        .ok ⟨.fin 1, .fin 5, .fin 1, [.fin 1, .fin 1, .fin 1, .fin 2]⟩ ∧
      ([.fin 1, .fin 2, .fin 3, .fin 4, .fin 5] : List Double).length < 2 ^ 53) ∧
    ((∀ j : Nat, (j : Int) < 4 → ([.fin 1, .fin 1, .fin 1, .fin 2] : List Double)[j]? =
        some (.fin ((([.fin 1, .fin 2, .fin 3, .fin 4, .fin 5] : List Double).countP (fun v =>
          match quotient (fsub v (.fin 1)) (.fin 1) with
          | .fin q => decide ((j : ℚ) ≤ q ∧ (q < (j : ℚ) + 1 ∨ (j : Int) = 4 - 1))
          | _ => false) : Nat) : ℚ))) ∧
      ∀ v ∈ ([.fin 1, .fin 2, .fin 3, .fin 4, .fin 5] : List Double),
        ∀ w ∈ ([.fin 1, .fin 2, .fin 3, .fin 4, .fin 5] : List Double), le v w = true →
        ∃ kv kw : Int, binIdx (.fin 1) (.fin 1) 4 v = .ok kv ∧
          binIdx (.fin 1) (.fin 1) 4 w = .ok kw ∧ kv ≤ kw) ∧
    quotient (fsub (.fin 3) (.fin 1)) (.fin 1) = .fin 2 ∧
    binIdx (.fin 1) (.fin 1) 4 (.fin 3) = .ok 2 :=
  ⟨⟨by decide!, by decide!⟩,
    buckets_are_intervals [.fin 1, .fin 2, .fin 3, .fin 4, .fin 5] 4
      ⟨.fin 1, .fin 5, .fin 1, [.fin 1, .fin 1, .fin 1, .fin 2]⟩ (by decide!) (by decide!),
    by decide!, by decide!⟩

/-- C4 as stated fails in `double` arithmetic: for the samples 0, 6.3 and 8.4 with
`nBins = 4` the bin size is 2.1 and the sample 6.3 lies in the interval of bucket 2,
`2 * binSize <= 6.3 < 3 * binSize` (in exact arithmetic, and also with the edges computed
in `double` as the labels are), while the code computes the quotient `6.3 / 2.1 = 3.0` and
counts it in bucket 3: the counts are `{1, 0, 0, 2}`, not `{1, 0, 1, 1}`. -/
theorem buckets_differ_from_intervals :
    isDouble (.fin (7093169413108531 / 1125899906842624)) = true ∧
    isDouble (.fin (4728779608739021 / 562949953421312)) = true ∧
    binning [.fin 0, .fin (7093169413108531 / 1125899906842624),
        .fin (4728779608739021 / 562949953421312)] 4 =
      .ok ⟨.fin 0, .fin (4728779608739021 / 562949953421312),
        .fin (4728779608739021 / 2251799813685248), [.fin 1, .fin 0, .fin 0, .fin 2]⟩ ∧
    (4728779608739021 / 2251799813685248 : ℚ) = (4728779608739021 / 562949953421312 - 0) / 4 ∧
    (0 + 2 * (4728779608739021 / 2251799813685248) ≤ (7093169413108531 / 1125899906842624 : ℚ) ∧
      (7093169413108531 / 1125899906842624 : ℚ) <
        0 + 3 * (4728779608739021 / 2251799813685248)) ∧
    (le (label (.fin 0) (.fin (4728779608739021 / 2251799813685248)) 2)
        (.fin (7093169413108531 / 1125899906842624)) = true ∧
      lt (.fin (7093169413108531 / 1125899906842624))
        (label (.fin 0) (.fin (4728779608739021 / 2251799813685248)) 3) = true) ∧
    quotient (fsub (.fin (7093169413108531 / 1125899906842624)) (.fin 0))
      (.fin (4728779608739021 / 2251799813685248)) = .fin 3 ∧
    binIdx (.fin 0) (.fin (4728779608739021 / 2251799813685248)) 4
      (.fin (7093169413108531 / 1125899906842624)) = .ok 3 := by
  refine ⟨by decide!, by decide!, by decide!, by norm_num, ⟨by norm_num, by norm_num⟩,
    ⟨by decide!, by decide!⟩, by decide!, by decide!⟩

/-! ### Claims on the labels, on rearranged input and on the sampler -/

/-- C5 as amended, labeling: whenever `printHist` runs without undefined behaviour on a
vector of fewer than 2^53 `double`s, it prints `nBins` lines, the value printed for bucket
`i` is the `double` `minVal + i * binSize` (a rounded product and a rounded sum), the first
label is `minVal`, and the labels are non-decreasing in `i`; they need not be strictly
increasing. -/
theorem monotonic_labeling (x : List Double) (nBins w : Int) (lines : List Line)
    (hp : printHist x nBins w = .ok lines) (hlen : x.length < 2 ^ 53)
    (hx : ∀ v ∈ x, isDouble v = true) :
    ∃ h : Histogram, binning x nBins = .ok h ∧ lines.length = nBins.toNat ∧
      (∀ i : Nat, i < nBins.toNat → ∃ line : Line, lines[i]? = some line ∧
        line.label = label h.minVal h.binSize i) ∧
      label h.minVal h.binSize 0 = h.minVal ∧
      ∀ i j : Nat, i ≤ j →
        le (label h.minVal h.binSize i) (label h.minVal h.binSize j) = true := by
  obtain ⟨h, mc, hbin, _, hdraw⟩ := printHist_eq_ok hp
  obtain ⟨hlines, hall⟩ := drawBins_eq_ok h mc w nBins.toNat 0 lines hdraw
  obtain ⟨lo, hi, b, cn, hlo, _, hlomem, _, _, hb, hb0, _⟩ := binning_inv hbin hlen
  refine ⟨h, hbin, hlines, ?_, ?_, ?_⟩
  · intro i hi
    obtain ⟨line, hline, hd⟩ := hall i hi
    obtain ⟨cnt, bar, _, _, heq⟩ := drawBin_eq_ok hd
    refine ⟨line, hline, ?_⟩
    rw [heq, Nat.zero_add]
  · rw [hlo, hb]
    exact label_zero b (hx _ hlomem)
  · intro i j hij
    rw [hlo, hb]
    exact label_mono lo hb0 hij

/-- Witness of C5 as amended: the samples `{3, 3, 3, 3, 5, 5, 5, 5}` with `nBins = 2` give
the labels 3 and 4. -/
theorem monotonic_labeling_witness :
    (printHist [.fin 3, .fin 3, .fin 3, .fin 3, .fin 5, .fin 5, .fin 5, .fin 5] 2 16 =
        .ok [⟨.fin 3, 16⟩, ⟨.fin 4, 16⟩] ∧
      ([.fin 3, .fin 3, .fin 3, .fin 3, .fin 5, .fin 5, .fin 5, .fin 5] : List Double).length
        < 2 ^ 53 ∧
      ∀ v ∈ ([.fin 3, .fin 3, .fin 3, .fin 3, .fin 5, .fin 5, .fin 5, .fin 5] : List Double),
        isDouble v = true) ∧
    (∃ h : Histogram,
      binning [.fin 3, .fin 3, .fin 3, .fin 3, .fin 5, .fin 5, .fin 5, .fin 5] 2 = .ok h ∧
      ([⟨.fin 3, 16⟩, ⟨.fin 4, 16⟩] : List Line).length = (2 : Int).toNat ∧
      (∀ i : Nat, i < (2 : Int).toNat → ∃ line : Line,
        ([⟨.fin 3, 16⟩, ⟨.fin 4, 16⟩] : List Line)[i]? = some line ∧
        line.label = label h.minVal h.binSize i) ∧
      label h.minVal h.binSize 0 = h.minVal ∧
      ∀ i j : Nat, i ≤ j →
        le (label h.minVal h.binSize i) (label h.minVal h.binSize j) = true) ∧
    label (.fin 3) (.fin 1) 0 = .fin 3 ∧ label (.fin 3) (.fin 1) 1 = .fin 4 :=
  ⟨⟨by decide!, by decide!, by decide!⟩,
    monotonic_labeling [.fin 3, .fin 3, .fin 3, .fin 3, .fin 5, .fin 5, .fin 5, .fin 5] 2 16
      [⟨.fin 3, 16⟩, ⟨.fin 4, 16⟩] (by decide!) (by decide!) (by decide!),
    by decide!, by decide!⟩

/-- C5 as stated fails in `double` arithmetic: for the samples 1 and `1 + 2^-52` with
`nBins = 4` the bin size is `2^-54` and the labels of the buckets 0, 1 and 2 are all 1, so
the labels are not strictly increasing, and the label of bucket 1 is not the exact value
`1 + 2^-54` of `minVal + 1 * binSize`. (For equal samples such as `{7, 7, 7}` the run ends
in the division by `binSize = 0` of the counting loop.) -/
theorem monotonic_labeling_fails_by_rounding :
    isDouble (.fin (4503599627370497 / 4503599627370496)) = true ∧
    printHist [.fin 1, .fin (4503599627370497 / 4503599627370496)] 4 16 =
      .ok [⟨.fin 1, 16⟩, ⟨.fin 1, 0⟩, ⟨.fin 1, 0⟩,
        ⟨.fin (4503599627370497 / 4503599627370496), 16⟩] ∧
    binning [.fin 1, .fin (4503599627370497 / 4503599627370496)] 4 =
      .ok ⟨.fin 1, .fin (4503599627370497 / 4503599627370496), .fin (1 / 18014398509481984),
        [.fin 1, .fin 0, .fin 0, .fin 1]⟩ ∧
    label (.fin 1) (.fin (1 / 18014398509481984)) 0 = .fin 1 ∧
    label (.fin 1) (.fin (1 / 18014398509481984)) 1 = .fin 1 ∧
    lt (label (.fin 1) (.fin (1 / 18014398509481984)) 0)
      (label (.fin 1) (.fin (1 / 18014398509481984)) 1) = false ∧
    label (.fin 1) (.fin (1 / 18014398509481984)) 1 ≠
      .fin (1 + 1 * (1 / 18014398509481984)) ∧
    printHist [.fin 7, .fin 7, .fin 7] 2 16 = .error .divisionByZero := by
  refine ⟨by decide!, by decide!, by decide!, by decide!, by decide!, by decide!, by decide!,
    by decide!⟩

/-- C18 as amended, rearranged input: whenever `printHist` runs without undefined
behaviour on a vector `x` of fewer than 2^53 samples, it computes for every rearrangement
`y` of `x` the same `minVal`, `maxVal`, `binSize` and counts, and prints the same lines:
the same labels and the same numbers of markers. -/
theorem histogram_of_permutation (x y : List Double) (nBins w : Int) (lines : List Line)
    (hp : printHist x nBins w = .ok lines) (hlen : x.length < 2 ^ 53) (hperm : y.Perm x) :
    ∃ h : Histogram, binning x nBins = .ok h ∧ binning y nBins = .ok h ∧
      printHist y nBins w = .ok lines := by
  obtain ⟨h, mc, hbin, hmax, hdraw⟩ := printHist_eq_ok hp
  have hbiny := binning_perm hbin hlen hperm
  refine ⟨h, hbin, hbiny, ?_⟩
  rw [printHist_of_parts hbiny hmax]
  exact hdraw

/-- Witness of C18 as amended: the samples `{1, 2, 3, 4, 5}` and their rearrangement
`{2, 1, 3, 5, 4}` with `nBins = 4` and `plotWidth = 16` print the same four lines. -/
theorem histogram_of_permutation_witness :
    (printHist [.fin 1, .fin 2, .fin 3, .fin 4, .fin 5] 4 16 =
        .ok [⟨.fin 1, 8⟩, ⟨.fin 2, 8⟩, ⟨.fin 3, 8⟩, ⟨.fin 4, 16⟩] ∧
      ([.fin 1, .fin 2, .fin 3, .fin 4, .fin 5] : List Double).length < 2 ^ 53 ∧
      ([.fin 2, .fin 1, .fin 3, .fin 5, .fin 4] : List Double).Perm
        [.fin 1, .fin 2, .fin 3, .fin 4, .fin 5]) ∧
    (∃ h : Histogram, binning [.fin 1, .fin 2, .fin 3, .fin 4, .fin 5] 4 = .ok h ∧
      binning [.fin 2, .fin 1, .fin 3, .fin 5, .fin 4] 4 = .ok h ∧
      printHist [.fin 2, .fin 1, .fin 3, .fin 5, .fin 4] 4 16 =
        .ok [⟨.fin 1, 8⟩, ⟨.fin 2, 8⟩, ⟨.fin 3, 8⟩, ⟨.fin 4, 16⟩]) ∧
    binning [.fin 2, .fin 1, .fin 3, .fin 5, .fin 4] 4 =
      .ok ⟨.fin 1, .fin 5, .fin 1, [.fin 1, .fin 1, .fin 1, .fin 2]⟩ :=
  ⟨⟨by decide!, by decide!,
      by decide!⟩,
    histogram_of_permutation [.fin 1, .fin 2, .fin 3, .fin 4, .fin 5]
      [.fin 2, .fin 1, .fin 3, .fin 5, .fin 4] 4 16
      [⟨.fin 1, 8⟩, ⟨.fin 2, 8⟩, ⟨.fin 3, 8⟩, ⟨.fin 4, 16⟩] (by decide!) (by decide!)
      (by decide!),
    by decide!⟩

/-- C18 as stated fails on a vector that holds NaN: `{1, NaN, 2}` has `min = 1 < max = 2`,
while for its rearrangement `{NaN, 1, 2}` both `min` and `max` return NaN, so `minVal` and
`maxVal` differ between the two. -/
theorem histogram_of_permutation_fails_with_nan :
    ([.nan, .fin 1, .fin 2] : List Double).Perm [.fin 1, .nan, .fin 2] ∧
    min [.fin 1, .nan, .fin 2] = .ok (.fin 1) ∧ max [.fin 1, .nan, .fin 2] = .ok (.fin 2) ∧
    lt (.fin 1) (.fin 2) = true ∧
    min [.nan, .fin 1, .fin 2] = .ok .nan ∧ max [.nan, .fin 1, .fin 2] = .ok .nan ∧
    min [.nan, .fin 1, .fin 2] ≠ min [.fin 1, .nan, .fin 2] := by
  refine ⟨by decide!, by decide!, by decide!, by decide!, by decide!, by decide!,
    by decide!⟩

/-- C16 as amended, the range of `runif`: for `0 < RAND_MAX <= 2^31 - 1`, every generator
output `0 <= r <= RAND_MAX` and all finite `double`s `a <= b` whose difference `b - a` does
not overflow, `runif(a, b)` returns a value `u` with `a <= u <= top`, where
`top = (b - a) + a` evaluated in `double` is the value returned for `r = RAND_MAX`, and
`runif` returns `a` for `r = 0`. The value `top` need not be `b`. -/
theorem runif_in_bounds (RAND_MAX r : Nat) (a b d : ℚ) (hR0 : 0 < RAND_MAX)
    (hR : RAND_MAX ≤ 2147483647) (hr : r ≤ RAND_MAX) (ha : isDouble (.fin a) = true)
    (hab : a ≤ b) (hd : fsub (.fin b) (.fin a) = .fin d) :
    ∃ u top : Double, runif RAND_MAX r (.fin a) (.fin b) = .ok u ∧
      runif RAND_MAX RAND_MAX (.fin a) (.fin b) = .ok top ∧
      top = fadd (.fin d) (.fin a) ∧ le (.fin a) u = true ∧ le u top = true ∧
      (r = 0 → u = .fin a) := by
  have hRr : |((r : Nat) : Int)| < 2 ^ 53 := int31_lt_pow53 (by omega) (by omega)
  have hRR : |((RAND_MAX : Nat) : Int)| < 2 ^ 53 := int31_lt_pow53 (by omega) (by omega)
  obtain ⟨ρ, hρ, hρ0, hρ1, hdiv⟩ := ratio_round r RAND_MAX hr hR0
  obtain ⟨τ, hτ, _, _, hdivR⟩ := ratio_round RAND_MAX RAND_MAX (le_refl _) hR0
  have hRq : ((RAND_MAX : Nat) : ℚ) ≠ 0 := by
    have : (0 : ℚ) < (RAND_MAX : ℚ) := by exact_mod_cast hR0
    exact this.ne.symm
  rw [div_self hRq, round_one] at hτ
  have hτ1 : τ = 1 := (Double.fin.inj hτ).symm
  subst hτ1
  have hdr : round (b - a) = .fin d := by
    simpa [fsub] using hd
  have hd0 : 0 ≤ d := round_fin_nonneg (by linarith) hdr
  have hdd : round d = .fin d := round_idem hdr
  -- the product u * (b - a) is a finite double between 0 and b - a
  have hprod : ∃ p : ℚ, round (ρ * d) = .fin p ∧ 0 ≤ p ∧ p ≤ d := by
    have h1 := round_mono (mul_nonneg hρ0 hd0)
    have h2 : le (round (ρ * d)) (round d) = true := round_mono (mul_le_of_le_one_left hd0 hρ1)
    rw [round_zero] at h1
    rw [hdd] at h2
    cases hrd : round (ρ * d) with
    | nan => exact absurd hrd (round_ne_nan _)
    | inf s =>
      rw [hrd] at h1 h2
      cases s <;> simp [le] at h1 h2
    | fin p =>
      rw [hrd] at h1 h2
      exact ⟨p, rfl, (le_fin_fin _ _).1 h1, (le_fin_fin _ _).1 h2⟩
  obtain ⟨p, hp, hp0, hpd⟩ := hprod
  have hrun : runif RAND_MAX r (.fin a) (.fin b) = .ok (round (p + a)) := by
    simp only [runif, bind, Except.bind, pure, Except.pure]
    rw [ofInt_eq _ hRr, ofInt_eq _ hRR]
    simp only [Int.cast_natCast]
    rw [hdiv, hd]
    simp only [fmul]
    rw [hp]
    simp only [fadd]
  have hrunR : runif RAND_MAX RAND_MAX (.fin a) (.fin b) = .ok (round (d + a)) := by
    simp only [runif, bind, Except.bind, pure, Except.pure]
    rw [ofInt_eq _ hRR]
    simp only [Int.cast_natCast]
    rw [hdivR, hd]
    simp only [fmul, one_mul]
    rw [hdd]
    simp only [fadd]
  refine ⟨_, _, hrun, hrunR, by simp only [fadd], ?_, round_mono (by linarith), ?_⟩
  · have := round_mono (by linarith : a ≤ p + a)
    rw [round_of_isDouble ha] at this
    exact this
  · intro hr0
    subst hr0
    rw [Nat.cast_zero, zero_div, round_zero] at hρ
    have hρz : ρ = 0 := (Double.fin.inj hρ).symm
    rw [hρz, zero_mul, round_zero] at hp
    have hpz : p = 0 := (Double.fin.inj hp).symm
    rw [hpz, zero_add]
    exact round_of_isDouble ha

/-- Witness of C16 as amended: with `RAND_MAX = 2147483647` the call `runif(3, 5)` of `main`
returns 5 for `r = RAND_MAX` and 3 for `r = 0`. -/
theorem runif_in_bounds_witness :
    (0 < 2147483647 ∧ 2147483647 ≤ 2147483647 ∧ 2147483647 ≤ 2147483647 ∧
      isDouble (.fin 3) = true ∧ (3 : ℚ) ≤ 5 ∧ fsub (.fin 5) (.fin 3) = .fin 2) ∧
    (∃ u top : Double, runif 2147483647 2147483647 (.fin 3) (.fin 5) = .ok u ∧
      runif 2147483647 2147483647 (.fin 3) (.fin 5) = .ok top ∧
      top = fadd (.fin 2) (.fin 3) ∧ le (.fin 3) u = true ∧ le u top = true ∧
      (2147483647 = 0 → u = .fin 3)) ∧
    runif 2147483647 2147483647 (.fin 3) (.fin 5) = .ok (.fin 5) ∧
    runif 2147483647 0 (.fin 3) (.fin 5) = .ok (.fin 3) :=
  ⟨⟨by decide, by decide, by decide, by decide!, by norm_num, by decide!⟩,
    runif_in_bounds 2147483647 2147483647 3 5 2 (by decide) (by decide) (by decide)
      (by decide!) (by norm_num) (by decide!),
    by decide!, by decide!⟩

/-- C16 as stated fails in `double` arithmetic: with `RAND_MAX = 2147483647`, `a = 0.3` and
`b = 0.9`, `runif` returns `0.9000000000000001 > b` for `r = RAND_MAX`. -/
theorem runif_exceeds_upper_bound :
    isDouble (.fin (5404319552844595 / 18014398509481984)) = true ∧
    isDouble (.fin (8106479329266893 / 9007199254740992)) = true ∧
    runif 2147483647 2147483647 (.fin (5404319552844595 / 18014398509481984))
      (.fin (8106479329266893 / 9007199254740992)) =
      .ok (.fin (4053239664633447 / 4503599627370496)) ∧
    lt (.fin (8106479329266893 / 9007199254740992))
      (.fin (4053239664633447 / 4503599627370496)) = true := by
  refine ⟨by decide!, by decide!, by decide!, by decide!⟩

end RejectionSampling.Binary64
